import Mathlib

/-!
# Verification development for `src/random/core-rng.c`

A shallow embedding of the distribution-sampling layer and proofs of its
contract.

Conventions of the embedding.

* Machine integers are `Nat` / `Int` with explicit reduction modulo `2^w`
  (`to_uint64`, `to_int64`, ...).  `long` is the 64-bit `long` of LP64.
* `double` is an abstract carrier `F` with the operations of `DoubleOps`
  (arithmetic, comparisons returning `Bool`, the `libm` functions, and the
  conversions from and to `long`).  Nothing is assumed about these operations
  except that `(long)x` is a 64-bit value; whenever a proof needs a fact of
  binary64 arithmetic it is an explicit hypothesis of the theorem.
* The Uniform Source (`random_uint32`, `random_uint64`, `random_double`, declared
  in `core-rng.h`) is a parameter `Source R F`: a deterministic generator with
  state `R`.
* `aug_state` is reconstructed from the fields `core-rng.c` accesses.  The three
  `calls_*` fields are specification-only counters of the calls made to the
  Uniform Source.
* `for (;;)` / `do .. while` loops that may not terminate take a `fuel`
  argument and return `Option`.
-/

set_option maxRecDepth 100000
set_option maxHeartbeats 400000

namespace CoreRng

/-! ## Machine integers -/

/-- Conversion to `uint64_t`: reduction modulo `2^64`. -/
def to_uint64 (x : Int) : Nat := (x % 2 ^ 64).toNat

/-- Conversion to `uint32_t`: reduction modulo `2^32`. -/
def to_uint32 (x : Int) : Nat := (x % 2 ^ 32).toNat

/-- Conversion to `int64_t` (two's complement wrap-around); also the value of a
`long` / `int64_t` arithmetic result. -/
def to_int64 (x : Int) : Int :=
  if x % 2 ^ 64 < 2 ^ 63 then x % 2 ^ 64 else x % 2 ^ 64 - 2 ^ 64

/-- Conversion to `int32_t` (two's complement wrap-around). -/
def to_int32 (x : Int) : Int :=
  if x % 2 ^ 32 < 2 ^ 31 then x % 2 ^ 32 else x % 2 ^ 32 - 2 ^ 32

/-- Result of `long` arithmetic (64-bit). -/
def to_long (x : Int) : Int := to_int64 x

/-! ## Doubles -/

/-- The operations on `double` used by `core-rng.c`.  Decimal constants are
written as scientific literals (the `OfScientific` parent); an integer constant
in a `double` context (`lam >= 10`, `np*q + 1`) is the same constant, written
`10.0`, `1.0`.  The cast `(long)x` yields a 64-bit `long` (`toLong_range`); C
leaves it undefined when `x` is NaN or outside the range of `long`, and the
instances below return `LONG_MIN = -2^63` there, as x86-64 does. -/
class DoubleOps (F : Type) extends Add F, Sub F, Mul F, Div F, Neg F, OfScientific F where
  /-- C `a < b` -/
  lt : F → F → Bool
  /-- C `a <= b` -/
  le : F → F → Bool
  /-- C `a == b` -/
  eq : F → F → Bool
  log : F → F
  exp : F → F
  sqrt : F → F
  floor : F → F
  fabs : F → F
  pow : F → F → F
  /-- implicit conversion `long -> double` -/
  ofLong : Int → F
  /-- the cast `(long)x` -/
  toLong : F → Int
  /-- the value of `(long)x` is a 64-bit `long` -/
  toLong_range : ∀ a : F, -2 ^ 63 ≤ toLong a ∧ toLong a < 2 ^ 63

namespace DoubleOps
variable {F : Type} [DoubleOps F]

/-- C `a > b` -/
def gt (a b : F) : Bool := lt b a

/-- C `a >= b` -/
def ge (a b : F) : Bool := le b a

/-- C `a != b` -/
def ne (a b : F) : Bool := !(eq a b)

end DoubleOps

open DoubleOps

/-! ## The Uniform Source and the sampler state -/

/-- The Uniform Source: the three primitives of `core-rng.h`, as a deterministic
generator over a state `R`. -/
structure Source (R F : Type) where
  random_uint32 : R → Nat × R
  random_uint64 : R → Nat × R
  random_double : R → F × R

/-- Fields of `binomial_t` (`state->binomial->...`). -/
structure binomial_t (F : Type) where
  has_binomial : Int
  psave : F
  nsave : Int
  r : F
  q : F
  fm : F
  m : Int
  p1 : F
  xm : F
  xl : F
  xr : F
  c : F
  laml : F
  lamr : F
  p2 : F
  p3 : F
  p4 : F
deriving DecidableEq

/-- Fields of `aug_state`.  `rng` is the state of the Uniform Source; the
`calls_*` fields count the calls made to each primitive (specification only). -/
structure aug_state (R F : Type) where
  rng : R
  binomial : binomial_t F
  has_gauss : Bool
  gauss : F
  shift_zig_random_int : Int
  zig_random_int : Nat
  calls_uint32 : Nat
  calls_uint64 : Nat
  calls_double : Nat
deriving DecidableEq

section Primitives
variable {R F : Type} (S : Source R F)

/-- Call of `random_uint32(state)`. -/
def random_uint32 (s : aug_state R F) : Nat × aug_state R F :=
  ((S.random_uint32 s.rng).1 % 2 ^ 32,
   { s with rng := (S.random_uint32 s.rng).2, calls_uint32 := s.calls_uint32 + 1 })

/-- Call of `random_uint64(state)`. -/
def random_uint64 (s : aug_state R F) : Nat × aug_state R F :=
  ((S.random_uint64 s.rng).1 % 2 ^ 64,
   { s with rng := (S.random_uint64 s.rng).2, calls_uint64 := s.calls_uint64 + 1 })

/-- Call of `random_double(state)`. -/
def random_double (s : aug_state R F) : F × aug_state R F :=
  ((S.random_double s.rng).1,
   { s with rng := (S.random_double s.rng).2, calls_double := s.calls_double + 1 })

end Primitives

/-! ## Bounded integers (`core-rng.c` lines 3-41) -/

section Bounded
variable {R F : Type} (S : Source R F)

/-- The value `threshold = -bound % bound` in `uint64_t` arithmetic. -/
def threshold64 (bound : Nat) : Nat := to_uint64 (-(bound : Int)) % bound

/-- The value `threshold = -bound % bound` in `uint32_t` arithmetic. -/
def threshold32 (bound : Nat) : Nat := to_uint32 (-(bound : Int)) % bound

/-- The `for (;;)` loop of `random_bounded_uint64`. -/
def random_bounded_uint64_loop (bound threshold : Nat) :
    Nat → aug_state R F → Option (Nat × aug_state R F)
  | 0, _ => none
  | fuel + 1, s =>
    let d := random_uint64 S s
    if d.1 ≥ threshold then some (d.1 % bound, d.2)
    else random_bounded_uint64_loop bound threshold fuel d.2

/-- Function `random_bounded_uint64(state, bound)`. -/
def random_bounded_uint64 (fuel : Nat) (s : aug_state R F) (bound : Nat) :
    Option (Nat × aug_state R F) :=
  random_bounded_uint64_loop S bound (threshold64 bound) fuel s

/-- The `for (;;)` loop of `random_bounded_uint32`. -/
def random_bounded_uint32_loop (bound threshold : Nat) :
    Nat → aug_state R F → Option (Nat × aug_state R F)
  | 0, _ => none
  | fuel + 1, s =>
    let d := random_uint32 S s
    if d.1 ≥ threshold then some (d.1 % bound, d.2)
    else random_bounded_uint32_loop bound threshold fuel d.2

/-- Function `random_bounded_uint32(state, bound)`. -/
def random_bounded_uint32 (fuel : Nat) (s : aug_state R F) (bound : Nat) :
    Option (Nat × aug_state R F) :=
  random_bounded_uint32_loop S bound (threshold32 bound) fuel s

/-- The return `(int64_t)(r + low)`: the sum is taken in `uint64_t`. -/
def int64_unsigned_branch (r : Nat) (low : Int) : Int :=
  to_int64 (((r + to_uint64 low) % 2 ^ 64 : Nat) : Int)

/-- The return `(int64_t)r + low`: the sum is taken in `int64_t`. -/
def int64_signed_branch (r : Nat) (low : Int) : Int :=
  to_int64 (to_int64 (r : Int) + low)

/-- Function `random_bounded_int64(state, low, high)`. -/
def random_bounded_int64 (fuel : Nat) (s : aug_state R F) (low high : Int) :
    Option (Int × aug_state R F) :=
  match random_bounded_uint64 S fuel s (to_uint64 (to_int64 (high - low))) with
  | none => none
  | some (r, s1) =>
    if r ≥ to_uint64 (to_int64 (-low)) then some (int64_unsigned_branch r low, s1)
    else some (int64_signed_branch r low, s1)

/-- The return `(int32_t)(r + low)`: the sum is taken in `uint32_t`. -/
def int32_unsigned_branch (r : Nat) (low : Int) : Int :=
  to_int32 (((r + to_uint32 low) % 2 ^ 32 : Nat) : Int)

/-- The return `(int32_t)r + low`: the sum is taken in `int32_t`. -/
def int32_signed_branch (r : Nat) (low : Int) : Int :=
  to_int32 (to_int32 (r : Int) + low)

/-- Function `random_bounded_int32(state, low, high)`. -/
def random_bounded_int32 (fuel : Nat) (s : aug_state R F) (low high : Int) :
    Option (Int × aug_state R F) :=
  match random_bounded_uint32 S fuel s (to_uint32 (to_int32 (high - low))) with
  | none => none
  | some (r, s1) =>
    if r ≥ to_uint32 (to_int32 (-low)) then some (int32_unsigned_branch r low, s1)
    else some (int32_signed_branch r low, s1)

end Bounded

/-! ## Elementary transforms and the polar Gaussian (lines 43-81) -/

section Continuous
variable {R F : Type} [DoubleOps F] (S : Source R F)

/-- Function `random_sample(state)`. -/
def random_sample (s : aug_state R F) : F × aug_state R F :=
  random_double S s

/-- Function `random_standard_exponential(state)`: `-log(1.0 - random_double(state))`. -/
def random_standard_exponential (s : aug_state R F) : F × aug_state R F :=
  let d := random_double S s
  (-(log (1.0 - d.1)), d.2)

/-- The `do .. while (r2 >= 1.0 || r2 == 0.0)` loop of `random_gauss`; returns
the accepted `(x1, x2, r2)`. -/
def random_gauss_loop : Nat → aug_state R F → Option ((F × F × F) × aug_state R F)
  | 0, _ => none
  | fuel + 1, s =>
    let d1 := random_double S s
    let x1 := 2.0 * d1.1 - 1.0
    let d2 := random_double S d1.2
    let x2 := 2.0 * d2.1 - 1.0
    let r2 := x1 * x1 + x2 * x2
    if ge r2 1.0 || eq r2 0.0 then random_gauss_loop fuel d2.2
    else some ((x1, x2, r2), d2.2)

/-- The Box-Muller factor `f = sqrt(-2.0*log(r2)/r2)`. -/
def gauss_factor (r2 : F) : F := sqrt ((-2.0) * log r2 / r2)

/-- Function `random_gauss(state)`. -/
def random_gauss (fuel : Nat) (s : aug_state R F) : Option (F × aug_state R F) :=
  if s.has_gauss then
    let temp := s.gauss
    some (temp, { s with has_gauss := false, gauss := 0.0 })
  else
    match random_gauss_loop S fuel s with
    | none => none
    | some ((x1, x2, r2), s1) =>
      let f := gauss_factor r2
      some (f * x2, { s1 with gauss := f * x1, has_gauss := true })

/-! ## Standard gamma (lines 83-135) -/

/-- The `for (;;)` loop of the branch `shape < 1.0`. -/
def standard_gamma_small_loop (shape : F) : Nat → aug_state R F → Option (F × aug_state R F)
  | 0, _ => none
  | fuel + 1, s =>
    let dU := random_double S s
    let U := dU.1
    let dV := random_standard_exponential S dU.2
    let V := dV.1
    if le U (1.0 - shape) then
      let X := pow U (1.0 / shape)
      if le X V then some (X, dV.2)
      else standard_gamma_small_loop shape fuel dV.2
    else
      let Y := -(log ((1.0 - U) / shape))
      let X := pow (1.0 - shape + shape * Y) (1.0 / shape)
      if le X (V + Y) then some (X, dV.2)
      else standard_gamma_small_loop shape fuel dV.2

/-- The inner `do { X = random_gauss(state); V = 1.0 + c*X; } while (V <= 0.0)`;
returns `(X, V)`. -/
def standard_gamma_gauss_loop (c : F) : Nat → aug_state R F → Option ((F × F) × aug_state R F)
  | 0, _ => none
  | fuel + 1, s =>
    match random_gauss S fuel s with
    | none => none
    | some (X, s1) =>
      let V := 1.0 + c * X
      if le V 0.0 then standard_gamma_gauss_loop c fuel s1
      else some ((X, V), s1)

/-- The outer `for (;;)` loop of the branch `shape > 1.0`. -/
def standard_gamma_large_loop (b c : F) : Nat → aug_state R F → Option (F × aug_state R F)
  | 0, _ => none
  | fuel + 1, s =>
    match standard_gamma_gauss_loop S c fuel s with
    | none => none
    | some ((X, V0), s1) =>
      let V := V0 * V0 * V0
      let dU := random_double S s1
      let U := dU.1
      if lt U (1.0 - 0.0331 * (X * X) * (X * X)) then some (b * V, dU.2)
      else if lt (log U) (0.5 * X * X + b * (1.0 - V + log V)) then some (b * V, dU.2)
      else standard_gamma_large_loop b c fuel dU.2

/-- Function `random_standard_gamma(state, shape)`. -/
def random_standard_gamma (fuel : Nat) (s : aug_state R F) (shape : F) :
    Option (F × aug_state R F) :=
  if eq shape 1.0 then
    some (random_standard_exponential S s)
  else if lt shape 1.0 then
    standard_gamma_small_loop S shape fuel s
  else
    let b := shape - 1.0 / 3.0
    let c := 1.0 / sqrt (9.0 * b)
    standard_gamma_large_loop S b c fuel s

/-- Function `random_gamma(state, shape, scale)`. -/
def random_gamma (fuel : Nat) (s : aug_state R F) (shape scale : F) :
    Option (F × aug_state R F) :=
  match random_standard_gamma S fuel s shape with
  | none => none
  | some (g, s1) => some (scale * g, s1)

end Continuous

/-! ## Log-gamma (lines 143-183) -/

section LogGamma
variable {F : Type} [DoubleOps F]

/-- The coefficient table `a[10]` of `loggam`. -/
def loggam_a : List F :=
  [8.333333333333333e-02, -2.777777777777778e-03,
   7.936507936507937e-04, -5.952380952380952e-04,
   8.417508417508418e-04, -1.917526917526918e-03,
   6.410256410256410e-03, -2.955065359477124e-02,
   1.796443723688307e-01, -1.39243221690590e+00]

/-- The loop `for (k=8; k>=0; k--) { gl0 *= x2; gl0 += a[k]; }`, entered with
`cnt = k + 1` iterations left. -/
def loggam_series (x2 : F) : Nat → F → F
  | 0, gl0 => gl0
  | k + 1, gl0 => loggam_series x2 k (gl0 * x2 + loggam_a.getD k 0.0)

/-- The loop `for (k=1; k<=n; k++) { gl -= log(x0-1.0); x0 -= 1.0; }` with `cnt`
iterations left. -/
def loggam_unshift : Nat → F → F → F
  | 0, _, gl => gl
  | cnt + 1, x0, gl => loggam_unshift cnt (x0 - 1.0) (gl - log (x0 - 1.0))

/-- The shift count `n` of `loggam`: `(long)(7 - x)` when `x <= 7.0`, else 0. -/
def loggam_n (x : F) : Int :=
  if le x 7.0 then toLong (7.0 - x) else 0

/-- Function `loggam(x)`. -/
def loggam (x : F) : F :=
  if eq x 1.0 || eq x 2.0 then 0.0
  else
    let n := loggam_n x
    let x0 := if le x 7.0 then x + ofLong n else x
    let x2 := 1.0 / (x0 * x0)
    let xp := 2.0 * 3.14159265358979323846
    let gl0 := loggam_series x2 9 (loggam_a.getD 9 0.0)
    let gl := gl0 / x0 + 0.5 * log xp + (x0 - 0.5) * log x0 - x0
    if le x 7.0 then loggam_unshift n.toNat x0 gl else gl

end LogGamma

/-! ## Poisson (lines 330-415) -/

section Poisson
variable {R F : Type} [DoubleOps F] (S : Source R F)

/-- The `while (1)` loop of `random_poisson_mult`. -/
def random_poisson_mult_loop (enlam : F) : Nat → Int → F → aug_state R F →
    Option (Int × aug_state R F)
  | 0, _, _, _ => none
  | fuel + 1, X, prod, s =>
    let d := random_double S s
    let prod1 := prod * d.1
    if gt prod1 enlam then random_poisson_mult_loop enlam fuel (to_long (X + 1)) prod1 d.2
    else some (X, d.2)

/-- Function `random_poisson_mult(state, lam)`. -/
def random_poisson_mult (fuel : Nat) (s : aug_state R F) (lam : F) :
    Option (Int × aug_state R F) :=
  random_poisson_mult_loop S (exp (-lam)) fuel 0 1.0 s

/-- The candidate `k = (long)floor((2*a/us + b)*U + lam + 0.43)` of PTRS; as the
value of a cast it is a 64-bit `long` (`DoubleOps.toLong_range`). -/
def ptrs_k (lam a b U us : F) : Int :=
  toLong (floor ((2.0 * a / us + b) * U + lam + 0.43))

/-- The `while (1)` loop of `random_poisson_ptrs`. -/
def random_poisson_ptrs_loop (lam loglam a b invalpha vr : F) :
    Nat → aug_state R F → Option (Int × aug_state R F)
  | 0, _ => none
  | fuel + 1, s =>
    let dU := random_double S s
    let U := dU.1 - 0.5
    let dV := random_double S dU.2
    let V := dV.1
    let us := 0.5 - fabs U
    let k := ptrs_k lam a b U us
    if ge us 0.07 && le V vr then some (k, dV.2)
    else if decide (k < 0) || (lt us 0.013 && gt V us) then
      random_poisson_ptrs_loop lam loglam a b invalpha vr fuel dV.2
    else if le (log V + log invalpha - log (a / (us * us) + b))
        (-lam + ofLong k * loglam - loggam (ofLong (to_long (k + 1)))) then
      some (k, dV.2)
    else random_poisson_ptrs_loop lam loglam a b invalpha vr fuel dV.2

/-- Function `random_poisson_ptrs(state, lam)`. -/
def random_poisson_ptrs (fuel : Nat) (s : aug_state R F) (lam : F) :
    Option (Int × aug_state R F) :=
  let slam := sqrt lam
  let loglam := log lam
  let b := 0.931 + 2.53 * slam
  let a := (-0.059) + 0.02483 * b
  let invalpha := 1.1239 + 1.1328 / (b - 3.4)
  let vr := 0.9277 - 3.6224 / (b - 2.0)
  random_poisson_ptrs_loop S lam loglam a b invalpha vr fuel s

/-- Function `random_poisson(state, lam)`. -/
def random_poisson (fuel : Nat) (s : aug_state R F) (lam : F) :
    Option (Int × aug_state R F) :=
  if ge lam 10.0 then random_poisson_ptrs S fuel s lam
  else if eq lam 0.0 then some (0, s)
  else random_poisson_mult S fuel s lam

end Poisson

/-! ## Ziggurat (lines 418-500) -/

section Ziggurat
variable {R F : Type} [DoubleOps F] (S : Source R F)

/-- Macro `#define ZIGNOR_C 128` -/
def ZIGNOR_C : Nat := 128

/-- Macro `#define ZIGNOR_R 3.442619855899` -/
def ZIGNOR_R : F := 3.442619855899

/-- Macro `#define ZIGNOR_V 9.91256303526217e-3` -/
def ZIGNOR_V : F := 9.91256303526217e-3

/-- Function `zig_NormalTail(state, iNegative)`. -/
def zig_NormalTail (iNegative : Bool) : Nat → aug_state R F → Option (F × aug_state R F)
  | 0, _ => none
  | fuel + 1, s =>
    let d1 := random_double S s
    let x := log d1.1 / ZIGNOR_R
    let d2 := random_double S d1.2
    let y := log d2.1
    if lt (x * x) ((-2.0) * y) then
      some (if iNegative then x - ZIGNOR_R else ZIGNOR_R - x, d2.2)
    else zig_NormalTail iNegative fuel d2.2

/-- The static tables `s_adZigX[ZIGNOR_C + 1]` and `s_adZigR[ZIGNOR_C]`. -/
structure zig_tables (F : Type) where
  s_adZigX : Array F
  s_adZigR : Array F

/-- The loop `for (i = 2; i < ZIGNOR_C; i++)` of `zig_NorInit`, with `cnt`
iterations left; carries `f` and the table. -/
def zig_NorInit_X : Nat → Nat → F → Array F → Array F
  | 0, _, _, X => X
  | cnt + 1, i, f, X =>
    let xi := sqrt ((-2.0) * log (ZIGNOR_V / X.getD (i - 1) 0.0 + f))
    zig_NorInit_X cnt (i + 1) (exp ((-0.5) * xi * xi)) (X.setD i xi)

/-- The loop `for (i = 0; i < ZIGNOR_C; i++) s_adZigR[i] = s_adZigX[i + 1] / s_adZigX[i]`
of `zig_NorInit`, with `cnt` iterations left. -/
def zig_NorInit_R (X : Array F) : Nat → Nat → Array F → Array F
  | 0, _, Rv => Rv
  | cnt + 1, i, Rv =>
    zig_NorInit_R X cnt (i + 1) (Rv.setD i (X.getD (i + 1) 0.0 / X.getD i 0.0))

/-- Function `zig_NorInit()`: the tables it leaves in the (zero-initialised) statics. -/
def zig_NorInit : zig_tables F :=
  let f : F := exp ((-0.5) * ZIGNOR_R * ZIGNOR_R)
  let X0 : Array F := Array.mkArray (ZIGNOR_C + 1) 0.0
  let X1 := X0.setD 0 (ZIGNOR_V / f)
  let X2 := X1.setD 1 ZIGNOR_R
  let X3 := X2.setD ZIGNOR_C 0.0
  let X := zig_NorInit_X (ZIGNOR_C - 2) 2 f X3
  { s_adZigX := X
    s_adZigR := zig_NorInit_R X ZIGNOR_C 0 (Array.mkArray ZIGNOR_C 0.0) }

/-- Lines 476-482 of `random_gauss_zig`: shift the cached word or fetch a new
one, then advance the counter. -/
def zig_next_byte (s : aug_state R F) : aug_state R F :=
  let s1 : aug_state R F :=
    if s.shift_zig_random_int ≠ 0 then
      { s with zig_random_int := s.zig_random_int >>> 8 }
    else
      let d := random_uint64 S s
      { d.2 with zig_random_int := d.1 }
  { s1 with shift_zig_random_int := Int.tmod (to_int32 (s1.shift_zig_random_int + 1)) 8 }

/-- What one iteration of the `for (;;)` loop of `random_gauss_zig` does: the
block index `i` it used, and `ret = some x` when it executes `return x`,
`ret = none` when it falls through to the next iteration. -/
structure zig_iteration (F : Type) where
  i : Nat
  ret : Option F
deriving DecidableEq

/-- One iteration of the `for (;;)` loop of `random_gauss_zig` (lines 468-498). -/
def random_gauss_zig_iter (T : zig_tables F) (fuel : Nat) (s : aug_state R F) :
    Option (zig_iteration F × aug_state R F) :=
  let d := random_double S s
  let u := 2.0 * d.1 - 1.0
  let s2 := zig_next_byte S d.2
  let i := (s2.zig_random_int &&& 0x7F) % 2 ^ 32
  if lt (fabs u) (T.s_adZigR.getD i 0.0) then
    some (⟨i, some (u * T.s_adZigX.getD i 0.0)⟩, s2)
  else if i = 0 then
    match zig_NormalTail S (lt u 0.0) fuel s2 with
    | none => none
    | some (x, s3) => some (⟨i, some x⟩, s3)
  else
    let x := u * T.s_adZigX.getD i 0.0
    let f0 := exp ((-0.5) * (T.s_adZigX.getD i 0.0 * T.s_adZigX.getD i 0.0 - x * x))
    let f1 := exp ((-0.5) * (T.s_adZigX.getD (i + 1) 0.0 * T.s_adZigX.getD (i + 1) 0.0 - x * x))
    let d2 := random_double S s2
    if lt (f1 + d2.1 * (f0 - f1)) 1.0 then some (⟨i, some x⟩, d2.2)
    else some (⟨i, none⟩, d2.2)

/-- The `for (;;)` loop of `random_gauss_zig` over tables `T`. -/
def random_gauss_zig_loop (T : zig_tables F) : Nat → aug_state R F → Option (F × aug_state R F)
  | 0, _ => none
  | fuel + 1, s =>
    match random_gauss_zig_iter S T fuel s with
    | none => none
    | some (⟨_, some x⟩, s1) => some (x, s1)
    | some (⟨_, none⟩, s1) => random_gauss_zig_loop T fuel s1

/-- Function `random_gauss_zig(state)`; the lazily initialised statics are the tables of
`zig_NorInit`. -/
def random_gauss_zig (fuel : Nat) (s : aug_state R F) : Option (F × aug_state R F) :=
  random_gauss_zig_loop S zig_NorInit fuel s

end Ziggurat

/-! ## Binomial (lines 504-712) -/

section Binomial
variable {R F : Type} [DoubleOps F] (S : Source R F)

/-- Modelled from the spec: the macro `min` that `core-rng.c` uses is defined
outside the file; it is taken as `((x < y) ? x : y)` on `double` operands. -/
def dmin (x y : F) : F := if lt x y then x else y

/-- The test `!has_binomial || nsave != n || psave != p` guarding the set-up of
both binomial algorithms. -/
def binomial_stale (b : binomial_t F) (n : Int) (p : F) : Bool :=
  decide (b.has_binomial = 0) || decide (b.nsave ≠ n) || ne b.psave p

/-- The set-up block of `random_binomial_btpe` (lines 515-533): it writes every
field of `binomial_t`. -/
def btpe_setup (n : Int) (p : F) : binomial_t F :=
  let r := dmin p (1.0 - p)
  let q := 1.0 - r
  let fm := ofLong n * r + r
  let m := toLong (floor fm)
  let p1 := floor (2.195 * sqrt (ofLong n * r * q) - 4.6 * q) + 0.5
  let xm := ofLong m + 0.5
  let xl := xm - p1
  let xr := xm + p1
  let c := 0.134 + 20.5 / (15.3 + ofLong m)
  let a := (fm - xl) / (fm - xl * r)
  let laml := a * (1.0 + a / 2.0)
  let a1 := (xr - fm) / (xr * q)
  let lamr := a1 * (1.0 + a1 / 2.0)
  let p2 := p1 * (1.0 + 2.0 * c)
  let p3 := p2 + c / laml
  let p4 := p3 + c / lamr
  { has_binomial := 1, psave := p, nsave := n, r := r, q := q, fm := fm, m := m,
    p1 := p1, xm := xm, xl := xl, xr := xr, c := c, laml := laml, lamr := lamr,
    p2 := p2, p3 := p3, p4 := p4 }

/-- The loop `for (i = lo; i <= hi; i++) F *= (a/i - s)` with `cnt` iterations left. -/
def btpe_F_mul (a s : F) : Nat → Int → F → F
  | 0, _, Fv => Fv
  | cnt + 1, i, Fv => btpe_F_mul a s cnt (to_long (i + 1)) (Fv * (a / ofLong i - s))

/-- The loop `for (i = lo; i <= hi; i++) F /= (a/i - s)` with `cnt` iterations left. -/
def btpe_F_div (a s : F) : Nat → Int → F → F
  | 0, _, Fv => Fv
  | cnt + 1, i, Fv => btpe_F_div a s cnt (to_long (i + 1)) (Fv / (a / ofLong i - s))

/-- One correction term `(13680.-(462.-(132.-(99.-140./t2)/t2)/t2)/t2)/t/166320.` -/
def btpe_stirling (t2 t : F) : F :=
  (13680.0 - (462.0 - (132.0 - (99.0 - 140.0 / t2) / t2) / t2) / t2) / t / 166320.0

/-- Step52 of BTPE (squeeze, then the log-domain test): `true` is
`goto Step60` (accept), `false` is `goto Step10`. -/
def btpe_step52 (n m : Int) (r q nrq xm : F) (y k : Int) (v : F) : Bool :=
  let rho := (ofLong k / nrq) *
    ((ofLong k * (ofLong k / 3.0 + 0.625) + 0.16666666666666666) / nrq + 0.5)
  let t := ofLong (to_long (to_long (-k) * k)) / (2.0 * nrq)
  let A := log v
  if lt A (t - rho) then true
  else if gt A (t + rho) then false
  else
    let x1 : F := ofLong (to_long (y + 1))
    let f1 : F := ofLong (to_long (m + 1))
    let z : F := ofLong (to_long (to_long (n + 1) - m))
    let w : F := ofLong (to_long (to_long (n - y) + 1))
    let x2 := x1 * x1
    let f2 := f1 * f1
    let z2 := z * z
    let w2 := w * w
    if gt A (xm * log (f1 / x1)
        + (ofLong (to_long (n - m)) + 0.5) * log (z / w)
        + ofLong (to_long (y - m)) * log (w * r / (x1 * q))
        + btpe_stirling f2 f1
        + btpe_stirling z2 z
        + btpe_stirling x2 x1
        + btpe_stirling w2 w) then false
    else true

/-- Step50 of BTPE (explicit evaluation of the ratio, or Step52): `true` is
`goto Step60` (accept), `false` is `goto Step10`. -/
def btpe_step50 (n m : Int) (r q nrq xm : F) (y : Int) (v : F) : Bool :=
  let k := to_long (Int.natAbs (to_long (y - m)))
  if decide (k > 20) && lt (ofLong k) (nrq / 2.0 - 1.0) then
    btpe_step52 n m r q nrq xm y k v
  else
    let s := r / q
    let a := s * ofLong (to_long (n + 1))
    let Fv : F :=
      if m < y then btpe_F_mul a s (y - m).toNat (to_long (m + 1)) 1.0
      else if m > y then btpe_F_div a s (m - y).toNat (to_long (y + 1)) 1.0
      else 1.0
    if gt v Fv then false else true

/-- One pass through Step10 .. Step52 of BTPE with the constants `b`:
`some y` reaches Step60 with candidate `y`, `none` is `goto Step10`. -/
def btpe_attempt (b : binomial_t F) (n : Int) (s : aug_state R F) :
    Option Int × aug_state R F :=
  let nrq := ofLong n * b.r * b.q
  let dU := random_double S s
  let u := dU.1 * b.p4
  let dV := random_double S dU.2
  let v := dV.1
  if !(gt u b.p1) then
    (some (toLong (floor (b.xm - b.p1 * v + u))), dV.2)
  else if !(gt u b.p2) then
    -- Step20
    let x := b.xl + (u - b.p1) / b.c
    let v1 := v * b.c + 1.0 - fabs (ofLong b.m - x + 0.5) / b.p1
    if gt v1 1.0 then (none, dV.2)
    else
      let y := toLong (floor x)
      (if btpe_step50 n b.m b.r b.q nrq b.xm y v1 then some y else none, dV.2)
  else if !(gt u b.p3) then
    -- Step30
    let y := toLong (floor (b.xl + log v / b.laml))
    if y < 0 then (none, dV.2)
    else
      let v1 := v * (u - b.p2) * b.laml
      (if btpe_step50 n b.m b.r b.q nrq b.xm y v1 then some y else none, dV.2)
  else
    -- Step40
    let y := toLong (floor (b.xr - log v / b.lamr))
    if y > n then (none, dV.2)
    else
      let v1 := v * (u - b.p3) * b.lamr
      (if btpe_step50 n b.m b.r b.q nrq b.xm y v1 then some y else none, dV.2)

/-- The retry loop `Step10: ... goto Step10` of BTPE; returns the `y` that
reaches Step60. -/
def btpe_loop (b : binomial_t F) (n : Int) : Nat → aug_state R F → Option (Int × aug_state R F)
  | 0, _ => none
  | fuel + 1, s =>
    match btpe_attempt S b n s with
    | (some y, s1) => some (y, s1)
    | (none, s1) => btpe_loop b n fuel s1

/-- Function `random_binomial_btpe(state, n, p)`. -/
def random_binomial_btpe (fuel : Nat) (s : aug_state R F) (n : Int) (p : F) :
    Option (Int × aug_state R F) :=
  let s0 : aug_state R F :=
    if binomial_stale s.binomial n p then { s with binomial := btpe_setup n p } else s
  match btpe_loop S s0.binomial n fuel s0 with
  | none => none
  | some (y, s1) =>
    -- Step60
    if gt p 0.5 then some (to_long (n - y), s1) else some (y, s1)

/-- The set-up block of `random_binomial_inversion` (lines 650-656): it writes
`nsave`, `psave`, `has_binomial`, `q`, `r`, `c` and `m`. -/
def inversion_setup (b : binomial_t F) (n : Int) (p : F) : binomial_t F :=
  let q := 1.0 - p
  let qn := exp (ofLong n * log q)
  let np := ofLong n * p
  let bound := toLong (dmin (ofLong n) (np + 10.0 * sqrt (np * q + 1.0)))
  { b with nsave := n, psave := p, has_binomial := 1, q := q, r := qn, c := np, m := bound }

/-- The `while (U > px)` search loop of `random_binomial_inversion`. -/
def binomial_inversion_loop (n : Int) (p q qn : F) (bound : Int) :
    Nat → Int → F → F → aug_state R F → Option (Int × aug_state R F)
  | 0, _, _, _, _ => none
  | fuel + 1, X, px, U, s =>
    if gt U px then
      let X1 := to_long (X + 1)
      if X1 > bound then
        let d := random_double S s
        binomial_inversion_loop n p q qn bound fuel 0 qn d.1 d.2
      else
        let U1 := U - px
        let px1 := (ofLong (to_long (to_long (n - X1) + 1)) * p * px) / (ofLong X1 * q)
        binomial_inversion_loop n p q qn bound fuel X1 px1 U1 s
    else some (X, s)

/-- Function `random_binomial_inversion(state, n, p)`. -/
def random_binomial_inversion (fuel : Nat) (s : aug_state R F) (n : Int) (p : F) :
    Option (Int × aug_state R F) :=
  let s0 : aug_state R F :=
    if binomial_stale s.binomial n p then { s with binomial := inversion_setup s.binomial n p }
    else s
  let q := s0.binomial.q
  let qn := s0.binomial.r
  let bound := s0.binomial.m
  let d := random_double S s0
  binomial_inversion_loop S n p q qn bound fuel 0 qn d.1 d.2

/-- Function `random_binomial(state, n, p)`. -/
def random_binomial (fuel : Nat) (s : aug_state R F) (n : Int) (p : F) :
    Option (Int × aug_state R F) :=
  if le p 0.5 then
    if le (p * ofLong n) 30.0 then random_binomial_inversion S fuel s n p
    else random_binomial_btpe S fuel s n p
  else
    let q := 1.0 - p
    if le (q * ofLong n) 30.0 then
      match random_binomial_inversion S fuel s n q with
      | none => none
      | some (x, s1) => some (to_long (n - x), s1)
    else
      match random_binomial_btpe S fuel s n q with
      | none => none
      | some (x, s1) => some (to_long (n - x), s1)

end Binomial

/-! ## A concrete instance for evaluating the embedding

`Frac` is a small exact model of `double` on which the definitions above can be
run: unnormalised fractions with exact `+ - * /`, comparisons, `floor` and
`fabs`.  A zero denominator is the invalid value (it stands for NaN): it is what
a division by zero and the square root of a negative number give, it propagates
through the arithmetic, every comparison with it is false, and `(long)` of it is
`LONG_MIN`.  `sqrt` is exact on squares (`sqrt (a/b) = isqrt (a*b) / b`, rounded
down otherwise).  The conversion `long -> double` rounds to 53 significant bits
(to nearest, ties to even) as binary64 does, and `(long)x` truncates toward zero
and gives `LONG_MIN` outside the range of `long`.  `log`, `exp` and `pow` have no
exact rational values in general; the model uses first-order stand-ins that are
exact at the points `log 1 = 0`, `exp 0 = 1` and `pow x 1 = x`.  The general
results below hold for every `DoubleOps`; `Frac` only serves to exhibit concrete
runs, and the runs that matter are chosen so that every operation they perform
is exact in binary64 too. -/

/-- A fraction `num / den`. -/
structure Frac where
  num : Int
  den : Nat
deriving DecidableEq

namespace Frac

/-- Exact sum. -/
def add (a b : Frac) : Frac := ⟨a.num * b.den + b.num * a.den, a.den * b.den⟩

/-- Exact negation. -/
def neg (a : Frac) : Frac := ⟨-a.num, a.den⟩

/-- Exact difference. -/
def sub (a b : Frac) : Frac := ⟨a.num * b.den - b.num * a.den, a.den * b.den⟩

/-- Exact product. -/
def mul (a b : Frac) : Frac := ⟨a.num * b.num, a.den * b.den⟩

/-- Exact quotient (a zero divisor gives a zero denominator). -/
def div (a b : Frac) : Frac := ⟨a.num * b.den * Int.sign b.num, a.den * b.num.natAbs⟩

/-- Order test by cross-multiplication; false on the invalid value. -/
def lt (a b : Frac) : Bool :=
  decide (a.den ≠ 0 ∧ b.den ≠ 0 ∧ a.num * b.den < b.num * a.den)

/-- Order test by cross-multiplication; false on the invalid value. -/
def le (a b : Frac) : Bool :=
  decide (a.den ≠ 0 ∧ b.den ≠ 0 ∧ a.num * b.den ≤ b.num * a.den)

/-- Equality test by cross-multiplication; false on the invalid value. -/
def eq (a b : Frac) : Bool :=
  decide (a.den ≠ 0 ∧ b.den ≠ 0 ∧ a.num * b.den = b.num * a.den)

/-- Exact floor; the invalid value stays invalid. -/
def floor (a : Frac) : Frac := if a.den = 0 then a else ⟨a.num / a.den, 1⟩

/-- Exact absolute value. -/
def fabs (a : Frac) : Frac := ⟨a.num.natAbs, a.den⟩

/-- Bitwise integer square root: tries the bits `2^(k-1), ..., 2^0` on top of `r`. -/
def isqrt_bits (n : Nat) : Nat → Nat → Nat
  | 0, r => r
  | k + 1, r =>
    if (r + 2 ^ k) * (r + 2 ^ k) ≤ n then isqrt_bits n k (r + 2 ^ k) else isqrt_bits n k r

/-- Integer square root (rounded down) of numbers below `2^512`. -/
def isqrt (n : Nat) : Nat := isqrt_bits n 256 0

/-- Square root: exact on squares, rounded down to a multiple of `1/den` otherwise;
the invalid value on negative arguments. -/
def sqrt (a : Frac) : Frac :=
  if a.num < 0 then ⟨0, 0⟩ else ⟨isqrt (a.num.toNat * a.den), a.den⟩

/-- Rounding of `n >= 2^53` to a multiple of `2^e` (`e >= 1`), to nearest, ties to
the even multiple. -/
def round_at (n e : Nat) : Nat :=
  if n % 2 ^ e > 2 ^ e / 2 ∨ (n % 2 ^ e = 2 ^ e / 2 ∧ (n / 2 ^ e) % 2 = 1) then
    (n / 2 ^ e + 1) * 2 ^ e
  else n / 2 ^ e * 2 ^ e

/-- Rounding of a natural number to 53 significant bits: it looks for the first
`e` (counting up from the given one) with `n < 2^(53+e)`. -/
def round53 (n : Nat) : Nat → Nat → Nat
  | 0, _ => n
  | fuel + 1, e =>
    if n < 2 ^ (53 + e) then (if e = 0 then n else round_at n e)
    else round53 n fuel (e + 1)

/-- The conversion `(double)n` of a `long`: the nearest binary64 value. -/
def ofLong (n : Int) : Frac := ⟨Int.sign n * (round53 n.natAbs 12 0 : Nat), 1⟩

/-- The cast `(long)x`: truncation toward zero; `LONG_MIN` on the invalid value
and outside the range of `long`. -/
def toLong (a : Frac) : Int :=
  if a.den = 0 then -2 ^ 63
  else if -2 ^ 63 ≤ Int.tdiv a.num a.den ∧ Int.tdiv a.num a.den < 2 ^ 63 then
    Int.tdiv a.num a.den
  else -2 ^ 63

/-- The decimal constant `m * 10^(-e)` (or `m * 10^e`). -/
def ofScientific (m : Nat) (s : Bool) (e : Nat) : Frac :=
  if s then ⟨m, 10 ^ e⟩ else ⟨m * 10 ^ e, 1⟩

/-- The model of `double` on fractions. -/
instance instDoubleOps : DoubleOps Frac where
  add := add
  sub := sub
  mul := mul
  div := div
  neg := neg
  ofScientific := ofScientific
  lt := lt
  le := le
  eq := eq
  log := fun x => sub x ⟨1, 1⟩
  exp := fun x => add ⟨1, 1⟩ x
  sqrt := sqrt
  floor := floor
  fabs := fabs
  pow := fun x _ => x
  ofLong := ofLong
  toLong := toLong
  toLong_range := fun a => by
    unfold toLong
    split
    · constructor <;> decide
    · split
      · assumption
      · constructor <;> decide

end Frac

/-- The Uniform Source that replays given streams of draws; its state is the
position in the streams. -/
def stream_source {F : Type} (w32 w64 : Nat → Nat) (d : Nat → F) : Source Nat F where
  random_uint32 := fun k => (w32 k, k + 1)
  random_uint64 := fun k => (w64 k, k + 1)
  random_double := fun k => (d k, k + 1)

/-- A `binomial_t` with every field zero. -/
def binomial_zero : binomial_t Frac :=
  { has_binomial := 0, psave := ⟨0, 1⟩, nsave := 0, r := ⟨0, 1⟩, q := ⟨0, 1⟩, fm := ⟨0, 1⟩,
    m := 0, p1 := ⟨0, 1⟩, xm := ⟨0, 1⟩, xl := ⟨0, 1⟩, xr := ⟨0, 1⟩, c := ⟨0, 1⟩,
    laml := ⟨0, 1⟩, lamr := ⟨0, 1⟩, p2 := ⟨0, 1⟩, p3 := ⟨0, 1⟩, p4 := ⟨0, 1⟩ }

/-- A freshly zeroed `aug_state` over the stream source. -/
def state_zero : aug_state Nat Frac :=
  { rng := 0, binomial := binomial_zero, has_gauss := false, gauss := ⟨0, 1⟩,
    shift_zig_random_int := 0, zig_random_int := 0,
    calls_uint32 := 0, calls_uint64 := 0, calls_double := 0 }

/-! ## Specification vocabulary -/

section Vocabulary
variable {R F : Type} (S : Source R F)

/-- State after `k` consecutive calls of `random_uint64`. -/
def after_uint64 : Nat → aug_state R F → aug_state R F
  | 0, s => s
  | k + 1, s => after_uint64 k (random_uint64 S s).2

/-- Value of the `k`-th (from 0) consecutive call of `random_uint64` from `s`. -/
def draw_uint64 (s : aug_state R F) (k : Nat) : Nat :=
  (random_uint64 S (after_uint64 S k s)).1

/-- State after `k` consecutive calls of `random_uint32`. -/
def after_uint32 : Nat → aug_state R F → aug_state R F
  | 0, s => s
  | k + 1, s => after_uint32 k (random_uint32 S s).2

/-- Value of the `k`-th (from 0) consecutive call of `random_uint32` from `s`. -/
def draw_uint32 (s : aug_state R F) (k : Nat) : Nat :=
  (random_uint32 S (after_uint32 S k s)).1

end Vocabulary

/-! ## Concrete runs used by the witnesses -/

/-- The stream source whose integer draws are `0, 1, 2, ...` and whose every
`random_double` is `3/4`. -/
def demo_source : Source Nat Frac :=
  stream_source (fun k => k) (fun k => k) (fun _ => ⟨3, 4⟩)

/-- The coordinate `x1 = x2 = 2.0*(3/4) - 1.0 = 1/2` of the polar loop on
`demo_source`. -/
def demo_x : Frac := 2.0 * (⟨3, 4⟩ : Frac) - 1.0

/-- The squared radius `r2 = x1*x1 + x2*x2 = 1/2` of the polar loop on `demo_source`. -/
def demo_r2 : Frac := demo_x * demo_x + demo_x * demo_x

/-- The state left by `random_gauss demo_source 1 state_zero`: two doubles drawn,
the paired variate `f*x1` cached. -/
def demo_gauss_state : aug_state Nat Frac :=
  { state_zero with
    rng := 2, calls_double := 2, has_gauss := true,
    gauss := gauss_factor demo_r2 * demo_x }

/-- The stream source whose every 64-bit word is `0x0101010101010101` and whose
every `random_double` is `1/2` (so `u = 0`). -/
def demo_zig_source : Source Nat Frac :=
  stream_source (fun k => k) (fun _ => 0x0101010101010101) (fun _ => ⟨1, 2⟩)

/-- The state before the `k`-th consecutive Ziggurat iteration from `state_zero`
on `demo_zig_source` (every iteration draws one double and accepts in the
rectangle test; the first one also fetches the word). -/
def demo_zig_state (k : Nat) : aug_state Nat Frac :=
  { state_zero with
    rng := if k = 0 then 0 else k + 1
    calls_double := k
    calls_uint64 := if k = 0 then 0 else 1
    shift_zig_random_int := ((k % 8 : Nat) : Int)
    zig_random_int := if k = 0 then 0 else 0x0101010101010101 >>> (8 * (k - 1)) }

/-- What each of these iterations does: block index 1, `return u * s_adZigX[1]`. -/
def demo_zig_iteration : zig_iteration Frac :=
  ⟨1, some ((2.0 * (⟨1, 2⟩ : Frac) - 1.0) * (zig_NorInit (F := Frac)).s_adZigX.getD 1 0.0)⟩

/-- The stream source whose integer draws are `0, 1, 2, ...` and whose every
`random_double` is `1/4`. -/
def demo_quarter_source : Source Nat Frac :=
  stream_source (fun k => k) (fun k => k) (fun _ => ⟨1, 4⟩)

/-- The zeroed state whose binomial cache is as a BTPE call with `(100, 0.5)`
leaves it. -/
def demo_btpe_cached : aug_state Nat Frac :=
  { state_zero with binomial := btpe_setup 100 0.5 }

section PolarVocabulary
variable {R F : Type} [DoubleOps F] (S : Source R F)

/-- One pass through the body of the polar loop of `random_gauss` from `s`: the
pair `(x1, x2)`, `r2`, and the state after the two draws. -/
def polar_pair (s : aug_state R F) : (F × F × F) × aug_state R F :=
  let d1 := random_double S s
  let x1 := 2.0 * d1.1 - 1.0
  let d2 := random_double S d1.2
  let x2 := 2.0 * d2.1 - 1.0
  ((x1, x2, x1 * x1 + x2 * x2), d2.2)

/-- The loop condition `r2 >= 1.0 || r2 == 0.0` of the polar loop. -/
def polar_rejects (r2 : F) : Bool := ge r2 1.0 || eq r2 0.0

/-- State after `k` passes through the body of the polar loop. -/
def polar_after : Nat → aug_state R F → aug_state R F
  | 0, s => s
  | k + 1, s => polar_after k (polar_pair S s).2

end PolarVocabulary

section CacheVocabulary
variable {R F : Type} [DoubleOps F]

/-- The state `s` with the binomial cache emptied (`has_binomial = 0`). -/
def clear_binomial (s : aug_state R F) : aug_state R F :=
  { s with binomial := { s.binomial with has_binomial := 0 } }

/-- The algorithm test `x*n <= 30.0` that `random_binomial` applies to the pair
`(n, x)` it passes down: `true` selects inversion, `false` selects BTPE. -/
def selects_inversion (n : Int) (x : F) : Bool := le (x * ofLong n) 30.0

/-- Coherence of the binomial cache: when `has_binomial` is set it is 1, and the
fields of the algorithm selected for `(nsave, psave)` hold what that algorithm
computes afresh for `(nsave, psave)`: `q`, `r`, `c`, `m` for inversion (running
its set-up changes nothing), all fourteen constants for BTPE. -/
def binomial_coherent (b : binomial_t F) : Prop :=
  b.has_binomial ≠ 0 →
    b.has_binomial = 1 ∧
    (selects_inversion b.nsave b.psave = true → inversion_setup b b.nsave b.psave = b) ∧
    (selects_inversion b.nsave b.psave = false → btpe_setup b.nsave b.psave = b)

/-- States reachable from an empty cache through completed calls of
`random_binomial`. -/
inductive binomial_reachable (S : Source R F) : aug_state R F → Prop
  | empty (s : aug_state R F) : s.binomial.has_binomial = 0 → binomial_reachable S s
  | call (s s' : aug_state R F) (fuel : Nat) (n : Int) (p : F) (x : Int) :
      binomial_reachable S s → random_binomial S fuel s n p = some (x, s') →
      binomial_reachable S s'

end CacheVocabulary

/-- The stream source whose integer draws are `0, 1, 2, ...` and whose every
`random_double` is `1/2`. -/
def demo_half_source : Source Nat Frac :=
  stream_source (fun k => k) (fun k => k) (fun _ => ⟨1, 2⟩)

/-- The state left by `random_binomial_inversion demo_half_source 1 state_zero 0 0.5`:
one double drawn, the inversion constants `q = 0.5`, `qn = 1`, `np = 0`,
`bound = 0` stored in `q`, `r`, `c`, `m`. -/
def demo_inversion_cached : aug_state Nat Frac :=
  { state_zero with
    rng := 1, calls_double := 1, binomial := inversion_setup binomial_zero 0 0.5 }

/-! ## Real-number arithmetic

The claims made "under real-number arithmetic" are stated on the embedding
instantiated with `realDoubleOps`: `double` is `ℝ` and every operation is exact.
`long` stays a 64-bit type: `(long)x` truncates towards zero when the result
fits and is `LONG_MIN` otherwise.  `log`, `sqrt` and `/` are the total functions
of Mathlib; the theorems stated on this instance keep the arguments of `log`
positive, those of `sqrt` non-negative and the converted values in range
wherever the value matters, so they do not depend on the conventions outside
the domain.  The instance is passed explicitly (it is not an instance of the
class), so the arithmetic of `ℝ` elsewhere is untouched. -/

/-- Truncation of a real toward zero. -/
noncomputable def real_trunc (a : ℝ) : Int := if 0 ≤ a then ⌊a⌋ else ⌈a⌉

/-- The cast `(long)x` of a real: its truncation when that fits a `long`,
`LONG_MIN` otherwise. -/
noncomputable def real_toLong (a : ℝ) : Int :=
  if -2 ^ 63 ≤ real_trunc a ∧ real_trunc a < 2 ^ 63 then real_trunc a else -2 ^ 63



/-- Exact real arithmetic as an interpretation of `double`. -/
@[reducible] noncomputable def realDoubleOps : DoubleOps ℝ where
  add := fun a b => a + b
  sub := fun a b => a - b
  mul := fun a b => a * b
  div := fun a b => a / b
  neg := fun a => -a
  ofScientific := fun m s e => (OfScientific.ofScientific m s e : ℝ)
  lt := fun a b => decide (a < b)
  le := fun a b => decide (a ≤ b)
  eq := fun a b => decide (a = b)
  log := Real.log
  exp := Real.exp
  sqrt := Real.sqrt
  floor := fun a => ((⌊a⌋ : Int) : ℝ)
  fabs := fun a => |a|
  pow := fun a b => a ^ b
  ofLong := fun n => (n : ℝ)
  toLong := real_toLong
  toLong_range := fun a => by
    unfold real_toLong
    split
    · assumption
    · constructor <;> decide

section RealVocabulary
variable {F : Type} [DoubleOps F]

/-- The wedge test of `random_gauss_zig` (lines 494-496) on `s_adZigX[i]`,
`s_adZigX[i+1]`, `x` and the drawn `U`: `f1 + U * (f0 - f1) < 1.0`. -/
def zig_wedge_test (xi xi1 x U : F) : Bool :=
  let f0 := exp ((-0.5) * (xi * xi - x * x))
  let f1 := exp ((-0.5) * (xi1 * xi1 - x * x))
  lt (f1 + U * (f0 - f1)) 1.0

end RealVocabulary

/-- The Gaussian density kernel of the spec, `f(t) = exp(-t^2/2)`. -/
noncomputable def gauss_kernel (t : ℝ) : ℝ := Real.exp (-(t ^ 2) / 2)

/-- The wedge acceptance as the spec words it:
`f(x_{i+1}) + U*(f(x_i) - f(x_{i+1})) < f(x)`. -/
def wedge_accept_spec (xi xi1 x U : ℝ) : Prop :=
  gauss_kernel xi1 + U * (gauss_kernel xi - gauss_kernel xi1) < gauss_kernel x

/-- The frame of a call that draws exactly one `random_double` and nothing else
from the Uniform Source: the source state is the one after that draw, and only
the `random_double` counter moved (by one). -/
def one_double_drawn {R F : Type} (S : Source R F) (s s' : aug_state R F) : Prop :=
  s'.rng = (S.random_double s.rng).2 ∧ s'.calls_double = s.calls_double + 1 ∧
  s'.calls_uint32 = s.calls_uint32 ∧ s'.calls_uint64 = s.calls_uint64

/-- A `binomial_t` over the reals with every field zero. -/
noncomputable def real_binomial_zero : binomial_t ℝ :=
  { has_binomial := 0, psave := 0, nsave := 0, r := 0, q := 0, fm := 0,
    m := 0, p1 := 0, xm := 0, xl := 0, xr := 0, c := 0,
    laml := 0, lamr := 0, p2 := 0, p3 := 0, p4 := 0 }

/-- A freshly zeroed `aug_state` over the reals and the stream source. -/
noncomputable def real_state_zero : aug_state Nat ℝ :=
  { rng := 0, binomial := real_binomial_zero, has_gauss := false, gauss := 0,
    shift_zig_random_int := 0, zig_random_int := 0,
    calls_uint32 := 0, calls_uint64 := 0, calls_double := 0 }

/-- The stream source over the reals whose integer draws are `0, 1, 2, ...` and
whose every `random_double` is `u`. -/
noncomputable def real_const_source (u : ℝ) : Source Nat ℝ :=
  stream_source (fun k => k) (fun k => k) (fun _ => u)

/-- The stream source whose integer draws are `0, 1, 2, ...` and whose
`random_double` is `3/4` at position 2 and `1/2` elsewhere. -/
def demo_restart_source : Source Nat Frac :=
  stream_source (fun k => k) (fun k => k) (fun k => if k = 2 then ⟨3, 4⟩ else ⟨1, 2⟩)

/-- The state left by `random_binomial_btpe demo_restart_source 1 state_zero 0 0.5`:
two doubles drawn, the BTPE constants of `(0, 0.5)` stored (among them `r = 0.5`
and `m = 0`). -/
def demo_btpe_half_cached : aug_state Nat Frac :=
  { state_zero with rng := 2, calls_double := 2, binomial := btpe_setup 0 0.5 }

/-! ## Vocabulary for the states and arguments the code can receive -/

section ApiVocabulary
variable {R F : Type} [DoubleOps F]

end ApiVocabulary

/-- The stream source whose integer draws are `0, 1, 2, ...` and whose every
`random_double` is `0`. -/
def demo_zero_source : Source Nat Frac :=
  stream_source (fun k => k) (fun k => k) (fun _ => ⟨0, 1⟩)

/-- The zeroed state with the cache that `random_binomial_btpe(state, 1000, 0.5)`
followed by `random_binomial_inversion(state, 100, 0.5)` leaves: the pair
`(100, 0.5)`, inversion's `q`, `r`, `c`, `m`, and the other ten constants of
`(1000, 0.5)`. -/
def demo_mixed_cached : aug_state Nat Frac :=
  { state_zero with binomial := inversion_setup (btpe_setup 1000 0.5) 100 0.5 }

/-- The stream source whose integer draws are `0, 1, 2, ...` and whose
`random_double` is `1/2` at position 0 and `0` afterwards. -/
def demo_half_zero_source : Source Nat Frac :=
  stream_source (fun k => k) (fun k => k) (fun k => if k = 0 then ⟨1, 2⟩ else ⟨0, 1⟩)

/-- The largest PTRS candidate of the fast-accept region (`us >= 0.07`, hence
`|U| <= 0.43`) fits a `long`: `(2a/0.07 + b)*0.43 + lam + 0.43 < 2^63` with
`b = 0.931 + 2.53*sqrt(lam)` and `a = -0.059 + 0.02483*b`. -/
def ptrs_fits_long (lam : ℝ) : Prop :=
  (2 * (-0.059 + 0.02483 * (0.931 + 2.53 * Real.sqrt lam)) / 0.07
      + (0.931 + 2.53 * Real.sqrt lam)) * 0.43 + lam + 0.43 < 2 ^ 63

/-! # Proofs -/

/-! ## Bounded integers -/

section BoundedProofs
variable {R F : Type} (S : Source R F)

theorem to_uint64_neg (b : Nat) (h0 : 0 < b) (h : b < 2 ^ 64) :
    to_uint64 (-(b : Int)) = 2 ^ 64 - b := by
  unfold to_uint64
  omega

theorem to_uint32_neg (b : Nat) (h0 : 0 < b) (h : b < 2 ^ 32) :
    to_uint32 (-(b : Int)) = 2 ^ 32 - b := by
  unfold to_uint32
  omega

theorem threshold64_eq (b : Nat) (h0 : 0 < b) (h : b < 2 ^ 64) :
    threshold64 b = (2 ^ 64 - b) % b := by
  unfold threshold64
  rw [to_uint64_neg b h0 h]

theorem threshold32_eq (b : Nat) (h0 : 0 < b) (h : b < 2 ^ 32) :
    threshold32 b = (2 ^ 32 - b) % b := by
  unfold threshold32
  rw [to_uint32_neg b h0 h]

theorem uint64_loop_sound (bound t : Nat) :
    ∀ (fuel : Nat) (s : aug_state R F) (v : Nat) (s' : aug_state R F),
      random_bounded_uint64_loop S bound t fuel s = some (v, s') →
      ∃ k, k < fuel ∧ (∀ j, j < k → draw_uint64 S s j < t) ∧ t ≤ draw_uint64 S s k ∧
        v = draw_uint64 S s k % bound ∧ s' = after_uint64 S (k + 1) s := by
  intro fuel
  induction fuel with
  | zero => intro s v s' h; simp [random_bounded_uint64_loop] at h
  | succ n ih =>
    intro s v s' h
    simp only [random_bounded_uint64_loop] at h
    split at h
    · rename_i hge
      simp only [Option.some.injEq, Prod.mk.injEq] at h
      exact ⟨0, Nat.succ_pos n, by intro j hj; omega, hge, h.1.symm, h.2.symm⟩
    · rename_i hlt
      obtain ⟨k, hk, hj, ht, hv, hs⟩ := ih _ v s' h
      refine ⟨k + 1, Nat.succ_lt_succ hk, ?_, ht, hv, hs⟩
      intro j hjk
      cases j with
      | zero => exact Nat.lt_of_not_le hlt
      | succ j => exact hj j (by omega)

theorem uint64_loop_complete (bound t : Nat) :
    ∀ (k : Nat) (s : aug_state R F), (∀ j, j < k → draw_uint64 S s j < t) →
      t ≤ draw_uint64 S s k → ∀ fuel, k < fuel →
      random_bounded_uint64_loop S bound t fuel s
        = some (draw_uint64 S s k % bound, after_uint64 S (k + 1) s) := by
  intro k
  induction k with
  | zero =>
    intro s _ ht fuel hf
    obtain ⟨n, rfl⟩ : ∃ n, fuel = n + 1 := ⟨fuel - 1, by omega⟩
    simp only [random_bounded_uint64_loop]
    have ht0 : (random_uint64 S s).1 ≥ t := ht
    rw [if_pos ht0]
    rfl
  | succ k ih =>
    intro s hj ht fuel hf
    obtain ⟨n, rfl⟩ : ∃ n, fuel = n + 1 := ⟨fuel - 1, by omega⟩
    simp only [random_bounded_uint64_loop]
    have h0 : ¬ (random_uint64 S s).1 ≥ t := Nat.not_le_of_lt (hj 0 (Nat.succ_pos k))
    rw [if_neg h0]
    exact ih _ (fun j hjk => hj (j + 1) (by omega)) ht n (by omega)

theorem uint32_loop_sound (bound t : Nat) :
    ∀ (fuel : Nat) (s : aug_state R F) (v : Nat) (s' : aug_state R F),
      random_bounded_uint32_loop S bound t fuel s = some (v, s') →
      ∃ k, k < fuel ∧ (∀ j, j < k → draw_uint32 S s j < t) ∧ t ≤ draw_uint32 S s k ∧
        v = draw_uint32 S s k % bound ∧ s' = after_uint32 S (k + 1) s := by
  intro fuel
  induction fuel with
  | zero => intro s v s' h; simp [random_bounded_uint32_loop] at h
  | succ n ih =>
    intro s v s' h
    simp only [random_bounded_uint32_loop] at h
    split at h
    · rename_i hge
      simp only [Option.some.injEq, Prod.mk.injEq] at h
      exact ⟨0, Nat.succ_pos n, by intro j hj; omega, hge, h.1.symm, h.2.symm⟩
    · rename_i hlt
      obtain ⟨k, hk, hj, ht, hv, hs⟩ := ih _ v s' h
      refine ⟨k + 1, Nat.succ_lt_succ hk, ?_, ht, hv, hs⟩
      intro j hjk
      cases j with
      | zero => exact Nat.lt_of_not_le hlt
      | succ j => exact hj j (by omega)

theorem uint32_loop_complete (bound t : Nat) :
    ∀ (k : Nat) (s : aug_state R F), (∀ j, j < k → draw_uint32 S s j < t) →
      t ≤ draw_uint32 S s k → ∀ fuel, k < fuel →
      random_bounded_uint32_loop S bound t fuel s
        = some (draw_uint32 S s k % bound, after_uint32 S (k + 1) s) := by
  intro k
  induction k with
  | zero =>
    intro s _ ht fuel hf
    obtain ⟨n, rfl⟩ : ∃ n, fuel = n + 1 := ⟨fuel - 1, by omega⟩
    simp only [random_bounded_uint32_loop]
    have ht0 : (random_uint32 S s).1 ≥ t := ht
    rw [if_pos ht0]
    rfl
  | succ k ih =>
    intro s hj ht fuel hf
    obtain ⟨n, rfl⟩ : ∃ n, fuel = n + 1 := ⟨fuel - 1, by omega⟩
    simp only [random_bounded_uint32_loop]
    have h0 : ¬ (random_uint32 S s).1 ≥ t := Nat.not_le_of_lt (hj 0 (Nat.succ_pos k))
    rw [if_neg h0]
    exact ih _ (fun j hjk => hj (j + 1) (by omega)) ht n (by omega)

/-- C1. For every `bound > 0` of the word width, `threshold` is
`(2^W - bound) mod bound`; whenever `random_bounded_uint64` / `random_bounded_uint32`
returns, the value is `r mod bound < bound` for the first draw `r` of the source
sequence with `r >= threshold`, and the state is the one after that draw; and
whenever the sequence has such a first draw at position `k`, every fuel above
`k` makes the function return exactly that. -/
theorem random_bounded_uint_first_accepted (s : aug_state R F) (bound : Nat) (hb : 0 < bound) :
    (bound < 2 ^ 64 →
      threshold64 bound = (2 ^ 64 - bound) % bound ∧
      (∀ fuel v s', random_bounded_uint64 S fuel s bound = some (v, s') →
        v < bound ∧ ∃ k, k < fuel ∧ (∀ j, j < k → draw_uint64 S s j < threshold64 bound) ∧
          threshold64 bound ≤ draw_uint64 S s k ∧ v = draw_uint64 S s k % bound ∧
          s' = after_uint64 S (k + 1) s) ∧
      (∀ k, (∀ j, j < k → draw_uint64 S s j < threshold64 bound) →
        threshold64 bound ≤ draw_uint64 S s k → ∀ fuel, k < fuel →
        random_bounded_uint64 S fuel s bound
          = some (draw_uint64 S s k % bound, after_uint64 S (k + 1) s))) ∧
    (bound < 2 ^ 32 →
      threshold32 bound = (2 ^ 32 - bound) % bound ∧
      (∀ fuel v s', random_bounded_uint32 S fuel s bound = some (v, s') →
        v < bound ∧ ∃ k, k < fuel ∧ (∀ j, j < k → draw_uint32 S s j < threshold32 bound) ∧
          threshold32 bound ≤ draw_uint32 S s k ∧ v = draw_uint32 S s k % bound ∧
          s' = after_uint32 S (k + 1) s) ∧
      (∀ k, (∀ j, j < k → draw_uint32 S s j < threshold32 bound) →
        threshold32 bound ≤ draw_uint32 S s k → ∀ fuel, k < fuel →
        random_bounded_uint32 S fuel s bound
          = some (draw_uint32 S s k % bound, after_uint32 S (k + 1) s))) := by
  refine ⟨fun h64 => ⟨threshold64_eq bound hb h64, ?_, ?_⟩,
    fun h32 => ⟨threshold32_eq bound hb h32, ?_, ?_⟩⟩
  · intro fuel v s' h
    obtain ⟨k, hk, hj, ht, hv, hs⟩ := uint64_loop_sound S bound _ fuel s v s' h
    exact ⟨by rw [hv]; exact Nat.mod_lt _ hb, k, hk, hj, ht, hv, hs⟩
  · intro k hj ht fuel hf
    exact uint64_loop_complete S bound _ k s hj ht fuel hf
  · intro fuel v s' h
    obtain ⟨k, hk, hj, ht, hv, hs⟩ := uint32_loop_sound S bound _ fuel s v s' h
    exact ⟨by rw [hv]; exact Nat.mod_lt _ hb, k, hk, hj, ht, hv, hs⟩
  · intro k hj ht fuel hf
    exact uint32_loop_complete S bound _ k s hj ht fuel hf

/-- Witness for C1: with `bound = 3` and the 64-bit draws `0, 1, 2, ...` the first
draw is rejected (`0 < threshold = 1`), the second is accepted, and the call
returns `1 mod 3`. -/
theorem random_bounded_uint_first_accepted_witness :
    0 < 3 ∧
    random_bounded_uint64 (stream_source (fun k => k) (fun k => k) (fun _ => (⟨0, 1⟩ : Frac)))
        2 state_zero 3
      = some (1, after_uint64
          (stream_source (fun k => k) (fun k => k) (fun _ => (⟨0, 1⟩ : Frac))) 2 state_zero) :=
  ⟨by decide,
   ((random_bounded_uint_first_accepted
      (stream_source (fun k => k) (fun k => k) (fun _ => (⟨0, 1⟩ : Frac)))
      state_zero 3 (by decide)).1 (by decide)).2.2 1 (by decide) (by decide) 2 (by decide)⟩

theorem card_filter_mod_blocks (b v : Nat) (hb : 0 < b) (hv : v < b) :
    ∀ (m a : Nat), ((Finset.Ico a (a + b * m)).filter (fun r => r % b = v)).card = m := by
  have hper : Function.Periodic (fun r : Nat => r % b = v) b := by
    intro x
    simp
  have hone : ∀ a : Nat, ((Finset.Ico a (a + b)).filter (fun r => r % b = v)).card = 1 := by
    intro a
    rw [Nat.filter_Ico_card_eq_of_periodic a b _ hper]
    have h := Nat.count_modEq_card b hb v
    have hc : Nat.count (fun r => r % b = v) b = Nat.count (fun x => x ≡ v [MOD b]) b := by
      rw [Nat.count_eq_card_filter_range, Nat.count_eq_card_filter_range]
      congr 1
      apply Finset.filter_congr
      intro r _
      simp [Nat.ModEq, Nat.mod_eq_of_lt hv]
    rw [hc, h]
    simp [Nat.div_self hb]
  intro m
  induction m with
  | zero => intro a; simp
  | succ m ih =>
    intro a
    have hsplit : Finset.Ico a (a + b * (m + 1))
        = Finset.Ico a (a + b * m) ∪ Finset.Ico (a + b * m) (a + b * m + b) := by
      rw [Finset.Ico_union_Ico_eq_Ico (by omega) (by omega)]
      congr 1
      rw [Nat.mul_succ, Nat.add_assoc]
    rw [hsplit, Finset.filter_union, Finset.card_union_of_disjoint, ih, hone]
    apply Finset.disjoint_filter_filter
    rw [Finset.disjoint_left]
    intro x hx1 hx2
    simp only [Finset.mem_Ico] at hx1 hx2
    omega

theorem accepted_span (N b : Nat) (hN : b ≤ N) :
    N = (N - b) % b + b * (1 + (N - b) / b) := by
  have h := Nat.mod_add_div (N - b) b
  rw [Nat.mul_add]
  omega

theorem accepted_words_card (N b v : Nat) (hb : 0 < b) (hN : b ≤ N) (hv : v < b) :
    ((Finset.Ico ((N - b) % b) N).filter (fun r => r % b = v)).card = (N - (N - b) % b) / b ∧
    0 < (N - (N - b) % b) / b := by
  have hspan := accepted_span N b hN
  have hdiv : (N - (N - b) % b) / b = 1 + (N - b) / b := by
    have h1 : N - (N - b) % b = b * (1 + (N - b) / b) := by omega
    rw [h1, Nat.mul_div_cancel_left _ hb]
  rw [hdiv]
  refine ⟨?_, Nat.add_pos_left Nat.one_pos _⟩
  have h := card_filter_mod_blocks b v hb hv (1 + (N - b) / b) ((N - b) % b)
  rw [← hspan] at h
  exact h

/-- With a single draw, `random_bounded_uint64` returns exactly on the words
`r >= threshold`, and returns `r mod bound`. -/
theorem random_bounded_uint64_first_draw (st : aug_state R F) (bound r : Nat)
    (hr : r < 2 ^ 64) (hst : (S.random_uint64 st.rng).1 = r) :
    (random_bounded_uint64 S 1 st bound).map Prod.fst
      = if threshold64 bound ≤ r then some (r % bound) else none := by
  unfold random_bounded_uint64
  simp only [random_bounded_uint64_loop, random_uint64, hst, Nat.mod_eq_of_lt hr, ge_iff_le]
  split <;> rfl

/-- With a single draw, `random_bounded_uint32` returns exactly on the words
`r >= threshold`, and returns `r mod bound`. -/
theorem random_bounded_uint32_first_draw (st : aug_state R F) (bound r : Nat)
    (hr : r < 2 ^ 32) (hst : (S.random_uint32 st.rng).1 = r) :
    (random_bounded_uint32 S 1 st bound).map Prod.fst
      = if threshold32 bound ≤ r then some (r % bound) else none := by
  unfold random_bounded_uint32
  simp only [random_bounded_uint32_loop, random_uint32, hst, Nat.mod_eq_of_lt hr, ge_iff_le]
  split <;> rfl

/-- Counting the words of `[0, N)` on which a sampler that answers
`if t <= r then some (r mod b) else none` returns `v`, resp. nothing. -/
theorem first_draw_counts (f : Nat → Option Nat) (N b v : Nat) (hb : 0 < b) (hN : b ≤ N)
    (hv : v < b)
    (hf : ∀ r, r < N → f r = if (N - b) % b ≤ r then some (r % b) else none) :
    ((Finset.range N).filter (fun r => f r = some v)).card = (N - (N - b) % b) / b ∧
    0 < (N - (N - b) % b) / b ∧
    ((Finset.range N).filter (fun r => f r = none)).card = (N - b) % b := by
  have hacc := accepted_words_card N b v hb hN hv
  have ht : (N - b) % b < b := Nat.mod_lt _ hb
  refine ⟨?_, hacc.2, ?_⟩
  · rw [← hacc.1]
    congr 1
    ext r
    simp only [Finset.mem_filter, Finset.mem_range, Finset.mem_Ico]
    constructor
    · rintro ⟨hr, h⟩
      rw [hf r hr] at h
      split at h
      · rename_i hle
        simp only [Option.some.injEq] at h
        exact ⟨⟨hle, hr⟩, h⟩
      · simp at h
    · rintro ⟨⟨hle, hr⟩, h⟩
      refine ⟨hr, ?_⟩
      rw [hf r hr, if_pos hle, h]
  · have : (Finset.range N).filter (fun r => f r = none) = Finset.range ((N - b) % b) := by
      ext r
      simp only [Finset.mem_filter, Finset.mem_range]
      constructor
      · rintro ⟨hr, h⟩
        rw [hf r hr] at h
        split at h
        · simp at h
        · omega
      · intro h
        have hr : r < N := by omega
        refine ⟨hr, ?_⟩
        rw [hf r hr, if_neg (by omega)]
    rw [this, Finset.card_range]

/-- C2. The bounded unsigned sampler is unbiased.  Let `st r` be any start state
on which the Uniform Source delivers the word `r` first.  For every `bound > 0`
of the word width (`W = 64` and `W = 32`): `random_bounded_uint64/32`, drawing
`r` first, returns at that draw exactly when `threshold <= r`, and then returns
`r mod bound`; so every `v < bound` is returned on exactly
`(2^W - threshold) / bound` of the `2^W` words, a positive number that does not
depend on `v`, and the remaining `threshold` words are rejected. -/
theorem random_bounded_uint_unbiased (st : Nat → aug_state R F) (bound v : Nat)
    (hb : 0 < bound) (hv : v < bound) :
    (bound < 2 ^ 64 → (∀ r, r < 2 ^ 64 → (S.random_uint64 (st r).rng).1 = r) →
      (∀ r, r < 2 ^ 64 → (random_bounded_uint64 S 1 (st r) bound).map Prod.fst
          = if threshold64 bound ≤ r then some (r % bound) else none) ∧
      ((Finset.range (2 ^ 64)).filter (fun r =>
          (random_bounded_uint64 S 1 (st r) bound).map Prod.fst = some v)).card
        = (2 ^ 64 - threshold64 bound) / bound ∧
      0 < (2 ^ 64 - threshold64 bound) / bound ∧
      ((Finset.range (2 ^ 64)).filter (fun r =>
          (random_bounded_uint64 S 1 (st r) bound).map Prod.fst = none)).card
        = threshold64 bound) ∧
    (bound < 2 ^ 32 → (∀ r, r < 2 ^ 32 → (S.random_uint32 (st r).rng).1 = r) →
      (∀ r, r < 2 ^ 32 → (random_bounded_uint32 S 1 (st r) bound).map Prod.fst
          = if threshold32 bound ≤ r then some (r % bound) else none) ∧
      ((Finset.range (2 ^ 32)).filter (fun r =>
          (random_bounded_uint32 S 1 (st r) bound).map Prod.fst = some v)).card
        = (2 ^ 32 - threshold32 bound) / bound ∧
      0 < (2 ^ 32 - threshold32 bound) / bound ∧
      ((Finset.range (2 ^ 32)).filter (fun r =>
          (random_bounded_uint32 S 1 (st r) bound).map Prod.fst = none)).card
        = threshold32 bound) := by
  constructor
  · intro h hst
    have key : ∀ r, r < 2 ^ 64 → (random_bounded_uint64 S 1 (st r) bound).map Prod.fst
        = if threshold64 bound ≤ r then some (r % bound) else none :=
      fun r hr => random_bounded_uint64_first_draw S (st r) bound r hr (hst r hr)
    refine ⟨key, ?_⟩
    have hc := first_draw_counts
      (fun r => (random_bounded_uint64 S 1 (st r) bound).map Prod.fst) (2 ^ 64) bound v hb
      (Nat.le_of_lt h) hv (by rw [← threshold64_eq bound hb h]; exact key)
    rw [threshold64_eq bound hb h]
    exact hc
  · intro h hst
    have key : ∀ r, r < 2 ^ 32 → (random_bounded_uint32 S 1 (st r) bound).map Prod.fst
        = if threshold32 bound ≤ r then some (r % bound) else none :=
      fun r hr => random_bounded_uint32_first_draw S (st r) bound r hr (hst r hr)
    refine ⟨key, ?_⟩
    have hc := first_draw_counts
      (fun r => (random_bounded_uint32 S 1 (st r) bound).map Prod.fst) (2 ^ 32) bound v hb
      (Nat.le_of_lt h) hv (by rw [← threshold32_eq bound hb h]; exact key)
    rw [threshold32_eq bound hb h]
    exact hc

/-- Witness for C2 at `bound = 3`, `v = 1`, on the stream source whose `k`-th
word is `k`, started at position `r`. -/
theorem random_bounded_uint_unbiased_witness :
    ((0 < 3 ∧ 1 < 3) ∧ 3 < 2 ^ 64 ∧
      (∀ r, r < 2 ^ 64 →
        (demo_source.random_uint64 ({ state_zero with rng := r } : aug_state Nat Frac).rng).1
          = r)) ∧
    ((Finset.range (2 ^ 64)).filter (fun r =>
        (random_bounded_uint64 demo_source 1 { state_zero with rng := r } 3).map Prod.fst
          = some 1)).card
      = (2 ^ 64 - threshold64 3) / 3 :=
  ⟨⟨by decide, by decide, fun _ _ => rfl⟩,
   ((random_bounded_uint_unbiased demo_source (fun r => { state_zero with rng := r }) 3 1
      (by decide) (by decide)).1 (by decide) (fun _ _ => rfl)).2.1⟩

/-! ### Signed ranges -/

theorem int64_branches (r : Nat) (low : Int) :
    int64_unsigned_branch r low = int64_signed_branch r low := by
  unfold int64_unsigned_branch int64_signed_branch to_int64 to_uint64
  split <;> split <;> split <;> omega

theorem int32_branches (r : Nat) (low : Int) :
    int32_unsigned_branch r low = int32_signed_branch r low := by
  unfold int32_unsigned_branch int32_signed_branch to_int32 to_uint32
  split <;> split <;> split <;> omega

theorem random_bounded_int64_eq (fuel : Nat) (s : aug_state R F) (low high : Int) :
    random_bounded_int64 S fuel s low high
      = (random_bounded_uint64 S fuel s (to_uint64 (to_int64 (high - low)))).map
          (fun x => (int64_signed_branch x.1 low, x.2)) := by
  unfold random_bounded_int64
  cases random_bounded_uint64 S fuel s (to_uint64 (to_int64 (high - low))) with
  | none => rfl
  | some x =>
    obtain ⟨r, s1⟩ := x
    simp only [Option.map_some', int64_branches]
    split <;> rfl

theorem random_bounded_int32_eq (fuel : Nat) (s : aug_state R F) (low high : Int) :
    random_bounded_int32 S fuel s low high
      = (random_bounded_uint32 S fuel s (to_uint32 (to_int32 (high - low)))).map
          (fun x => (int32_signed_branch x.1 low, x.2)) := by
  unfold random_bounded_int32
  cases random_bounded_uint32 S fuel s (to_uint32 (to_int32 (high - low))) with
  | none => rfl
  | some x =>
    obtain ⟨r, s1⟩ := x
    simp only [Option.map_some', int32_branches]
    split <;> rfl

/-- C4. The two return branches of `random_bounded_int64` / `random_bounded_int32`
denote the same `W`-bit value for every unsigned `r` and signed `low`, so the
test `r >= -low` never changes the output: the function is the unsigned sampler
followed by either branch. -/
theorem random_bounded_int_branches_agree (fuel : Nat) (s : aug_state R F) (r : Nat)
    (low high : Int) :
    int64_unsigned_branch r low = int64_signed_branch r low ∧
    int32_unsigned_branch r low = int32_signed_branch r low ∧
    random_bounded_int64 S fuel s low high
      = (random_bounded_uint64 S fuel s (to_uint64 (to_int64 (high - low)))).map
          (fun x => (int64_unsigned_branch x.1 low, x.2)) ∧
    random_bounded_int64 S fuel s low high
      = (random_bounded_uint64 S fuel s (to_uint64 (to_int64 (high - low)))).map
          (fun x => (int64_signed_branch x.1 low, x.2)) ∧
    random_bounded_int32 S fuel s low high
      = (random_bounded_uint32 S fuel s (to_uint32 (to_int32 (high - low)))).map
          (fun x => (int32_unsigned_branch x.1 low, x.2)) ∧
    random_bounded_int32 S fuel s low high
      = (random_bounded_uint32 S fuel s (to_uint32 (to_int32 (high - low)))).map
          (fun x => (int32_signed_branch x.1 low, x.2)) := by
  refine ⟨int64_branches r low, int32_branches r low, ?_, random_bounded_int64_eq S fuel s low high,
    ?_, random_bounded_int32_eq S fuel s low high⟩
  · rw [random_bounded_int64_eq]
    simp only [int64_branches]
  · rw [random_bounded_int32_eq]
    simp only [int32_branches]

theorem int64_bound_eq (low high : Int) (hlh : low < high) (hl : -2 ^ 63 ≤ low)
    (hh : high < 2 ^ 63) : to_uint64 (to_int64 (high - low)) = (high - low).toNat := by
  unfold to_uint64 to_int64
  split <;> omega

theorem int32_bound_eq (low high : Int) (hlh : low < high) (hl : -2 ^ 31 ≤ low)
    (hh : high < 2 ^ 31) : to_uint32 (to_int32 (high - low)) = (high - low).toNat := by
  unfold to_uint32 to_int32
  split <;> omega

theorem int64_shift_exact (low high : Int) (r : Nat) (hl : -2 ^ 63 ≤ low)
    (hh : high < 2 ^ 63) (hr : (r : Int) < high - low) :
    int64_signed_branch r low = low + r := by
  unfold int64_signed_branch to_int64
  split <;> split <;> omega

theorem int32_shift_exact (low high : Int) (r : Nat) (hl : -2 ^ 31 ≤ low)
    (hh : high < 2 ^ 31) (hr : (r : Int) < high - low) :
    int32_signed_branch r low = low + r := by
  unfold int32_signed_branch to_int32
  split <;> split <;> omega

theorem random_bounded_int64_range (fuel : Nat) (s : aug_state R F) (low high : Int)
    (hlh : low < high) (hl : -2 ^ 63 ≤ low) (hh : high < 2 ^ 63) (v : Int) (s' : aug_state R F)
    (h : random_bounded_int64 S fuel s low high = some (v, s')) : low ≤ v ∧ v < high := by
  rw [random_bounded_int64_eq, int64_bound_eq low high hlh hl hh] at h
  cases hu : random_bounded_uint64 S fuel s (high - low).toNat with
  | none => rw [hu] at h; simp at h
  | some x =>
    obtain ⟨r, s1⟩ := x
    rw [hu] at h
    simp only [Option.map_some', Option.some.injEq, Prod.mk.injEq] at h
    obtain ⟨k, _, _, _, hv, _⟩ := uint64_loop_sound S _ _ fuel s r s1 hu
    have hr : r < (high - low).toNat := by rw [hv]; exact Nat.mod_lt _ (by omega)
    have hx := int64_shift_exact low high r hl hh (by omega)
    omega

theorem random_bounded_int32_range (fuel : Nat) (s : aug_state R F) (low high : Int)
    (hlh : low < high) (hl : -2 ^ 31 ≤ low) (hh : high < 2 ^ 31) (v : Int) (s' : aug_state R F)
    (h : random_bounded_int32 S fuel s low high = some (v, s')) : low ≤ v ∧ v < high := by
  rw [random_bounded_int32_eq, int32_bound_eq low high hlh hl hh] at h
  cases hu : random_bounded_uint32 S fuel s (high - low).toNat with
  | none => rw [hu] at h; simp at h
  | some x =>
    obtain ⟨r, s1⟩ := x
    rw [hu] at h
    simp only [Option.map_some', Option.some.injEq, Prod.mk.injEq] at h
    obtain ⟨k, _, _, _, hv, _⟩ := uint32_loop_sound S _ _ fuel s r s1 hu
    have hr : r < (high - low).toNat := by rw [hv]; exact Nat.mod_lt _ (by omega)
    have hx := int32_shift_exact low high r hl hh (by omega)
    omega

/-- For `r < B <= N` there is a word below `N`, not below `(N - B) mod B`, whose
residue modulo `B` is `r`. -/
theorem accepted_word_exists (N B r : Nat) (hB : B ≤ N) (hr : r < B) :
    ∃ w, w < N ∧ (N - B) % B ≤ w ∧ w % B = r := by
  refine ⟨r + B * ((N - 1 - r) / B), ?_, ?_, ?_⟩
  · have h1 := Nat.mod_add_div (N - 1 - r) B
    omega
  · have h1 := Nat.mod_add_div (N - 1 - r) B
    have h2 := Nat.mod_lt (N - 1 - r) (show 0 < B by omega)
    have h3 := Nat.mod_le (N - B) B
    omega
  · rw [Nat.add_mul_mod_self_left, Nat.mod_eq_of_lt hr]

theorem random_bounded_int64_attains (low high v : Int) (hlh : low < high) (hl : -2 ^ 63 ≤ low)
    (hh : high < 2 ^ 63) (hv1 : low ≤ v) (hv2 : v < high) :
    ∃ w, w < 2 ^ 64 ∧ ∀ (S : Source R F) (s : aug_state R F), (S.random_uint64 s.rng).1 = w →
      ∀ fuel, 0 < fuel →
        random_bounded_int64 S fuel s low high = some (v, (random_uint64 S s).2) := by
  have hB : (high - low).toNat < 2 ^ 64 := by omega
  obtain ⟨w, hw, hwt, hwr⟩ := accepted_word_exists (2 ^ 64) (high - low).toNat (v - low).toNat
    (Nat.le_of_lt hB) (by omega)
  refine ⟨w, hw, ?_⟩
  intro S s hS fuel hf
  obtain ⟨n, rfl⟩ : ∃ n, fuel = n + 1 := ⟨fuel - 1, by omega⟩
  have hd : (random_uint64 S s).1 = w := by
    show (S.random_uint64 s.rng).1 % 2 ^ 64 = w
    rw [hS, Nat.mod_eq_of_lt hw]
  rw [random_bounded_int64_eq, int64_bound_eq low high hlh hl hh]
  unfold random_bounded_uint64
  rw [threshold64_eq _ (by omega) hB]
  simp only [random_bounded_uint64_loop, hd]
  rw [if_pos hwt, hwr]
  simp only [Option.map_some']
  rw [int64_shift_exact low high _ hl hh (by omega)]
  congr 2
  omega

theorem random_bounded_int32_attains (low high v : Int) (hlh : low < high) (hl : -2 ^ 31 ≤ low)
    (hh : high < 2 ^ 31) (hv1 : low ≤ v) (hv2 : v < high) :
    ∃ w, w < 2 ^ 32 ∧ ∀ (S : Source R F) (s : aug_state R F), (S.random_uint32 s.rng).1 = w →
      ∀ fuel, 0 < fuel →
        random_bounded_int32 S fuel s low high = some (v, (random_uint32 S s).2) := by
  have hB : (high - low).toNat < 2 ^ 32 := by omega
  obtain ⟨w, hw, hwt, hwr⟩ := accepted_word_exists (2 ^ 32) (high - low).toNat (v - low).toNat
    (Nat.le_of_lt hB) (by omega)
  refine ⟨w, hw, ?_⟩
  intro S s hS fuel hf
  obtain ⟨n, rfl⟩ : ∃ n, fuel = n + 1 := ⟨fuel - 1, by omega⟩
  have hd : (random_uint32 S s).1 = w := by
    show (S.random_uint32 s.rng).1 % 2 ^ 32 = w
    rw [hS, Nat.mod_eq_of_lt hw]
  rw [random_bounded_int32_eq, int32_bound_eq low high hlh hl hh]
  unfold random_bounded_uint32
  rw [threshold32_eq _ (by omega) hB]
  simp only [random_bounded_uint32_loop, hd]
  rw [if_pos hwt, hwr]
  simp only [Option.map_some']
  rw [int32_shift_exact low high _ hl hh (by omega)]
  congr 2
  omega

/-- C3 (counterexample). With `low = 0`, `high = 1` no source, state or fuel makes
`random_bounded_int64` return `high`: the upper end of the range is excluded. -/
theorem random_bounded_int64_never_returns_high :
    ¬ ∃ (R F : Type) (S : Source R F) (s : aug_state R F) (fuel : Nat) (s' : aug_state R F),
      random_bounded_int64 S fuel s 0 1 = some (1, s') := by
  rintro ⟨R, F, S, s, fuel, s', h⟩
  have := random_bounded_int64_range S fuel s 0 1 (by decide) (by decide) (by decide) 1 s' h
  omega

/-- C3 (amended). `random_bounded_int64` / `random_bounded_int32` sample the half-open
range: for every `low < high` of the signed type every returned `v` satisfies
`low <= v < high`, and every integer `v` with `low <= v < high` is returned for
some draw `w` of the source (whenever the next word of the source is `w`, the
call returns `v` after that single draw). -/
theorem random_bounded_int_half_open (low high : Int) (hlh : low < high) :
    (-2 ^ 63 ≤ low → high < 2 ^ 63 →
      (∀ (S : Source R F) (s : aug_state R F) fuel v s',
        random_bounded_int64 S fuel s low high = some (v, s') → low ≤ v ∧ v < high) ∧
      (∀ v, low ≤ v → v < high →
        ∃ w, w < 2 ^ 64 ∧ ∀ (S : Source R F) (s : aug_state R F),
          (S.random_uint64 s.rng).1 = w → ∀ fuel, 0 < fuel →
            random_bounded_int64 S fuel s low high = some (v, (random_uint64 S s).2))) ∧
    (-2 ^ 31 ≤ low → high < 2 ^ 31 →
      (∀ (S : Source R F) (s : aug_state R F) fuel v s',
        random_bounded_int32 S fuel s low high = some (v, s') → low ≤ v ∧ v < high) ∧
      (∀ v, low ≤ v → v < high →
        ∃ w, w < 2 ^ 32 ∧ ∀ (S : Source R F) (s : aug_state R F),
          (S.random_uint32 s.rng).1 = w → ∀ fuel, 0 < fuel →
            random_bounded_int32 S fuel s low high = some (v, (random_uint32 S s).2))) := by
  refine ⟨fun hl hh => ⟨?_, ?_⟩, fun hl hh => ⟨?_, ?_⟩⟩
  · intro S s fuel v s' h
    exact random_bounded_int64_range S fuel s low high hlh hl hh v s' h
  · intro v hv1 hv2
    exact random_bounded_int64_attains low high v hlh hl hh hv1 hv2
  · intro S s fuel v s' h
    exact random_bounded_int32_range S fuel s low high hlh hl hh v s' h
  · intro v hv1 hv2
    exact random_bounded_int32_attains low high v hlh hl hh hv1 hv2

/-- Witness for the amended C3: with `low = -2`, `high = 3` the value `2 = high - 1`
is returned after a single accepted draw. -/
theorem random_bounded_int_half_open_witness :
    (-2 : Int) < 3 ∧
    ∃ w, w < 2 ^ 64 ∧ ∀ (S : Source Nat Frac) (s : aug_state Nat Frac),
      (S.random_uint64 s.rng).1 = w → ∀ fuel, 0 < fuel →
        random_bounded_int64 S fuel s (-2) 3 = some (2, (random_uint64 S s).2) :=
  ⟨by decide,
   ((random_bounded_int_half_open (-2) 3 (by decide)).1 (by decide) (by decide)).2 2
      (by decide) (by decide)⟩

end BoundedProofs

/-! ## Polar Gaussian cache -/

section GaussProofs
variable {R F : Type} [DoubleOps F] (S : Source R F)

theorem random_gauss_cached (fuel : Nat) (s : aug_state R F) (h : s.has_gauss = true) :
    random_gauss S fuel s = some (s.gauss, { s with has_gauss := false, gauss := 0.0 }) := by
  unfold random_gauss
  rw [if_pos h]

theorem random_gauss_fresh (fuel : Nat) (s : aug_state R F) (v : F) (s1 : aug_state R F)
    (hg : s.has_gauss = false) (h : random_gauss S fuel s = some (v, s1)) :
    ∃ x1 x2 r2 s0, random_gauss_loop S fuel s = some ((x1, x2, r2), s0) ∧
      v = gauss_factor r2 * x2 ∧
      s1 = { s0 with gauss := gauss_factor r2 * x1, has_gauss := true } := by
  unfold random_gauss at h
  rw [if_neg (by simp [hg])] at h
  cases hl : random_gauss_loop S fuel s with
  | none => rw [hl] at h; simp at h
  | some x =>
    obtain ⟨⟨x1, x2, r2⟩, s0⟩ := x
    rw [hl] at h
    simp only [Option.some.injEq, Prod.mk.injEq] at h
    exact ⟨x1, x2, r2, s0, rfl, h.1.symm, h.2.symm⟩

theorem random_gauss_loop_complete :
    ∀ (k : Nat) (s : aug_state R F),
      (∀ j, j < k → polar_rejects (polar_pair S (polar_after S j s)).1.2.2 = true) →
      polar_rejects (polar_pair S (polar_after S k s)).1.2.2 = false →
      ∀ fuel, k < fuel → random_gauss_loop S fuel s = some (polar_pair S (polar_after S k s)) := by
  intro k
  induction k with
  | zero =>
    intro s _ hacc fuel hf
    obtain ⟨n, rfl⟩ : ∃ n, fuel = n + 1 := ⟨fuel - 1, by omega⟩
    have hacc0 : (ge ((polar_pair S s).1.2.2) 1.0 || eq ((polar_pair S s).1.2.2) 0.0) = false :=
      hacc
    simp only [random_gauss_loop]
    rw [if_neg (by
      have e : (polar_pair S s).1.2.2
          = (2.0 * (random_double S s).1 - 1.0) * (2.0 * (random_double S s).1 - 1.0)
            + (2.0 * (random_double S (random_double S s).2).1 - 1.0)
              * (2.0 * (random_double S (random_double S s).2).1 - 1.0) := rfl
      rw [e] at hacc0
      simp [hacc0])]
    rfl
  | succ k ih =>
    intro s hrej hacc fuel hf
    obtain ⟨n, rfl⟩ : ∃ n, fuel = n + 1 := ⟨fuel - 1, by omega⟩
    have hrej0 : (ge ((polar_pair S s).1.2.2) 1.0 || eq ((polar_pair S s).1.2.2) 0.0) = true :=
      hrej 0 (Nat.succ_pos k)
    simp only [random_gauss_loop]
    rw [if_pos (by
      have e : (polar_pair S s).1.2.2
          = (2.0 * (random_double S s).1 - 1.0) * (2.0 * (random_double S s).1 - 1.0)
            + (2.0 * (random_double S (random_double S s).2).1 - 1.0)
              * (2.0 * (random_double S (random_double S s).2).1 - 1.0) := rfl
      rw [e] at hrej0
      exact hrej0)]
    exact ih (polar_pair S s).2 (fun j hj => hrej (j + 1) (by omega)) hacc n (by omega)

/-- C5. If a call of `random_gauss` on a state with `has_gauss = false` returns,
it returns `f*x2` for the accepted pair `(x1, x2)` of the polar loop, stores the
paired variate `f*x1` in `gauss` and sets `has_gauss`; the immediately following
call (with any fuel) returns exactly that stored value, leaves the source state
and all three call counters unchanged, and clears `has_gauss`.  The first call
does return, with any fuel above `k`, whenever the `k`-th pair of the polar loop
is the first accepted one. -/
theorem random_gauss_cache_pair (fuel : Nat) (s : aug_state R F) (v : F) (s1 : aug_state R F)
    (hg : s.has_gauss = false) (h : random_gauss S fuel s = some (v, s1)) :
    (∃ x1 x2 r2 s0, random_gauss_loop S fuel s = some ((x1, x2, r2), s0) ∧
      v = gauss_factor r2 * x2 ∧ s1.gauss = gauss_factor r2 * x1) ∧
    s1.has_gauss = true ∧
    (∀ fuel2, ∃ s2, random_gauss S fuel2 s1 = some (s1.gauss, s2) ∧
      s2.has_gauss = false ∧ s2.rng = s1.rng ∧
      s2.calls_double = s1.calls_double ∧ s2.calls_uint32 = s1.calls_uint32 ∧
      s2.calls_uint64 = s1.calls_uint64 ∧
      s2 = { s1 with has_gauss := false, gauss := 0.0 }) ∧
    (∀ k, (∀ j, j < k → polar_rejects (polar_pair S (polar_after S j s)).1.2.2 = true) →
      polar_rejects (polar_pair S (polar_after S k s)).1.2.2 = false →
      ∀ fuel1, k < fuel1 → ∃ v1 s1', random_gauss S fuel1 s = some (v1, s1')) := by
  obtain ⟨x1, x2, r2, s0, hl, hv, hs⟩ := random_gauss_fresh S fuel s v s1 hg h
  have hset : s1.has_gauss = true := by rw [hs]
  refine ⟨⟨x1, x2, r2, s0, hl, hv, by rw [hs]⟩, hset, ?_, ?_⟩
  · intro fuel2
    exact ⟨_, random_gauss_cached S fuel2 s1 hset, rfl, rfl, rfl, rfl, rfl, rfl⟩
  · intro k hrej hacc fuel1 hf
    have hloop := random_gauss_loop_complete S k s hrej hacc fuel1 hf
    unfold random_gauss
    rw [if_neg (by simp [hg]), hloop]
    exact ⟨_, _, rfl⟩

/-- Witness for C5: from the zeroed state with every `random_double` equal to `3/4`
the polar loop accepts its first pair (`x1 = x2 = 1/2`, `r2 = 1/2`); the next call,
even with fuel 0, returns the cached variate. -/
theorem random_gauss_cache_pair_witness :
    state_zero.has_gauss = false ∧
    random_gauss demo_source 1 state_zero
      = some (gauss_factor demo_r2 * demo_x, demo_gauss_state) ∧
    ∃ s2, random_gauss demo_source 0 demo_gauss_state = some (demo_gauss_state.gauss, s2) ∧
      s2.has_gauss = false ∧ s2.rng = demo_gauss_state.rng ∧
      s2.calls_double = demo_gauss_state.calls_double ∧
      s2.calls_uint32 = demo_gauss_state.calls_uint32 ∧
      s2.calls_uint64 = demo_gauss_state.calls_uint64 ∧
      s2 = { demo_gauss_state with has_gauss := false, gauss := 0.0 } :=
  ⟨by decide, by decide,
   (random_gauss_cache_pair demo_source 1 state_zero (gauss_factor demo_r2 * demo_x)
      demo_gauss_state (by decide) (by decide)).2.2.1 0⟩

end GaussProofs

/-! ## Ziggurat word reuse -/

section ZigProofs
variable {R F : Type} (S : Source R F)

theorem zig_NormalTail_frame [DoubleOps F] (iNegative : Bool) :
    ∀ (fuel : Nat) (s : aug_state R F) (x : F) (s' : aug_state R F),
      zig_NormalTail S iNegative fuel s = some (x, s') →
      s'.shift_zig_random_int = s.shift_zig_random_int ∧
      s'.zig_random_int = s.zig_random_int ∧ s'.calls_uint64 = s.calls_uint64 := by
  intro fuel
  induction fuel with
  | zero => intro s x s' h; simp [zig_NormalTail] at h
  | succ n ih =>
    intro s x s' h
    simp only [zig_NormalTail] at h
    split at h
    · simp only [Option.some.injEq, Prod.mk.injEq] at h
      rw [← h.2]
      exact ⟨rfl, rfl, rfl⟩
    · have hrec := ih _ x s' h
      exact hrec

theorem zig_next_byte_fetch (s : aug_state R F) (h : s.shift_zig_random_int = 0) :
    zig_next_byte S s
      = { (random_uint64 S s).2 with
          zig_random_int := (random_uint64 S s).1, shift_zig_random_int := 1 } := by
  unfold zig_next_byte
  simp only [h, ne_eq, not_true_eq_false, if_false]
  have h1 : (random_uint64 S s).2.shift_zig_random_int = 0 := h
  simp only [h1]
  rfl

theorem zig_next_byte_shift (s : aug_state R F) (h0 : 0 < s.shift_zig_random_int)
    (h8 : s.shift_zig_random_int < 8) :
    zig_next_byte S s
      = { s with
          zig_random_int := s.zig_random_int >>> 8,
          shift_zig_random_int := (s.shift_zig_random_int + 1) % 8 } := by
  unfold zig_next_byte
  have hne : s.shift_zig_random_int ≠ 0 := by omega
  rw [if_pos hne]
  have h32 : to_int32 (s.shift_zig_random_int + 1) = s.shift_zig_random_int + 1 := by
    unfold to_int32
    split <;> omega
  simp only [h32]
  rw [Int.tmod_eq_emod (by omega) (by omega)]

theorem zig_iter_effect [DoubleOps F] (T : zig_tables F) (fuel : Nat) (s : aug_state R F)
    (it : zig_iteration F) (s' : aug_state R F)
    (h : random_gauss_zig_iter S T fuel s = some (it, s')) :
    s'.shift_zig_random_int = (zig_next_byte S (random_double S s).2).shift_zig_random_int ∧
    s'.zig_random_int = (zig_next_byte S (random_double S s).2).zig_random_int ∧
    s'.calls_uint64 = (zig_next_byte S (random_double S s).2).calls_uint64 ∧
    it.i = ((zig_next_byte S (random_double S s).2).zig_random_int &&& 0x7F) % 2 ^ 32 := by
  unfold random_gauss_zig_iter at h
  simp only at h
  split at h
  · simp only [Option.some.injEq, Prod.mk.injEq] at h
    rw [← h.1, ← h.2]
    exact ⟨rfl, rfl, rfl, rfl⟩
  · split at h
    · split at h
      · simp at h
      · rename_i x s3 htail
        simp only [Option.some.injEq, Prod.mk.injEq] at h
        obtain ⟨f1, f2, f3⟩ := zig_NormalTail_frame S _ fuel _ x s3 htail
        rw [← h.1, ← h.2]
        exact ⟨f1, f2, f3, rfl⟩
    · split at h
      · simp only [Option.some.injEq, Prod.mk.injEq] at h
        rw [← h.1, ← h.2]
        exact ⟨rfl, rfl, rfl, rfl⟩
      · simp only [Option.some.injEq, Prod.mk.injEq] at h
        rw [← h.1, ← h.2]
        exact ⟨rfl, rfl, rfl, rfl⟩

/-- Effect of one completed iteration on the counter, the cached word and the
number of `random_uint64` calls. -/
theorem zig_iter_step [DoubleOps F] (T : zig_tables F) (fuel : Nat) (s : aug_state R F)
    (it : zig_iteration F) (s' : aug_state R F)
    (h : random_gauss_zig_iter S T fuel s = some (it, s'))
    (h0 : 0 ≤ s.shift_zig_random_int) (h8 : s.shift_zig_random_int < 8) :
    s'.shift_zig_random_int = (s.shift_zig_random_int + 1) % 8 ∧
    (s.shift_zig_random_int = 0 →
      s'.calls_uint64 = s.calls_uint64 + 1 ∧
      s'.zig_random_int = (random_uint64 S (random_double S s).2).1) ∧
    (s.shift_zig_random_int ≠ 0 →
      s'.calls_uint64 = s.calls_uint64 ∧ s'.zig_random_int = s.zig_random_int >>> 8) ∧
    it.i = s'.zig_random_int &&& 0x7F := by
  obtain ⟨e1, e2, e3, e4⟩ := zig_iter_effect S T fuel s it s' h
  have hi : it.i = s'.zig_random_int &&& 0x7F := by
    rw [e4, e2]
    apply Nat.mod_eq_of_lt
    have := @Nat.and_le_right (zig_next_byte S (random_double S s).2).zig_random_int 0x7F
    omega
  by_cases hc : s.shift_zig_random_int = 0
  · have hf := zig_next_byte_fetch S (random_double S s).2 hc
    have e1a : s'.shift_zig_random_int = 1 := by rw [e1, hf]
    have e2a : s'.zig_random_int = (random_uint64 S (random_double S s).2).1 := by rw [e2, hf]
    have e3a : s'.calls_uint64 = s.calls_uint64 + 1 := by rw [e3, hf]; rfl
    refine ⟨?_, fun _ => ⟨e3a, e2a⟩, fun hne => absurd hc hne, hi⟩
    rw [e1a, hc]
    rfl
  · have hf := zig_next_byte_shift S (random_double S s).2
      (show 0 < s.shift_zig_random_int by omega) h8
    have e1a : s'.shift_zig_random_int = (s.shift_zig_random_int + 1) % 8 := by
      rw [e1, hf]; rfl
    have e2a : s'.zig_random_int = s.zig_random_int >>> 8 := by rw [e2, hf]; rfl
    have e3a : s'.calls_uint64 = s.calls_uint64 := by rw [e3, hf]; rfl
    exact ⟨e1a, fun h => absurd h hc, fun _ => ⟨e3a, e2a⟩, hi⟩

/-- C6. For any 8 consecutive completed iterations of the `random_gauss_zig` loop
(`st k` is the state before the `k`-th one, `it k` what it did) started with the
counter in `[0, 8)`: an iteration calls `random_uint64` once if the counter is 0
and not at all otherwise, exactly one of the 8 iterations has counter 0, so the 8
iterations call `random_uint64` exactly once; and starting from counter 0, the
`k`-th iteration uses as block index bits `8k .. 8k+6` of the word fetched by the
first one. -/
theorem random_gauss_zig_word_reuse [DoubleOps F] (T : zig_tables F) (st : Nat → aug_state R F)
    (it : Nat → zig_iteration F) (fuel : Nat → Nat)
    (h0 : 0 ≤ (st 0).shift_zig_random_int) (h8 : (st 0).shift_zig_random_int < 8)
    (hstep : ∀ k, k < 8 →
      random_gauss_zig_iter S T (fuel k) (st k) = some (it k, st (k + 1))) :
    (∀ k, k < 8 → (st (k + 1)).calls_uint64
      = (st k).calls_uint64 + (if (st k).shift_zig_random_int = 0 then 1 else 0)) ∧
    (∃ k0, k0 < 8 ∧ (st k0).shift_zig_random_int = 0 ∧
      ∀ k, k < 8 → (st k).shift_zig_random_int = 0 → k = k0) ∧
    (st 8).calls_uint64 = (st 0).calls_uint64 + 1 ∧
    ((st 0).shift_zig_random_int = 0 → ∀ k, k < 8 →
      (it k).i = ((random_uint64 S (random_double S (st 0)).2).1 >>> (8 * k)) &&& 0x7F) := by
  have hinv : ∀ k, k ≤ 8 →
      (st k).shift_zig_random_int = ((st 0).shift_zig_random_int + (k : Int)) % 8 := by
    intro k
    induction k with
    | zero => intro _; simp only [Nat.cast_zero, add_zero]; omega
    | succ k ih =>
      intro hk
      have ihk := ih (by omega)
      have hs := (zig_iter_step S T (fuel k) (st k) (it k) (st (k + 1)) (hstep k (by omega))
        (by omega) (by omega)).1
      rw [hs, ihk]
      push_cast
      omega
  have hfacts : ∀ k, k < 8 →
      ((st k).shift_zig_random_int = 0 →
        (st (k + 1)).calls_uint64 = (st k).calls_uint64 + 1 ∧
        (st (k + 1)).zig_random_int = (random_uint64 S (random_double S (st k)).2).1) ∧
      ((st k).shift_zig_random_int ≠ 0 →
        (st (k + 1)).calls_uint64 = (st k).calls_uint64 ∧
        (st (k + 1)).zig_random_int = (st k).zig_random_int >>> 8) ∧
      (it k).i = (st (k + 1)).zig_random_int &&& 0x7F := by
    intro k hk
    have hik := hinv k (by omega)
    exact (zig_iter_step S T (fuel k) (st k) (it k) (st (k + 1)) (hstep k hk)
      (by omega) (by omega)).2
  refine ⟨?_, ?_, ?_, ?_⟩
  · intro k hk
    obtain ⟨f1, f2, _⟩ := hfacts k hk
    by_cases hc : (st k).shift_zig_random_int = 0
    · rw [if_pos hc]; exact (f1 hc).1
    · rw [if_neg hc]; exact (f2 hc).1
  · refine ⟨((8 - (st 0).shift_zig_random_int) % 8).toNat, by omega, ?_, ?_⟩
    · rw [hinv _ (by omega)]
      omega
    · intro k hk hz
      rw [hinv k (by omega)] at hz
      omega
  · have hcount : ∀ k, k ≤ 8 → ((st k).calls_uint64 : Int)
        = (st 0).calls_uint64
          + (((st 0).shift_zig_random_int + k + 7) / 8 - ((st 0).shift_zig_random_int + 7) / 8) := by
      intro k
      induction k with
      | zero => intro _; simp
      | succ k ih =>
        intro hk
        have ihk := ih (by omega)
        have hik := hinv k (by omega)
        obtain ⟨f1, f2, _⟩ := hfacts k (by omega)
        by_cases hc : (st k).shift_zig_random_int = 0
        · have e := (f1 hc).1
          rw [hik] at hc
          push_cast
          omega
        · have e := (f2 hc).1
          rw [hik] at hc
          push_cast
          omega
    have h := hcount 8 (by omega)
    push_cast at h
    omega
  · intro hz
    have hword : ∀ k, k < 8 → (st (k + 1)).zig_random_int
        = (random_uint64 S (random_double S (st 0)).2).1 >>> (8 * k) := by
      intro k
      induction k with
      | zero =>
        intro _
        exact ((hfacts 0 (by omega)).1 hz).2
      | succ k ih =>
        intro hk
        have hne : (st (k + 1)).shift_zig_random_int ≠ 0 := by
          rw [hinv (k + 1) (by omega), hz]
          push_cast
          omega
        rw [((hfacts (k + 1) hk).2.1 hne).2, ih (by omega), ← Nat.shiftRight_add]
        congr 1
    intro k hk
    rw [(hfacts k hk).2.2, hword k hk]

/-- Witness for C6: eight consecutive iterations from the zeroed state on
`demo_zig_source` with the tables of `zig_NorInit`; the word is fetched once. -/
theorem random_gauss_zig_word_reuse_witness :
    ((0 : Int) ≤ (demo_zig_state 0).shift_zig_random_int ∧
     (demo_zig_state 0).shift_zig_random_int < 8 ∧
     ∀ k, k < 8 → random_gauss_zig_iter demo_zig_source zig_NorInit 0 (demo_zig_state k)
        = some (demo_zig_iteration, demo_zig_state (k + 1))) ∧
    (demo_zig_state 8).calls_uint64 = (demo_zig_state 0).calls_uint64 + 1 :=
  ⟨⟨by decide, by decide, by decide⟩,
   (random_gauss_zig_word_reuse demo_zig_source zig_NorInit demo_zig_state
      (fun _ => demo_zig_iteration) (fun _ => 0) (by decide) (by decide) (by decide)).2.2.1⟩

end ZigProofs

/-! ## Fast paths: `shape == 1.0` and `lam == 0` -/

section FastPaths
variable {R F : Type} [DoubleOps F] (S : Source R F)

/-- C7. For every state and every fuel, `random_standard_gamma` with a shape that
compares equal to `1.0` (as `1.0` itself does in binary64) is
`random_standard_exponential`: same value `-log(1.0 - U)`, exactly one
`random_double` drawn, and the same final state, with the Gaussian cache and
everything but the source untouched. -/
theorem random_standard_gamma_one (fuel : Nat) (s : aug_state R F) (shape : F)
    (h : eq shape 1.0 = true) :
    random_standard_gamma S fuel s shape = some (random_standard_exponential S s) ∧
    (random_standard_exponential S s).1 = -(log (1.0 - (S.random_double s.rng).1)) ∧
    (random_standard_exponential S s).2
      = { s with rng := (S.random_double s.rng).2, calls_double := s.calls_double + 1 } := by
  refine ⟨?_, rfl, rfl⟩
  unfold random_standard_gamma
  rw [if_pos h]

/-- Witness for C7 on the fraction model: `1.0 == 1.0`, and the call with fuel 0
returns after one draw. -/
theorem random_standard_gamma_one_witness :
    DoubleOps.eq (1.0 : Frac) 1.0 = true ∧
    random_standard_gamma demo_source 0 state_zero 1.0
      = some (random_standard_exponential demo_source state_zero) ∧
    (random_standard_exponential demo_source state_zero).2
      = { state_zero with rng := 1, calls_double := 1 } :=
  ⟨by decide,
   (random_standard_gamma_one demo_source 0 state_zero 1.0 (by decide)).1,
   (random_standard_gamma_one demo_source 0 state_zero 1.0 (by decide)).2.2⟩

/-- C8. For every state and every fuel, `random_poisson` with a `lam` that
compares equal to `0` (and so is not `>= 10`) returns 0 and leaves the whole
state, the source and the call counters included, as it was. -/
theorem random_poisson_zero (fuel : Nat) (s : aug_state R F) (lam : F)
    (h10 : ge lam 10.0 = false) (h0 : eq lam 0.0 = true) :
    random_poisson S fuel s lam = some (0, s) := by
  unfold random_poisson
  rw [if_neg (by simp [h10]), if_pos h0]

/-- Witness for C8 on the fraction model with `lam = 0.0`. -/
theorem random_poisson_zero_witness :
    (DoubleOps.ge (0.0 : Frac) 10.0 = false ∧ DoubleOps.eq (0.0 : Frac) 0.0 = true) ∧
    random_poisson demo_source 0 state_zero 0.0 = some (0, state_zero) :=
  ⟨by decide, random_poisson_zero demo_source 0 state_zero 0.0 (by decide) (by decide)⟩

end FastPaths

/-! ## Binomial: symmetry reduction and the parameter cache -/

section BinomialProofs
variable {R F : Type} [DoubleOps F] (S : Source R F)

/-- C9. For every state, every `n` and every `p > 0.5` (used through the two
binary64 facts it implies: `p <= 0.5` is false and `1.0 - p <= 0.5` is true),
`random_binomial(state, n, p)` is `n - random_binomial(state, n, 1.0 - p)` on the
same state: it returns exactly when the other call returns, with the value
`n - x` (in `long` arithmetic) and the same final state. -/
theorem random_binomial_symmetry (fuel : Nat) (s : aug_state R F) (n : Int) (p : F)
    (hp : le p 0.5 = false) (hq : le (1.0 - p) 0.5 = true) :
    random_binomial S fuel s n p
      = (random_binomial S fuel s n (1.0 - p)).map (fun x => (to_long (n - x.1), x.2)) := by
  have e1 : random_binomial S fuel s n (1.0 - p)
      = if le ((1.0 - p) * ofLong n) 30.0 then random_binomial_inversion S fuel s n (1.0 - p)
        else random_binomial_btpe S fuel s n (1.0 - p) := by
    unfold random_binomial
    rw [if_pos hq]
  rw [e1]
  unfold random_binomial
  rw [if_neg (by simp [hp])]
  simp only
  split
  · cases random_binomial_inversion S fuel s n (1.0 - p) with
    | none => rfl
    | some x => rfl
  · cases random_binomial_btpe S fuel s n (1.0 - p) with
    | none => rfl
    | some x => rfl

/-- Witness for C9 on the fraction model: `n = 10`, `p = 1.0`; the reduced call
returns 0 and the call itself returns 10. -/
theorem random_binomial_symmetry_witness :
    (DoubleOps.le (1.0 : Frac) 0.5 = false ∧ DoubleOps.le ((1.0 : Frac) - 1.0) 0.5 = true) ∧
    random_binomial demo_source 1 state_zero 10 1.0
      = (random_binomial demo_source 1 state_zero 10 ((1.0 : Frac) - 1.0)).map
          (fun x => (to_long (10 - x.1), x.2)) ∧
    (random_binomial demo_source 1 state_zero 10 ((1.0 : Frac) - 1.0)).map (fun x => x.1)
      = some 0 ∧
    (random_binomial demo_source 1 state_zero 10 1.0).map (fun x => x.1) = some 10 :=
  ⟨by decide,
   random_binomial_symmetry demo_source 1 state_zero 10 1.0 (by decide) (by decide),
   by decide, by decide⟩

theorem btpe_attempt_state (b : binomial_t F) (n : Int) (s : aug_state R F) :
    (btpe_attempt S b n s).2 = (random_double S (random_double S s).2).2 := by
  unfold btpe_attempt
  simp only
  split
  · rfl
  · split
    · split <;> rfl
    · split
      · split <;> rfl
      · split <;> rfl

theorem btpe_loop_binomial (b : binomial_t F) (n : Int) :
    ∀ (fuel : Nat) (s : aug_state R F) (y : Int) (s' : aug_state R F),
      btpe_loop S b n fuel s = some (y, s') → s'.binomial = s.binomial := by
  intro fuel
  induction fuel with
  | zero => intro s y s' h; simp [btpe_loop] at h
  | succ k ih =>
    intro s y s' h
    simp only [btpe_loop] at h
    have hst := btpe_attempt_state S b n s
    split at h
    · rename_i y1 s1 heq
      simp only [Option.some.injEq, Prod.mk.injEq] at h
      rw [heq] at hst
      rw [← h.2, show s1 = (random_double S (random_double S s).2).2 from hst]
      rfl
    · rename_i s1 heq
      rw [heq] at hst
      have hrec := ih s1 y s' h
      rw [hrec, show s1 = (random_double S (random_double S s).2).2 from hst]
      rfl

theorem binomial_inversion_loop_binomial (n : Int) (p q qn : F) (bound : Int) :
    ∀ (fuel : Nat) (X : Int) (px U : F) (s : aug_state R F) (x : Int) (s' : aug_state R F),
      binomial_inversion_loop S n p q qn bound fuel X px U s = some (x, s') →
      s'.binomial = s.binomial := by
  intro fuel
  induction fuel with
  | zero => intro X px U s x s' h; simp [binomial_inversion_loop] at h
  | succ k ih =>
    intro X px U s x s' h
    simp only [binomial_inversion_loop] at h
    split at h
    · split at h
      · have hrec := ih _ _ _ _ x s' h
        exact hrec
      · exact ih _ _ _ _ x s' h
    · simp only [Option.some.injEq, Prod.mk.injEq] at h
      rw [← h.2]

theorem random_binomial_btpe_cache (fuel : Nat) (s : aug_state R F) (n : Int) (p : F)
    (y : Int) (s' : aug_state R F) (h : random_binomial_btpe S fuel s n p = some (y, s')) :
    s'.binomial = if binomial_stale s.binomial n p then btpe_setup n p else s.binomial := by
  unfold random_binomial_btpe at h
  simp only at h
  split at h
  · simp at h
  · rename_i y0 s1 hl
    have hb := btpe_loop_binomial S _ n fuel _ y0 s1 hl
    have hs1 : s' = s1 := by
      split at h <;> simp only [Option.some.injEq, Prod.mk.injEq] at h <;> exact h.2.symm
    rw [hs1, hb]
    split <;> rfl

theorem random_binomial_inversion_cache (fuel : Nat) (s : aug_state R F) (n : Int) (p : F)
    (x : Int) (s' : aug_state R F) (h : random_binomial_inversion S fuel s n p = some (x, s')) :
    s'.binomial
      = if binomial_stale s.binomial n p then inversion_setup s.binomial n p else s.binomial := by
  unfold random_binomial_inversion at h
  simp only at h
  have hb := binomial_inversion_loop_binomial S _ _ _ _ _ fuel _ _ _ _ x s' h
  rw [hb]
  split <;> rfl

theorem binomial_stale_false_iff (b : binomial_t F) (n : Int) (p : F) :
    binomial_stale b n p = false ↔ b.has_binomial ≠ 0 ∧ b.nsave = n ∧ eq b.psave p = true := by
  unfold binomial_stale DoubleOps.ne
  simp only [Bool.or_eq_false_iff, decide_eq_false_iff_not, Bool.not_eq_false', ne_eq,
    Decidable.not_not, and_assoc]

end BinomialProofs

section BinomialCache
variable {R F : Type} [DoubleOps F] (S : Source R F)

/-- C10 (counterexample). On a state whose cache is as BTPE leaves it for
`(100, 0.5)`, the call `random_binomial_inversion(state, 5, 0.0)` finds a
different pair, returns 0 after one draw, and leaves `fm = 50.5` of the previous
pair in the cache (the constant BTPE derives for `(5, 0.0)` is 0); the same holds
for `p1`, `xm`, `xl`, `xr`, `laml`, `lamr`, `p2`, `p3` and `p4`. -/
theorem random_binomial_inversion_keeps_btpe_constants :
    binomial_stale demo_btpe_cached.binomial 5 (0.0 : Frac) = true ∧
    random_binomial_inversion demo_quarter_source 1 demo_btpe_cached 5 0.0
      = some (0, { demo_btpe_cached with
                   rng := 1, calls_double := 1,
                   binomial := inversion_setup (btpe_setup 100 0.5) 5 0.0 }) ∧
    (inversion_setup (btpe_setup 100 0.5) 5 (0.0 : Frac)).fm = (btpe_setup 100 (0.5 : Frac)).fm ∧
    DoubleOps.eq (inversion_setup (btpe_setup 100 0.5) 5 (0.0 : Frac)).fm (⟨101, 2⟩ : Frac) = true ∧
    DoubleOps.eq (btpe_setup 5 (0.0 : Frac)).fm (⟨0, 1⟩ : Frac) = true ∧
    (inversion_setup (btpe_setup 100 0.5) 5 (0.0 : Frac)).p1 = (btpe_setup 100 (0.5 : Frac)).p1 ∧
    (inversion_setup (btpe_setup 100 0.5) 5 (0.0 : Frac)).xm = (btpe_setup 100 (0.5 : Frac)).xm ∧
    (inversion_setup (btpe_setup 100 0.5) 5 (0.0 : Frac)).xl = (btpe_setup 100 (0.5 : Frac)).xl ∧
    (inversion_setup (btpe_setup 100 0.5) 5 (0.0 : Frac)).xr = (btpe_setup 100 (0.5 : Frac)).xr ∧
    (inversion_setup (btpe_setup 100 0.5) 5 (0.0 : Frac)).laml
      = (btpe_setup 100 (0.5 : Frac)).laml ∧
    (inversion_setup (btpe_setup 100 0.5) 5 (0.0 : Frac)).lamr
      = (btpe_setup 100 (0.5 : Frac)).lamr ∧
    (inversion_setup (btpe_setup 100 0.5) 5 (0.0 : Frac)).p2 = (btpe_setup 100 (0.5 : Frac)).p2 ∧
    (inversion_setup (btpe_setup 100 0.5) 5 (0.0 : Frac)).p3 = (btpe_setup 100 (0.5 : Frac)).p3 ∧
    (inversion_setup (btpe_setup 100 0.5) 5 (0.0 : Frac)).p4 = (btpe_setup 100 (0.5 : Frac)).p4 := by
  refine ⟨by decide, by decide, rfl, by decide, by decide, rfl, rfl, rfl, rfl, rfl, rfl, rfl,
    rfl, rfl⟩

/-- C10 (amended). Whenever `random_binomial_btpe` returns after being called with
`has_binomial = 0` or a pair `(n, p)` different from the cached `(nsave, psave)`,
the cache is `btpe_setup n p`: `nsave = n`, `psave = p`, `has_binomial = 1` and
all fourteen derived constants computed from `(n, p)`.  Whenever
`random_binomial_inversion` returns after such a call, `nsave = n`, `psave = p`,
`has_binomial = 1` and its own four constants `q`, `r` (`qn`), `c` (`np`), `m`
(`bound`) are computed from `(n, p)`, and `fm`, `p1`, `xm`, `xl`, `xr`, `laml`,
`lamr`, `p2`, `p3`, `p4` are left as they were.  A call of either function with
`has_binomial` set and the identical pair leaves every cache field unchanged. -/
theorem binomial_cache_overwrite (fuel : Nat) (s : aug_state R F) (n : Int) (p : F) :
    (∀ y s', random_binomial_btpe S fuel s n p = some (y, s') →
      (binomial_stale s.binomial n p = true → s'.binomial = btpe_setup n p) ∧
      (binomial_stale s.binomial n p = false → s'.binomial = s.binomial)) ∧
    (∀ x s', random_binomial_inversion S fuel s n p = some (x, s') →
      (binomial_stale s.binomial n p = true →
        s'.binomial = { s.binomial with
          nsave := n, psave := p, has_binomial := 1,
          q := 1.0 - p,
          r := exp (ofLong n * log (1.0 - p)),
          c := ofLong n * p,
          m := toLong (dmin (ofLong n)
            (ofLong n * p + 10.0 * sqrt (ofLong n * p * (1.0 - p) + 1.0))) }) ∧
      (binomial_stale s.binomial n p = false → s'.binomial = s.binomial)) ∧
    ((btpe_setup n p).nsave = n ∧ (btpe_setup n p).psave = p ∧
      (btpe_setup n p).has_binomial = 1) ∧
    (binomial_stale s.binomial n p = false ↔
      s.binomial.has_binomial ≠ 0 ∧ s.binomial.nsave = n ∧ eq s.binomial.psave p = true) := by
  refine ⟨?_, ?_, ⟨rfl, rfl, rfl⟩, binomial_stale_false_iff s.binomial n p⟩
  · intro y s' h
    have hc := random_binomial_btpe_cache S fuel s n p y s' h
    constructor
    · intro hs; rw [hc, if_pos hs]
    · intro hs; rw [hc, if_neg (by simp [hs])]
  · intro x s' h
    have hc := random_binomial_inversion_cache S fuel s n p x s' h
    constructor
    · intro hs; rw [hc, if_pos hs]; rfl
    · intro hs; rw [hc, if_neg (by simp [hs])]

/-- Witness for the amended C10 on the fraction model: BTPE with `(100, 0.5)` on
the zeroed state returns 53 and leaves `btpe_setup 100 0.5`; a second call with
the same pair leaves the cache unchanged. -/
theorem binomial_cache_overwrite_witness :
    (random_binomial_btpe demo_quarter_source 1 state_zero 100 0.5
        = some (53, { demo_btpe_cached with rng := 2, calls_double := 2 }) ∧
      binomial_stale state_zero.binomial 100 (0.5 : Frac) = true ∧
      binomial_stale demo_btpe_cached.binomial 100 (0.5 : Frac) = false) ∧
    ({ demo_btpe_cached with rng := 2, calls_double := 2 } : aug_state Nat Frac).binomial
      = btpe_setup 100 0.5 :=
  ⟨⟨by decide, by decide, by decide⟩,
   ((binomial_cache_overwrite demo_quarter_source 1 state_zero 100 (0.5 : Frac)).1 53
      { demo_btpe_cached with rng := 2, calls_double := 2 } (by decide)).1 (by decide)⟩

end BinomialCache

/-! ## Exact shift of the signed samplers -/

section ExactShift
variable {R F : Type} (S : Source R F)

theorem int64_branch_exact (low high : Int) (r : Nat) (hl : -2 ^ 63 ≤ low) (hh : high < 2 ^ 63)
    (hr : (r : Int) < high - low) :
    (r ≥ to_uint64 (to_int64 (-low)) →
      (((r + to_uint64 low) % 2 ^ 64 : Nat) : Int) = low + r) ∧
    (¬ r ≥ to_uint64 (to_int64 (-low)) →
      to_int64 (r : Int) = r ∧ -2 ^ 63 ≤ (r : Int) + low ∧ (r : Int) + low < 2 ^ 63) := by
  unfold to_uint64 to_int64
  constructor
  · intro h
    split at h <;> omega
  · intro h
    split at h <;> (split <;> omega)

theorem int32_branch_exact (low high : Int) (r : Nat) (hl : -2 ^ 31 ≤ low) (hh : high < 2 ^ 31)
    (hr : (r : Int) < high - low) :
    (r ≥ to_uint32 (to_int32 (-low)) →
      (((r + to_uint32 low) % 2 ^ 32 : Nat) : Int) = low + r) ∧
    (¬ r ≥ to_uint32 (to_int32 (-low)) →
      to_int32 (r : Int) = r ∧ -2 ^ 31 ≤ (r : Int) + low ∧ (r : Int) + low < 2 ^ 31) := by
  unfold to_uint32 to_int32
  constructor
  · intro h
    split at h <;> omega
  · intro h
    split at h <;> (split <;> omega)

theorem random_bounded_int64_shift (fuel : Nat) (s : aug_state R F) (low high : Int)
    (hlh : low < high) (hl : -2 ^ 63 ≤ low) (hh : high < 2 ^ 63) :
    random_bounded_int64 S fuel s low high
      = (random_bounded_uint64 S fuel s ((high - low) % 2 ^ 64).toNat).map
          (fun x => (low + (x.1 : Int), x.2)) := by
  have hb : (high - low) % 2 ^ 64 = high - low := by omega
  rw [hb, random_bounded_int64_eq, int64_bound_eq low high hlh hl hh]
  cases hu : random_bounded_uint64 S fuel s (high - low).toNat with
  | none => simp only [Option.map_none']
  | some x =>
    obtain ⟨r, s1⟩ := x
    obtain ⟨k, _, _, _, hv, _⟩ := uint64_loop_sound S _ _ fuel s r s1 hu
    have hr : r < (high - low).toNat := by rw [hv]; exact Nat.mod_lt _ (by omega)
    simp only [Option.map_some']
    rw [int64_shift_exact low high r hl hh (by omega)]

theorem random_bounded_int32_shift (fuel : Nat) (s : aug_state R F) (low high : Int)
    (hlh : low < high) (hl : -2 ^ 31 ≤ low) (hh : high < 2 ^ 31) :
    random_bounded_int32 S fuel s low high
      = (random_bounded_uint32 S fuel s ((high - low) % 2 ^ 32).toNat).map
          (fun x => (low + (x.1 : Int), x.2)) := by
  have hb : (high - low) % 2 ^ 32 = high - low := by omega
  rw [hb, random_bounded_int32_eq, int32_bound_eq low high hlh hl hh]
  cases hu : random_bounded_uint32 S fuel s (high - low).toNat with
  | none => simp only [Option.map_none']
  | some x =>
    obtain ⟨r, s1⟩ := x
    obtain ⟨k, _, _, _, hv, _⟩ := uint32_loop_sound S _ _ fuel s r s1 hu
    have hr : r < (high - low).toNat := by rw [hv]; exact Nat.mod_lt _ (by omega)
    simp only [Option.map_some']
    rw [int32_shift_exact low high r hl hh (by omega)]

/-- C12. For every pair `low < high` of `W`-bit signed integers (`W = 64`, `32`;
the difference `high - low` is taken modulo `2^W`, so pairs whose difference does
not fit the signed type are included) and every `r` below `(high - low) mod 2^W`:
when the unsigned branch is taken the `W`-bit sum `r + low` is the integer
`low + r`, when the signed fallback is taken the cast `(intW)r` and the signed
sum are exact (no overflow), either branch is exactly `low + r`, and
`low <= low + r < high`; so the function is the unsigned sampler on
`(high - low) mod 2^W` followed by the exact shift by `low`. -/
theorem random_bounded_int_exact_shift (low high : Int) (hlh : low < high) :
    (-2 ^ 63 ≤ low → high < 2 ^ 63 →
      (∀ r : Nat, (r : Int) < (high - low) % 2 ^ 64 →
        (r ≥ to_uint64 (to_int64 (-low)) →
          (((r + to_uint64 low) % 2 ^ 64 : Nat) : Int) = low + r) ∧
        (¬ r ≥ to_uint64 (to_int64 (-low)) →
          to_int64 (r : Int) = r ∧ -2 ^ 63 ≤ (r : Int) + low ∧ (r : Int) + low < 2 ^ 63) ∧
        int64_unsigned_branch r low = low + r ∧ int64_signed_branch r low = low + r ∧
        low ≤ low + r ∧ low + r < high) ∧
      (∀ (S : Source R F) (fuel : Nat) (s : aug_state R F),
        random_bounded_int64 S fuel s low high
          = (random_bounded_uint64 S fuel s ((high - low) % 2 ^ 64).toNat).map
              (fun x => (low + (x.1 : Int), x.2)))) ∧
    (-2 ^ 31 ≤ low → high < 2 ^ 31 →
      (∀ r : Nat, (r : Int) < (high - low) % 2 ^ 32 →
        (r ≥ to_uint32 (to_int32 (-low)) →
          (((r + to_uint32 low) % 2 ^ 32 : Nat) : Int) = low + r) ∧
        (¬ r ≥ to_uint32 (to_int32 (-low)) →
          to_int32 (r : Int) = r ∧ -2 ^ 31 ≤ (r : Int) + low ∧ (r : Int) + low < 2 ^ 31) ∧
        int32_unsigned_branch r low = low + r ∧ int32_signed_branch r low = low + r ∧
        low ≤ low + r ∧ low + r < high) ∧
      (∀ (S : Source R F) (fuel : Nat) (s : aug_state R F),
        random_bounded_int32 S fuel s low high
          = (random_bounded_uint32 S fuel s ((high - low) % 2 ^ 32).toNat).map
              (fun x => (low + (x.1 : Int), x.2)))) := by
  constructor
  · intro hl hh
    refine ⟨?_, fun S fuel s => random_bounded_int64_shift S fuel s low high hlh hl hh⟩
    intro r hr
    have hr2 : (r : Int) < high - low := by omega
    obtain ⟨e1, e2⟩ := int64_branch_exact low high r hl hh hr2
    have e3 := int64_shift_exact low high r hl hh hr2
    exact ⟨e1, e2, by rw [int64_branches]; exact e3, e3, by omega, by omega⟩
  · intro hl hh
    refine ⟨?_, fun S fuel s => random_bounded_int32_shift S fuel s low high hlh hl hh⟩
    intro r hr
    have hr2 : (r : Int) < high - low := by omega
    obtain ⟨e1, e2⟩ := int32_branch_exact low high r hl hh hr2
    have e3 := int32_shift_exact low high r hl hh hr2
    exact ⟨e1, e2, by rw [int32_branches]; exact e3, e3, by omega, by omega⟩

/-- Witness for C12 on the full 64-bit range: `low = -2^63`, `high = 2^63 - 1`, whose
difference does not fit `int64_t`; with `r = 2^64 - 2` the result is
`2^63 - 2 = high - 1`. -/
theorem random_bounded_int_exact_shift_witness :
    (-9223372036854775808 : Int) < 9223372036854775807 ∧
    int64_unsigned_branch 18446744073709551614 (-9223372036854775808) = 9223372036854775806 ∧
    int64_signed_branch 18446744073709551614 (-9223372036854775808) = 9223372036854775806 :=
  ⟨by decide,
   by
    have h := ((random_bounded_int_exact_shift (R := Nat) (F := Frac)
      (-9223372036854775808) 9223372036854775807 (by decide)).1 (by decide) (by decide)).1
      18446744073709551614 (by decide)
    exact ⟨h.2.2.1, h.2.2.2.1⟩⟩

end ExactShift

/-! ## Ziggurat counter and table bounds -/

section ZigBounds
variable {R F : Type} [DoubleOps F] (S : Source R F)

theorem zig_NorInit_X_size : ∀ (cnt i : Nat) (f : F) (X : Array F),
    (zig_NorInit_X cnt i f X).size = X.size := by
  intro cnt
  induction cnt with
  | zero => intro i f X; rfl
  | succ k ih =>
    intro i f X
    simp only [zig_NorInit_X]
    rw [ih, Array.size_setD]

theorem zig_NorInit_R_size (X : Array F) : ∀ (cnt i : Nat) (Rv : Array F),
    (zig_NorInit_R X cnt i Rv).size = Rv.size := by
  intro cnt
  induction cnt with
  | zero => intro i Rv; rfl
  | succ k ih =>
    intro i Rv
    simp only [zig_NorInit_R]
    rw [ih, Array.size_setD]

theorem zig_NorInit_sizes :
    (zig_NorInit : zig_tables F).s_adZigX.size = 129 ∧
    (zig_NorInit : zig_tables F).s_adZigR.size = 128 := by
  unfold zig_NorInit
  simp only [zig_NorInit_X_size, zig_NorInit_R_size, Array.size_setD, Array.size_mkArray, ZIGNOR_C]
  exact ⟨trivial, trivial⟩

/-- C16. Every completed iteration of the `random_gauss_zig` loop started with
`shift_zig_random_int` in `[0, 8)` leaves it in `[0, 8)`, advanced by 1 modulo 8;
the block index `i = zig_random_int & 0x7F` it uses is at most 127; and the
tables built by `zig_NorInit` have 129 (`s_adZigX`) and 128 (`s_adZigR`) entries,
so the accesses `s_adZigR[i]`, `s_adZigX[i]` and `s_adZigX[i+1]` are within bounds. -/
theorem random_gauss_zig_counter_and_bounds (T : zig_tables F) (fuel : Nat) (s : aug_state R F)
    (it : zig_iteration F) (s' : aug_state R F)
    (h0 : 0 ≤ s.shift_zig_random_int) (h8 : s.shift_zig_random_int < 8)
    (h : random_gauss_zig_iter S T fuel s = some (it, s')) :
    s'.shift_zig_random_int = (s.shift_zig_random_int + 1) % 8 ∧
    0 ≤ s'.shift_zig_random_int ∧ s'.shift_zig_random_int < 8 ∧
    it.i = s'.zig_random_int &&& 0x7F ∧ it.i ≤ 127 ∧
    (zig_NorInit : zig_tables F).s_adZigX.size = 129 ∧
    (zig_NorInit : zig_tables F).s_adZigR.size = 128 ∧
    it.i < (zig_NorInit : zig_tables F).s_adZigR.size ∧
    it.i < (zig_NorInit : zig_tables F).s_adZigX.size ∧
    it.i + 1 < (zig_NorInit : zig_tables F).s_adZigX.size := by
  obtain ⟨e1, _, _, e4⟩ := zig_iter_step S T fuel s it s' h h0 h8
  have hi : it.i ≤ 127 := by
    rw [e4]
    exact Nat.and_le_right
  obtain ⟨sx, sr⟩ := zig_NorInit_sizes (F := F)
  refine ⟨e1, by omega, by omega, e4, hi, sx, sr, ?_, ?_, ?_⟩ <;> omega

/-- Witness for C16: the first of the eight iterations of `demo_zig_state`. -/
theorem random_gauss_zig_counter_and_bounds_witness :
    ((0 : Int) ≤ (demo_zig_state 0).shift_zig_random_int ∧
     (demo_zig_state 0).shift_zig_random_int < 8 ∧
     random_gauss_zig_iter demo_zig_source zig_NorInit 0 (demo_zig_state 0)
        = some (demo_zig_iteration, demo_zig_state 1)) ∧
    (demo_zig_state 1).shift_zig_random_int = 1 ∧ demo_zig_iteration.i ≤ 127 :=
  ⟨⟨by decide, by decide, by decide⟩,
   (random_gauss_zig_counter_and_bounds demo_zig_source zig_NorInit 0 (demo_zig_state 0)
      demo_zig_iteration (demo_zig_state 1) (by decide) (by decide) (by decide)).1,
   (random_gauss_zig_counter_and_bounds demo_zig_source zig_NorInit 0 (demo_zig_state 0)
      demo_zig_iteration (demo_zig_state 1) (by decide) (by decide) (by decide)).2.2.2.2.1⟩

end ZigBounds

/-! ## Switching binomial algorithm on the same pair -/

section SwitchProofs
variable {R F : Type} [DoubleOps F] (S : Source R F)

theorem binomial_valid_after_inversion (fuel : Nat) (s : aug_state R F) (n : Int) (p : F)
    (x : Int) (s1 : aug_state R F) (hpp : eq p p = true)
    (h : random_binomial_inversion S fuel s n p = some (x, s1)) :
    binomial_stale s1.binomial n p = false := by
  rw [random_binomial_inversion_cache S fuel s n p x s1 h, binomial_stale_false_iff]
  by_cases hs : binomial_stale s.binomial n p = true
  · rw [if_pos hs]
    exact ⟨by simp [inversion_setup], rfl, hpp⟩
  · rw [if_neg hs]
    exact (binomial_stale_false_iff s.binomial n p).1 (by simpa using hs)

theorem binomial_valid_after_btpe (fuel : Nat) (s : aug_state R F) (n : Int) (p : F)
    (y : Int) (s1 : aug_state R F) (hpp : eq p p = true)
    (h : random_binomial_btpe S fuel s n p = some (y, s1)) :
    binomial_stale s1.binomial n p = false := by
  rw [random_binomial_btpe_cache S fuel s n p y s1 h, binomial_stale_false_iff]
  by_cases hs : binomial_stale s.binomial n p = true
  · rw [if_pos hs]
    exact ⟨by simp [btpe_setup], rfl, hpp⟩
  · rw [if_neg hs]
    exact (binomial_stale_false_iff s.binomial n p).1 (by simpa using hs)

theorem random_binomial_btpe_valid (fuel : Nat) (s : aug_state R F) (n : Int) (p : F)
    (hv : binomial_stale s.binomial n p = false) :
    random_binomial_btpe S fuel s n p
      = match btpe_loop S s.binomial n fuel s with
        | none => none
        | some (y, s1) => if gt p 0.5 then some (to_long (n - y), s1) else some (y, s1) := by
  unfold random_binomial_btpe
  simp only [hv, Bool.false_eq_true, if_false]

theorem random_binomial_inversion_valid (fuel : Nat) (s : aug_state R F) (n : Int) (p : F)
    (hv : binomial_stale s.binomial n p = false) :
    random_binomial_inversion S fuel s n p
      = binomial_inversion_loop S n p s.binomial.q s.binomial.r s.binomial.m fuel 0
          s.binomial.r (random_double S s).1 (random_double S s).2 := by
  unfold random_binomial_inversion
  simp only [hv, Bool.false_eq_true, if_false]

/-- C11 (counterexample). From the zeroed state with every `random_double` equal to
`1/2`: `random_binomial_inversion(state, 0, 0.5)` returns 0 and caches its
constants; `random_binomial_btpe(state, 0, 0.5)` called right after finds the pair
unchanged and returns 0, whereas on that state with the cache emptied it
recomputes its constants and returns -3. -/
theorem random_binomial_btpe_after_inversion_differs :
    random_binomial_inversion demo_half_source 1 state_zero 0 0.5
      = some (0, demo_inversion_cached) ∧
    (random_binomial_btpe demo_half_source 1 demo_inversion_cached 0 0.5).map (fun x => x.1)
      = some 0 ∧
    (random_binomial_btpe demo_half_source 1 (clear_binomial demo_inversion_cached) 0 0.5).map
        (fun x => x.1)
      = some (-3) := by
  refine ⟨by decide, by decide, by decide⟩

/-- C11 (amended). Switching binomial algorithm on the same pair does not
recompute: for every `n` and every `p` that compares equal to itself, when
`random_binomial_btpe(n, p)` is called right after `random_binomial_inversion(n, p)`
returned (or inversion right after BTPE), the second call finds `has_binomial` set
and the pair unchanged, skips its set-up block, runs its loop on the cached
fields exactly as the first call left them, and leaves the cache unchanged.
Only on a state with an empty cache does it run on its own constants
(`btpe_setup n p`, resp. `inversion_setup`). -/
theorem binomial_switch_reuses_cache (n : Int) (p : F) (hpp : eq p p = true) :
    (∀ fuel1 fuel2 s x s1, random_binomial_inversion S fuel1 s n p = some (x, s1) →
      binomial_stale s1.binomial n p = false ∧
      s1.binomial
        = (if binomial_stale s.binomial n p then inversion_setup s.binomial n p
           else s.binomial) ∧
      random_binomial_btpe S fuel2 s1 n p
        = (match btpe_loop S s1.binomial n fuel2 s1 with
           | none => none
           | some (y, s2) => if gt p 0.5 then some (to_long (n - y), s2) else some (y, s2)) ∧
      (∀ y s2, random_binomial_btpe S fuel2 s1 n p = some (y, s2) →
        s2.binomial = s1.binomial) ∧
      (∀ y s2, random_binomial_btpe S fuel2 (clear_binomial s1) n p = some (y, s2) →
        s2.binomial = btpe_setup n p)) ∧
    (∀ fuel1 fuel2 s y s1, random_binomial_btpe S fuel1 s n p = some (y, s1) →
      binomial_stale s1.binomial n p = false ∧
      s1.binomial
        = (if binomial_stale s.binomial n p then btpe_setup n p else s.binomial) ∧
      random_binomial_inversion S fuel2 s1 n p
        = binomial_inversion_loop S n p s1.binomial.q s1.binomial.r s1.binomial.m fuel2 0
            s1.binomial.r (random_double S s1).1 (random_double S s1).2 ∧
      (∀ x s2, random_binomial_inversion S fuel2 s1 n p = some (x, s2) →
        s2.binomial = s1.binomial) ∧
      (∀ x s2, random_binomial_inversion S fuel2 (clear_binomial s1) n p = some (x, s2) →
        s2.binomial = inversion_setup (clear_binomial s1).binomial n p)) := by
  constructor
  · intro fuel1 fuel2 s x s1 h
    have hv := binomial_valid_after_inversion S fuel1 s n p x s1 hpp h
    refine ⟨hv, random_binomial_inversion_cache S fuel1 s n p x s1 h,
      random_binomial_btpe_valid S fuel2 s1 n p hv, ?_, ?_⟩
    · intro y s2 h2
      rw [random_binomial_btpe_cache S fuel2 s1 n p y s2 h2, if_neg (by simp [hv])]
    · intro y s2 h2
      rw [random_binomial_btpe_cache S fuel2 _ n p y s2 h2, if_pos (by simp [binomial_stale, clear_binomial])]
  · intro fuel1 fuel2 s y s1 h
    have hv := binomial_valid_after_btpe S fuel1 s n p y s1 hpp h
    refine ⟨hv, random_binomial_btpe_cache S fuel1 s n p y s1 h,
      random_binomial_inversion_valid S fuel2 s1 n p hv, ?_, ?_⟩
    · intro x s2 h2
      rw [random_binomial_inversion_cache S fuel2 s1 n p x s2 h2, if_neg (by simp [hv])]
    · intro x s2 h2
      rw [random_binomial_inversion_cache S fuel2 _ n p x s2 h2, if_pos (by simp [binomial_stale, clear_binomial])]

/-- Witness for the amended C11 on the fraction model: after
`random_binomial_inversion(state, 0, 0.5)` the cache is valid for `(0, 0.5)`. -/
theorem binomial_switch_reuses_cache_witness :
    DoubleOps.eq (0.5 : Frac) 0.5 = true ∧
    random_binomial_inversion demo_half_source 1 state_zero 0 0.5
      = some (0, demo_inversion_cached) ∧
    binomial_stale demo_inversion_cached.binomial 0 (0.5 : Frac) = false :=
  ⟨by decide, by decide,
   ((binomial_switch_reuses_cache demo_half_source 0 (0.5 : Frac) (by decide)).1 1 1 state_zero 0
      demo_inversion_cached (by decide)).1⟩

end SwitchProofs

/-! ## Binomial cache transparency -/

section TransparencyProofs
variable {R F : Type} [DoubleOps F] (S : Source R F)

theorem binomial_coherent_of_empty (b : binomial_t F) (h : b.has_binomial = 0) :
    binomial_coherent b := by
  intro hne
  exact absurd h hne

theorem inversion_coherent_step (fuel : Nat) (s : aug_state R F) (n : Int) (x : F)
    (v : Int) (s' : aug_state R F) (hc : binomial_coherent s.binomial)
    (hsel : selects_inversion n x = true)
    (h : random_binomial_inversion S fuel s n x = some (v, s')) :
    binomial_coherent s'.binomial := by
  rw [random_binomial_inversion_cache S fuel s n x v s' h]
  by_cases hs : binomial_stale s.binomial n x = true
  · rw [if_pos hs]
    intro _
    refine ⟨rfl, fun _ => rfl, fun hf => ?_⟩
    have : selects_inversion n x = false := hf
    rw [hsel] at this
    exact absurd this (by simp)
  · rw [if_neg hs]
    exact hc

theorem btpe_coherent_step (fuel : Nat) (s : aug_state R F) (n : Int) (x : F)
    (v : Int) (s' : aug_state R F) (hc : binomial_coherent s.binomial)
    (hsel : selects_inversion n x = false)
    (h : random_binomial_btpe S fuel s n x = some (v, s')) :
    binomial_coherent s'.binomial := by
  rw [random_binomial_btpe_cache S fuel s n x v s' h]
  by_cases hs : binomial_stale s.binomial n x = true
  · rw [if_pos hs]
    intro _
    refine ⟨rfl, fun ht => ?_, fun _ => rfl⟩
    have : selects_inversion n x = true := ht
    rw [hsel] at this
    exact absurd this (by simp)
  · rw [if_neg hs]
    exact hc

theorem random_binomial_coherent_step (fuel : Nat) (s : aug_state R F) (n : Int) (p : F)
    (v : Int) (s' : aug_state R F) (hc : binomial_coherent s.binomial)
    (h : random_binomial S fuel s n p = some (v, s')) :
    binomial_coherent s'.binomial := by
  unfold random_binomial at h
  split at h
  · split at h
    · rename_i hsel
      exact inversion_coherent_step S fuel s n p v s' hc hsel h
    · rename_i hsel
      exact btpe_coherent_step S fuel s n p v s' hc (by simpa [selects_inversion] using hsel) h
  · simp only at h
    split at h
    · rename_i hsel
      cases hi : random_binomial_inversion S fuel s n (1.0 - p) with
      | none => rw [hi] at h; simp at h
      | some r =>
        obtain ⟨x, s1⟩ := r
        rw [hi] at h
        simp only [Option.some.injEq, Prod.mk.injEq] at h
        rw [← h.2]
        exact inversion_coherent_step S fuel s n (1.0 - p) x s1 hc hsel hi
    · rename_i hsel
      cases hi : random_binomial_btpe S fuel s n (1.0 - p) with
      | none => rw [hi] at h; simp at h
      | some r =>
        obtain ⟨x, s1⟩ := r
        rw [hi] at h
        simp only [Option.some.injEq, Prod.mk.injEq] at h
        rw [← h.2]
        exact btpe_coherent_step S fuel s n (1.0 - p) x s1 hc
          (by simpa [selects_inversion] using hsel) hi

theorem binomial_reachable_coherent (s : aug_state R F) (h : binomial_reachable S s) :
    binomial_coherent s.binomial := by
  induction h with
  | empty s h0 => exact binomial_coherent_of_empty s.binomial h0
  | call s s' fuel n p x _ hcall ih => exact random_binomial_coherent_step S fuel s n p x s' ih hcall

theorem inversion_transparent (fuel : Nat) (s : aug_state R F) (n : Int) (x : F)
    (hc : binomial_coherent s.binomial) (hsel : selects_inversion n x = true)
    (hid : eq s.binomial.psave x = true → s.binomial.psave = x) :
    random_binomial_inversion S fuel s n x
      = random_binomial_inversion S fuel (clear_binomial s) n x := by
  have hclear : binomial_stale (clear_binomial s).binomial n x = true := by
    simp [binomial_stale, clear_binomial]
  have e2 : random_binomial_inversion S fuel (clear_binomial s) n x
      = random_binomial_inversion S fuel { s with binomial := inversion_setup s.binomial n x } n x
        := by
    unfold random_binomial_inversion
    simp only [hclear, if_true]
    have hs2 : binomial_stale (inversion_setup s.binomial n x) n x
        = binomial_stale (inversion_setup s.binomial n x) n x := rfl
    by_cases hst : binomial_stale (inversion_setup s.binomial n x) n x = true
    · simp only [hst, if_true]; rfl
    · simp only [hst]; rfl
  rw [e2]
  by_cases hs : binomial_stale s.binomial n x = true
  · unfold random_binomial_inversion
    simp only [hs, if_true]
    by_cases hst : binomial_stale (inversion_setup s.binomial n x) n x = true
    · simp only [hst, if_true]; rfl
    · simp only [hst]; rfl
  · have hv := (binomial_stale_false_iff s.binomial n x).1 (by simpa using hs)
    obtain ⟨hne, hn, he⟩ := hv
    have hp := hid he
    obtain ⟨_, hinv, _⟩ := hc hne
    rw [hn, hp] at hinv
    have hfix := hinv hsel
    have : ({ s with binomial := inversion_setup s.binomial n x } : aug_state R F) = s := by
      rw [hfix]
    rw [this]


theorem btpe_transparent (fuel : Nat) (s : aug_state R F) (n : Int) (x : F)
    (hc : binomial_coherent s.binomial) (hsel : selects_inversion n x = false)
    (hid : eq s.binomial.psave x = true → s.binomial.psave = x) :
    random_binomial_btpe S fuel s n x
      = random_binomial_btpe S fuel (clear_binomial s) n x := by
  have hclear : binomial_stale (clear_binomial s).binomial n x = true := by
    simp [binomial_stale, clear_binomial]
  have e2 : random_binomial_btpe S fuel (clear_binomial s) n x
      = random_binomial_btpe S fuel { s with binomial := btpe_setup n x } n x := by
    unfold random_binomial_btpe
    simp only [hclear, if_true]
    by_cases hst : binomial_stale (btpe_setup n x) n x = true
    · simp only [hst, if_true]; rfl
    · simp only [hst]; rfl
  rw [e2]
  by_cases hs : binomial_stale s.binomial n x = true
  · unfold random_binomial_btpe
    simp only [hs, if_true]
    by_cases hst : binomial_stale (btpe_setup n x) n x = true
    · simp only [hst, if_true]
    · simp only [hst]; rfl
  · have hv := (binomial_stale_false_iff s.binomial n x).1 (by simpa using hs)
    obtain ⟨hne, hn, he⟩ := hv
    have hp := hid he
    obtain ⟨_, _, hb⟩ := hc hne
    rw [hn, hp] at hb
    have hfix := hb hsel
    have : ({ s with binomial := btpe_setup n x } : aug_state R F) = s := by
      rw [hfix]
    rw [this]

theorem random_binomial_transparent (fuel : Nat) (s : aug_state R F) (n : Int) (p : F)
    (hc : binomial_coherent s.binomial)
    (hidp : eq s.binomial.psave p = true → s.binomial.psave = p)
    (hidq : eq s.binomial.psave (1.0 - p) = true → s.binomial.psave = 1.0 - p) :
    random_binomial S fuel s n p = random_binomial S fuel (clear_binomial s) n p := by
  unfold random_binomial
  split
  · split
    · rename_i hsel
      exact inversion_transparent S fuel s n p hc hsel hidp
    · rename_i hsel
      exact btpe_transparent S fuel s n p hc (by simpa [selects_inversion] using hsel) hidp
  · simp only
    split
    · rename_i hsel
      rw [inversion_transparent S fuel s n (1.0 - p) hc hsel hidq]
    · rename_i hsel
      rw [btpe_transparent S fuel s n (1.0 - p) hc
        (by simpa [selects_inversion] using hsel) hidq]

/-- C13. Binomial cache transparency.  Every state reachable from an empty cache
through completed calls of `random_binomial` has a coherent cache: when
`has_binomial` is set, the fields of the algorithm that the test `x*n <= 30.0`
selects for `(nsave, psave)` hold what that algorithm computes afresh for
`(nsave, psave)`.  Consequently, on every such state and for every `(n, p)`,
`random_binomial` gives the same result (value, draws consumed, final state) as
on that state with the cache cleared, provided the comparison `psave == x` with
the parameter `x` it passes down (`p` or `1.0 - p`) only succeeds on `x` itself
(as it does in binary64 except between `+0.0` and `-0.0`). -/
theorem random_binomial_cache_transparent :
    (∀ s : aug_state R F, binomial_reachable S s → binomial_coherent s.binomial) ∧
    (∀ (s : aug_state R F) (fuel : Nat) (n : Int) (p : F), binomial_reachable S s →
      (eq s.binomial.psave p = true → s.binomial.psave = p) →
      (eq s.binomial.psave (1.0 - p) = true → s.binomial.psave = 1.0 - p) →
      random_binomial S fuel s n p = random_binomial S fuel (clear_binomial s) n p) := by
  refine ⟨fun s h => binomial_reachable_coherent S s h, ?_⟩
  intro s fuel n p hr hidp hidq
  exact random_binomial_transparent S fuel s n p (binomial_reachable_coherent S s hr) hidp hidq

/-- Witness for C13 on the fraction model: the state reached from the zeroed state
by `random_binomial(400, 0.2)` (BTPE, returns 83) answers a second
`random_binomial(400, 0.2)` exactly as it does with the cache cleared. -/
theorem random_binomial_cache_transparent_witness :
    (state_zero.binomial.has_binomial = 0 ∧
     random_binomial demo_quarter_source 1 state_zero 400 0.2
       = some (83, { state_zero with
                     rng := 2, calls_double := 2, binomial := btpe_setup 400 0.2 })) ∧
    random_binomial demo_quarter_source 1
        { state_zero with rng := 2, calls_double := 2, binomial := btpe_setup 400 0.2 } 400 0.2
      = random_binomial demo_quarter_source 1
          (clear_binomial
            { state_zero with rng := 2, calls_double := 2, binomial := btpe_setup 400 0.2 })
          400 0.2 :=
  ⟨⟨by decide, by decide⟩,
   (random_binomial_cache_transparent demo_quarter_source).2
      { state_zero with rng := 2, calls_double := 2, binomial := btpe_setup 400 0.2 } 1 400 0.2
      (binomial_reachable.call state_zero _ 1 400 0.2 83
        (binomial_reachable.empty state_zero (by decide)) (by decide))
      (fun _ => rfl)
      (fun h => absurd h (by decide))⟩

end TransparencyProofs

/-! ## Ziggurat wedge test -/

section WedgeProofs

theorem random_gauss_zig_iter_wedge {R F : Type} [DoubleOps F] (S : Source R F)
    (T : zig_tables F) (fuel : Nat) (s : aug_state R F)
    (hrect : lt (fabs (2.0 * (random_double S s).1 - 1.0))
      (T.s_adZigR.getD (((zig_next_byte S (random_double S s).2).zig_random_int &&& 0x7F) % 2 ^ 32)
        0.0) = false)
    (hi : ((zig_next_byte S (random_double S s).2).zig_random_int &&& 0x7F) % 2 ^ 32 ≠ 0) :
    random_gauss_zig_iter S T fuel s
      = some (⟨((zig_next_byte S (random_double S s).2).zig_random_int &&& 0x7F) % 2 ^ 32,
          if zig_wedge_test
              (T.s_adZigX.getD
                (((zig_next_byte S (random_double S s).2).zig_random_int &&& 0x7F) % 2 ^ 32) 0.0)
              (T.s_adZigX.getD
                (((zig_next_byte S (random_double S s).2).zig_random_int &&& 0x7F) % 2 ^ 32 + 1)
                0.0)
              ((2.0 * (random_double S s).1 - 1.0) * T.s_adZigX.getD
                (((zig_next_byte S (random_double S s).2).zig_random_int &&& 0x7F) % 2 ^ 32) 0.0)
              (random_double S (zig_next_byte S (random_double S s).2)).1
          then some ((2.0 * (random_double S s).1 - 1.0) * T.s_adZigX.getD
                (((zig_next_byte S (random_double S s).2).zig_random_int &&& 0x7F) % 2 ^ 32) 0.0)
          else none⟩,
        (random_double S (zig_next_byte S (random_double S s).2)).2) := by
  unfold random_gauss_zig_iter zig_wedge_test
  simp only [hrect, Bool.false_eq_true, if_false, hi]
  split <;> rfl

/-- C17. Under real-number arithmetic the wedge test the code performs,
`f1 + U*(f0 - f1) < 1.0` with `f0 = exp(-0.5*(x_i^2 - x^2))` and
`f1 = exp(-0.5*(x_{i+1}^2 - x^2))`, holds exactly when the wedge acceptance of
the spec, `f(x_{i+1}) + U*(f(x_i) - f(x_{i+1})) < f(x)` with
`f(t) = exp(-t^2/2)`, holds, for all reals `x_i`, `x_{i+1}`, `x` and `U`. -/
theorem zig_wedge_test_iff_spec (xi xi1 x U : ℝ) :
    @zig_wedge_test ℝ realDoubleOps xi xi1 x U = true ↔ wedge_accept_spec xi xi1 x U := by
  unfold zig_wedge_test wedge_accept_spec gauss_kernel
  simp only [DoubleOps.lt, DoubleOps.exp, decide_eq_true_eq]
  have h0 : Real.exp (-0.5 * (xi * xi - x * x))
      = Real.exp (-(xi ^ 2) / 2) / Real.exp (-(x ^ 2) / 2) := by
    rw [← Real.exp_sub]; congr 1; ring
  have h1 : Real.exp (-0.5 * (xi1 * xi1 - x * x))
      = Real.exp (-(xi1 ^ 2) / 2) / Real.exp (-(x ^ 2) / 2) := by
    rw [← Real.exp_sub]; congr 1; ring
  have hpos := Real.exp_pos (-(x ^ 2) / 2)
  have one : (1.0 : ℝ) = 1 := by norm_num
  rw [h0, h1, ← sub_div, ← mul_div_assoc, ← add_div, one, div_lt_one hpos]

end WedgeProofs

/-! ## Log-gamma argument shift -/

section LogGammaProofs
variable {F : Type} [DoubleOps F]

end LogGammaProofs

section LogGammaWitness

end LogGammaWitness

/-! ## Degenerate binomial parameters -/

section DegenerateProofs

theorem one_double_drawn_after_setup {R F : Type} (S : Source R F) (s : aug_state R F)
    (b : binomial_t F) (c : Prop) [Decidable c] :
    one_double_drawn S s (random_double S (if c then { s with binomial := b } else s)).2 := by
  split <;> exact ⟨rfl, rfl, rfl, rfl⟩

variable {R F : Type} [DoubleOps F] (S : Source R F)

theorem to_long_id (n : Int) (h0 : -2 ^ 63 ≤ n) (h1 : n < 2 ^ 63) : to_long n = n := by
  unfold to_long to_int64
  split <;> omega

/-- On a coherent cache the inversion algorithm returns 0 at its first test,
after one draw, whenever the draw is not above `qn = exp(n*log(1.0 - y))` for
every `y` that compares equal to the parameter `x` (the cached `psave` is such a
`y`), and the pair selects inversion. -/
theorem inversion_immediate (s : aug_state R F) (hc : binomial_coherent s.binomial)
    (n : Int) (x : F) (hxx : eq x x = true)
    (hy : ∀ y : F, eq y x = true → le (y * ofLong n) 30.0 = true ∧
      gt (S.random_double s.rng).1 (exp (ofLong n * log (1.0 - y))) = false)
    (fuel : Nat) (hf : 0 < fuel) :
    random_binomial_inversion S fuel s n x
      = some (0, (random_double S
          (if binomial_stale s.binomial n x = true
            then { s with binomial := inversion_setup s.binomial n x }
            else s)).2) := by
  obtain ⟨k, rfl⟩ : ∃ k, fuel = k + 1 := ⟨fuel - 1, by omega⟩
  by_cases hs : binomial_stale s.binomial n x = true
  · unfold random_binomial_inversion
    simp only [hs, if_true]
    simp only [binomial_inversion_loop]
    rw [if_neg]
    have := (hy x hxx).2
    simp only [Bool.not_eq_true]
    exact this
  · have hv : binomial_stale s.binomial n x = false := by simpa using hs
    obtain ⟨hne, hn, he⟩ := (binomial_stale_false_iff s.binomial n x).1 hv
    obtain ⟨_, hinv, _⟩ := hc hne
    rw [hn] at hinv
    have hfix := hinv (hy s.binomial.psave he).1
    have hr : s.binomial.r = exp (ofLong n * log (1.0 - s.binomial.psave)) := by
      have := congrArg binomial_t.r hfix
      exact this.symm
    unfold random_binomial_inversion
    simp only [hv, Bool.false_eq_true, if_false]
    simp only [binomial_inversion_loop]
    rw [if_neg]
    have := (hy s.binomial.psave he).2
    simp only [Bool.not_eq_true]
    rw [hr]
    exact this

/-- C20 (amended). Degenerate binomial parameters, on every state whose binomial
cache is coherent (empty, or as left by calls of `random_binomial`, C13): for
every `n` with `0 <= n < 2^63` and every fuel `>= 1` (one test of the search
loop), `random_binomial(n, 0)` returns 0, `random_binomial(n, 1)` returns `n`,
and `random_binomial(0, p)` returns 0; each call is the inversion call (`n -` it
for `p > 0.5`), draws exactly one `random_double` and returns at the first test
`U > px` of the search loop.  The premises of each case are facts of binary64
for that parameter: the outcome of `p <= 0.5`, that the parameter `x` handed to
inversion is not NaN, and, for every `y` with `y == x` (`x` itself, or the
cached `psave`), that `y*n <= 30.0` and that the draw, which is below 1, is not
above `qn = exp(n*log(1.0 - y))`, which is exactly 1 there. -/
theorem random_binomial_degenerate
    (s : aug_state R F) (hc : binomial_coherent s.binomial)
    (n : Int) (hn0 : 0 ≤ n) (hn : n < 2 ^ 63) (fuel : Nat) (hf : 0 < fuel) :
    (le (0.0 : F) 0.5 = true → eq (0.0 : F) 0.0 = true →
      (∀ y : F, eq y 0.0 = true → le (y * ofLong n) 30.0 = true ∧
        gt (S.random_double s.rng).1 (exp (ofLong n * log (1.0 - y))) = false) →
      ∃ s', random_binomial S fuel s n 0.0 = some (0, s') ∧
        random_binomial S fuel s n 0.0 = random_binomial_inversion S fuel s n 0.0 ∧
        one_double_drawn S s s') ∧
    (le (1.0 : F) 0.5 = false → eq (1.0 - 1.0 : F) (1.0 - 1.0) = true →
      (∀ y : F, eq y (1.0 - 1.0) = true → le (y * ofLong n) 30.0 = true ∧
        gt (S.random_double s.rng).1 (exp (ofLong n * log (1.0 - y))) = false) →
      ∃ s', random_binomial S fuel s n 1.0 = some (n, s') ∧
        random_binomial_inversion S fuel s n (1.0 - 1.0) = some (0, s') ∧
        one_double_drawn S s s') ∧
    (∀ p x : F, x = (if le p 0.5 = true then p else 1.0 - p) → eq x x = true →
      (∀ y : F, eq y x = true → le (y * ofLong 0) 30.0 = true ∧
        gt (S.random_double s.rng).1 (exp (ofLong 0 * log (1.0 - y))) = false) →
      ∃ s', random_binomial S fuel s 0 p = some (0, s') ∧
        random_binomial_inversion S fuel s 0 x = some (0, s') ∧
        one_double_drawn S s s') := by
  refine ⟨?_, ?_, ?_⟩
  · intro h5 h00 hy
    have hinv := inversion_immediate S s hc n 0.0 h00 hy fuel hf
    have e : random_binomial S fuel s n 0.0 = random_binomial_inversion S fuel s n 0.0 := by
      unfold random_binomial
      rw [if_pos h5, if_pos (hy 0.0 h00).1]
    exact ⟨_, by rw [e]; exact hinv, e, one_double_drawn_after_setup S s _ _⟩
  · intro h5 hxx hy
    have hinv := inversion_immediate S s hc n (1.0 - 1.0) hxx hy fuel hf
    refine ⟨_, ?_, hinv, one_double_drawn_after_setup S s _ _⟩
    unfold random_binomial
    rw [if_neg (by rw [h5]; simp)]
    simp only
    rw [if_pos (hy (1.0 - 1.0) hxx).1, hinv]
    simp only [sub_zero]
    rw [to_long_id n (by omega) hn]
  · intro p x hx hxx hy
    have hinv := inversion_immediate S s hc 0 x hxx hy fuel hf
    refine ⟨_, ?_, hinv, one_double_drawn_after_setup S s _ _⟩
    unfold random_binomial
    by_cases h5 : le p 0.5 = true
    · rw [if_pos h5] at hx
      subst hx
      rw [if_pos h5, if_pos (hy x hxx).1, hinv]
    · rw [if_neg h5] at hx
      subst hx
      rw [if_neg h5]
      simp only
      rw [if_pos (hy (1.0 - p) hxx).1, hinv]
      rfl

end DegenerateProofs

section DegenerateWitness

/-- Witness for C20 on the reals: the zeroed state, every `random_double` equal to
`1/2`, `n = 7`, `p = 0`, fuel 1. -/
theorem random_binomial_degenerate_witness :
    (@binomial_coherent ℝ realDoubleOps real_state_zero.binomial ∧
      (0 : Int) ≤ 7 ∧ (7 : Int) < 2 ^ 63 ∧ 0 < 1 ∧
      @DoubleOps.le ℝ realDoubleOps 0.0 0.5 = true ∧
      @DoubleOps.eq ℝ realDoubleOps 0.0 0.0 = true ∧
      (∀ y : ℝ, @DoubleOps.eq ℝ realDoubleOps y 0.0 = true →
        @DoubleOps.le ℝ realDoubleOps (y * @DoubleOps.ofLong ℝ realDoubleOps 7) 30.0 = true ∧
        @DoubleOps.gt ℝ realDoubleOps ((real_const_source (1 / 2)).random_double
            real_state_zero.rng).1
          (Real.exp (@DoubleOps.ofLong ℝ realDoubleOps 7 * Real.log (1.0 - y))) = false)) ∧
    ∃ s', @random_binomial Nat ℝ realDoubleOps (real_const_source (1 / 2)) 1 real_state_zero 7 0.0
        = some (0, s') ∧
      @random_binomial Nat ℝ realDoubleOps (real_const_source (1 / 2)) 1 real_state_zero 7 0.0
        = @random_binomial_inversion Nat ℝ realDoubleOps (real_const_source (1 / 2)) 1
            real_state_zero 7 0.0 ∧
      one_double_drawn (real_const_source (1 / 2)) real_state_zero s' := by
  have h5 : @DoubleOps.le ℝ realDoubleOps 0.0 0.5 = true := by
    simp only [DoubleOps.le, decide_eq_true_eq]; norm_num
  have h00 : @DoubleOps.eq ℝ realDoubleOps 0.0 0.0 = true := by
    simp only [DoubleOps.eq, decide_eq_true_eq]
  have hy : ∀ y : ℝ, @DoubleOps.eq ℝ realDoubleOps y 0.0 = true →
      @DoubleOps.le ℝ realDoubleOps (y * @DoubleOps.ofLong ℝ realDoubleOps 7) 30.0 = true ∧
      @DoubleOps.gt ℝ realDoubleOps ((real_const_source (1 / 2)).random_double
          real_state_zero.rng).1
        (Real.exp (@DoubleOps.ofLong ℝ realDoubleOps 7 * Real.log (1.0 - y))) = false := by
    intro y he
    have hy0 : y = 0 := by
      simp only [DoubleOps.eq, decide_eq_true_eq] at he
      rw [he]; norm_num
    subst hy0
    constructor
    · simp only [DoubleOps.le, decide_eq_true_eq]; norm_num
    · have : Real.log (1.0 - 0) = 0 := by norm_num
      simp only [DoubleOps.gt, DoubleOps.lt, this, mul_zero, Real.exp_zero, real_const_source,
        stream_source, decide_eq_false_iff_not, not_lt]
      norm_num
  exact ⟨⟨fun h => absurd rfl h, by decide, by decide, by decide, h5, h00, hy⟩,
    (@random_binomial_degenerate Nat ℝ realDoubleOps (real_const_source (1 / 2)) real_state_zero
      (fun h => absurd rfl h) 7 (by decide) (by decide) 1 (by decide)).1 h5 h00 hy⟩

/-- C20 (counterexample). The claim fails on a state whose cache was written by
the other algorithm: `random_binomial_btpe(state, 0, 0.5)` on the zeroed state
draws `1/2, 1/2`, returns `-3` and leaves `nsave = 0`, `psave = 0.5`, `r = 0.5`,
`m = 0`.  On that state `random_binomial(state, 0, 0.5)` takes the inversion
path, finds the pair unchanged and reads `qn = r = 0.5`, `bound = m = 0`: the
draw `3/4 > qn` enters the search loop, `X = 1 > bound` restarts it, and the
second draw `1/2` returns 0; two doubles are consumed.  With the cache cleared
the same call consumes one. -/
theorem random_binomial_degenerate_stale_cache :
    random_binomial_btpe demo_restart_source 1 state_zero 0 0.5
      = some (-3, demo_btpe_half_cached) ∧
    (random_binomial demo_restart_source 2 demo_btpe_half_cached 0 0.5).map
        (fun x => (x.1, x.2.calls_double)) = some (0, 4) ∧
    random_binomial demo_restart_source 1 demo_btpe_half_cached 0 0.5 = none ∧
    (random_binomial demo_restart_source 1 (clear_binomial demo_btpe_half_cached) 0 0.5).map
        (fun x => (x.1, x.2.calls_double)) = some (0, 3) := by
  refine ⟨by decide, by decide, by decide, by decide⟩

end DegenerateWitness

/-! ## Poisson values are never negative -/

section PoissonProofs
variable {R : Type} (S : Source R ℝ)

/-- Over the reals `(long)floor(z)` is `floor(z)` whenever that fits a `long`. -/
theorem real_toLong_floor (z : ℝ) (h0 : -2 ^ 63 ≤ ⌊z⌋) (h1 : ⌊z⌋ < 2 ^ 63) :
    @DoubleOps.toLong ℝ realDoubleOps (@DoubleOps.floor ℝ realDoubleOps z) = ⌊z⌋ := by
  have ht : real_trunc ((⌊z⌋ : Int) : ℝ) = ⌊z⌋ := by
    unfold real_trunc
    split
    · exact Int.floor_intCast _
    · exact Int.ceil_intCast _
  simp only [DoubleOps.toLong, DoubleOps.floor, real_toLong, ht]
  rw [if_pos ⟨h0, h1⟩]

/-- Over the reals `(long)floor(z)` is never above `floor(z)` when `floor(z)` is
not below `LONG_MIN`: it is `floor(z)` or `LONG_MIN`. -/
theorem real_toLong_floor_le (z : ℝ) (h0 : -2 ^ 63 ≤ ⌊z⌋) :
    @DoubleOps.toLong ℝ realDoubleOps (@DoubleOps.floor ℝ realDoubleOps z) ≤ ⌊z⌋ := by
  by_cases h1 : ⌊z⌋ < 2 ^ 63
  · rw [real_toLong_floor z h0 h1]
  · have ht : real_trunc ((⌊z⌋ : Int) : ℝ) = ⌊z⌋ := by
      unfold real_trunc
      split
      · exact Int.floor_intCast _
      · exact Int.ceil_intCast _
    simp only [DoubleOps.toLong, DoubleOps.floor, real_toLong, ht]
    rw [if_neg (fun h => h1 h.2)]
    exact h0

/-- The quadratic inequality behind the lower bound of the PTRS candidate. -/
theorem ptrs_quadratic (s : ℝ) (hs3 : 3 ≤ s) :
    ((-0.059 + 0.02483 * (0.931 + 2.53 * s)) * (2 / 0.07) + (0.931 + 2.53 * s)) * 0.43
      ≤ s * s + 0.43 := by
  nlinarith [mul_nonneg (sub_nonneg.mpr hs3) (sub_nonneg.mpr hs3)]

/-- The PTRS candidate is not negative on the fast-accept region. -/
theorem ptrs_candidate_nonneg (lam U us : ℝ) (hlam : 10 ≤ lam) (hus : us = 0.5 - |U|)
    (h7 : 0.07 ≤ us) :
    0 ≤ (2 * (-0.059 + 0.02483 * (0.931 + 2.53 * Real.sqrt lam)) / us
          + (0.931 + 2.53 * Real.sqrt lam)) * U + lam + 0.43 := by
  have hs0 : 0 ≤ Real.sqrt lam := Real.sqrt_nonneg lam
  have hsq : Real.sqrt lam * Real.sqrt lam = lam := Real.mul_self_sqrt (by linarith)
  have hs3 : 3 ≤ Real.sqrt lam := by
    by_contra h
    push_neg at h
    nlinarith
  have hq := ptrs_quadratic (Real.sqrt lam) hs3
  rw [hsq] at hq
  generalize Real.sqrt lam = s at hs0 hs3 hq ⊢
  generalize hb : 0.931 + 2.53 * s = b at hq ⊢
  generalize ha : -0.059 + 0.02483 * b = a at hq ⊢
  have hbpos : 0 < b := by rw [← hb]; linarith
  have hapos : 0 < a := by rw [← ha]; linarith
  have huspos : 0 < us := by linarith
  have habs : |U| ≤ 0.43 := by linarith
  have hK1 : 2 * a / us ≤ 2 * a / 0.07 :=
    div_le_div_of_nonneg_left (by linarith) (by norm_num) h7
  have hK0 : 0 ≤ 2 * a / us := by positivity
  have h2 : (2 * a / us + b) * |U| ≤ (2 * a / 0.07 + b) * 0.43 :=
    mul_le_mul (by linarith) habs (abs_nonneg U) (by positivity)
  have h1 : (2 * a / us + b) * (-|U|) ≤ (2 * a / us + b) * U :=
    mul_le_mul_of_nonneg_left (neg_abs_le U) (by linarith)
  have hlin : 2 * a / 0.07 = a * (2 / 0.07) := by ring
  rw [hlin] at h2
  linarith only [h1, h2, hq]

/-- The PTRS candidate on the fast-accept region is at most the bound of
`ptrs_fits_long`. -/
theorem ptrs_candidate_le (lam U us : ℝ) (hlam : 10 ≤ lam) (hus : us = 0.5 - |U|)
    (h7 : 0.07 ≤ us) :
    (2 * (-0.059 + 0.02483 * (0.931 + 2.53 * Real.sqrt lam)) / us
          + (0.931 + 2.53 * Real.sqrt lam)) * U + lam + 0.43
      ≤ (2 * (-0.059 + 0.02483 * (0.931 + 2.53 * Real.sqrt lam)) / 0.07
          + (0.931 + 2.53 * Real.sqrt lam)) * 0.43 + lam + 0.43 := by
  have hs0 : 0 ≤ Real.sqrt lam := Real.sqrt_nonneg lam
  have hsq : Real.sqrt lam * Real.sqrt lam = lam := Real.mul_self_sqrt (by linarith)
  have hs3 : 3 ≤ Real.sqrt lam := by
    by_contra h
    push_neg at h
    nlinarith
  clear hsq
  generalize Real.sqrt lam = s at hs0 hs3 ⊢
  generalize hb : 0.931 + 2.53 * s = b
  generalize ha : -0.059 + 0.02483 * b = a
  have hbpos : 0 < b := by rw [← hb]; linarith
  have hapos : 0 < a := by rw [← ha]; linarith
  have huspos : 0 < us := by linarith
  have habs : |U| ≤ 0.43 := by linarith
  have hK1 : 2 * a / us ≤ 2 * a / 0.07 :=
    div_le_div_of_nonneg_left (by linarith) (by norm_num) h7
  have hK0 : 0 ≤ 2 * a / us := by positivity
  have h2 : (2 * a / us + b) * |U| ≤ (2 * a / 0.07 + b) * 0.43 :=
    mul_le_mul (by linarith) habs (abs_nonneg U) (by positivity)
  have h1 : (2 * a / us + b) * U ≤ (2 * a / us + b) * |U| :=
    mul_le_mul_of_nonneg_left (le_abs_self U) (by linarith)
  linarith only [h1, h2]

/-- Every `lam` with `10 <= lam <= 2^62` passes `ptrs_fits_long`. -/
theorem ptrs_fits_long_of_le (lam : ℝ) (hlam : 10 ≤ lam) (hmax : lam ≤ 2 ^ 62) :
    ptrs_fits_long lam := by
  have hs0 : 0 ≤ Real.sqrt lam := Real.sqrt_nonneg lam
  have hsq : Real.sqrt lam * Real.sqrt lam = lam := Real.mul_self_sqrt (by linarith)
  have hs : Real.sqrt lam ≤ 2 ^ 31 := by
    by_contra h
    push_neg at h
    have : (2 : ℝ) ^ 31 * 2 ^ 31 < Real.sqrt lam * Real.sqrt lam :=
      mul_lt_mul'' h h (by positivity) (by positivity)
    have e : (2 : ℝ) ^ 31 * 2 ^ 31 = 2 ^ 62 := by norm_num
    linarith
  unfold ptrs_fits_long
  have e62 : (2 : ℝ) ^ 62 = 4611686018427387904 := by norm_num
  have e63 : (2 : ℝ) ^ 63 = 9223372036854775808 := by norm_num
  have e31 : (2 : ℝ) ^ 31 = 2147483648 := by norm_num
  rw [e63]
  rw [e62] at hmax
  rw [e31] at hs
  generalize Real.sqrt lam = s at hs hs0
  have e : (2 * (-0.059 + 0.02483 * (0.931 + 2.53 * s)) / 0.07 + (0.931 + 2.53 * s)) * 0.43
      = (2 * (-0.059 + 0.02483 * 0.931) / 0.07 + 0.931) * 0.43
        + (2 * (0.02483 * 2.53) / 0.07 + 2.53) * 0.43 * s := by ring
  rw [e]
  have c1 : (2 * (-0.059 + 0.02483 * 0.931) / 0.07 + 0.931) * 0.43 ≤ (1 : ℝ) := by norm_num
  have c2 : (0 : ℝ) ≤ (2 * (0.02483 * 2.53) / 0.07 + 2.53) * 0.43 := by norm_num
  have c3 : (2 * (0.02483 * 2.53) / 0.07 + 2.53) * 0.43 ≤ (2 : ℝ) := by norm_num
  have c4 : (2 * (0.02483 * 2.53) / 0.07 + 2.53) * 0.43 * s ≤ 2 * 2147483648 :=
    mul_le_mul c3 hs hs0 (by norm_num)
  have c5 : (0.43 : ℝ) ≤ 1 := by norm_num
  linarith

/-- The candidate `k` of PTRS over the reals, on the fast-accept region, when it
fits a `long`: it is the floor of the candidate value, and not negative. -/
theorem ptrs_k_fast (lam U us : ℝ) (hlam : 10 ≤ lam) (hfit : ptrs_fits_long lam)
    (hus : us = 0.5 - |U|) (h7 : 0.07 ≤ us) :
    @ptrs_k ℝ realDoubleOps lam
        (-0.059 + 0.02483 * (0.931 + 2.53 * Real.sqrt lam)) (0.931 + 2.53 * Real.sqrt lam) U us
      = ⌊(2 * (-0.059 + 0.02483 * (0.931 + 2.53 * Real.sqrt lam)) / us
          + (0.931 + 2.53 * Real.sqrt lam)) * U + lam + 0.43⌋ ∧
    0 ≤ @ptrs_k ℝ realDoubleOps lam
        (-0.059 + 0.02483 * (0.931 + 2.53 * Real.sqrt lam)) (0.931 + 2.53 * Real.sqrt lam)
        U us := by
  have h0 := ptrs_candidate_nonneg lam U us hlam hus h7
  have h1 := ptrs_candidate_le lam U us hlam hus h7
  have hfl0 : 0 ≤ ⌊(2 * (-0.059 + 0.02483 * (0.931 + 2.53 * Real.sqrt lam)) / us
          + (0.931 + 2.53 * Real.sqrt lam)) * U + lam + 0.43⌋ := Int.floor_nonneg.mpr h0
  have hfl1 : ⌊(2 * (-0.059 + 0.02483 * (0.931 + 2.53 * Real.sqrt lam)) / us
          + (0.931 + 2.53 * Real.sqrt lam)) * U + lam + 0.43⌋ < 2 ^ 63 := by
    have hfit' := hfit
    unfold ptrs_fits_long at hfit'
    have hlt := lt_of_le_of_lt h1 hfit'
    rw [Int.floor_lt]
    exact_mod_cast hlt
  have two : (2.0 : ℝ) = 2 := by norm_num
  have e : @ptrs_k ℝ realDoubleOps lam
        (-0.059 + 0.02483 * (0.931 + 2.53 * Real.sqrt lam)) (0.931 + 2.53 * Real.sqrt lam) U us
      = ⌊(2 * (-0.059 + 0.02483 * (0.931 + 2.53 * Real.sqrt lam)) / us
          + (0.931 + 2.53 * Real.sqrt lam)) * U + lam + 0.43⌋ := by
    unfold ptrs_k
    rw [two]
    exact real_toLong_floor _ (by omega) hfl1
  exact ⟨e, by rw [e]; exact hfl0⟩

theorem real_ptrs_loop_nonneg (lam loglam invalpha vr : ℝ) (hlam : 10 ≤ lam)
    (hfit : ptrs_fits_long lam) :
    ∀ (fuel : Nat) (s : aug_state R ℝ) (k : Int) (s' : aug_state R ℝ),
      @random_poisson_ptrs_loop R ℝ realDoubleOps S lam loglam
        (-0.059 + 0.02483 * (0.931 + 2.53 * Real.sqrt lam)) (0.931 + 2.53 * Real.sqrt lam)
        invalpha vr fuel s = some (k, s') → 0 ≤ k := by
  intro fuel
  induction fuel with
  | zero => intro s k s' h; simp [random_poisson_ptrs_loop] at h
  | succ f ih =>
    intro s k s' h
    simp only [random_poisson_ptrs_loop] at h
    split at h
    · rename_i hfast
      simp only [Option.some.injEq, Prod.mk.injEq] at h
      rw [← h.1]
      simp only [Bool.and_eq_true, DoubleOps.ge, DoubleOps.le, decide_eq_true_eq] at hfast
      exact (ptrs_k_fast lam _ _ hlam hfit rfl hfast.1).2
    · split at h
      · exact ih _ k s' h
      · rename_i hneg
        split at h
        · simp only [Option.some.injEq, Prod.mk.injEq] at h
          simp only [Bool.or_eq_true, decide_eq_true_eq, not_or, not_lt] at hneg
          rw [← h.1]
          exact hneg.1
        · exact ih _ k s' h

theorem real_mult_loop_nonneg (enlam : ℝ) :
    ∀ (fuel : Nat) (X : Int) (prod : ℝ) (s : aug_state R ℝ) (k : Int) (s' : aug_state R ℝ),
      0 ≤ X → X + fuel < 2 ^ 63 →
      @random_poisson_mult_loop R ℝ realDoubleOps S enlam fuel X prod s = some (k, s') →
      0 ≤ k := by
  intro fuel
  induction fuel with
  | zero => intro X prod s k s' _ _ h; simp [random_poisson_mult_loop] at h
  | succ f ih =>
    intro X prod s k s' hX hb h
    simp only [random_poisson_mult_loop] at h
    split at h
    · have hw : to_long (X + 1) = X + 1 := by
        unfold to_long to_int64
        push_cast at hb
        split <;> omega
      rw [hw] at h
      exact ih _ _ _ k s' (by omega) (by push_cast at hb ⊢; omega) h
    · simp only [Option.some.injEq, Prod.mk.injEq] at h
      rw [← h.1]
      exact hX

/-- C19 (amended). Under real-number arithmetic, with `long` a 64-bit type: for
every `lam >= 10` whose fast-accept candidates fit a `long` (`ptrs_fits_long`,
true of every `lam <= 2^62`), the PTRS candidate
`k = (long)floor((2a/us + b)*U + lam + 0.43)` is the floor of its argument and is
`>= 0` whenever `us = 0.5 - |U| >= 0.07` (the fast-accept region, where
`|U| <= 0.43`), with `b = 0.931 + 2.53*sqrt(lam)` and `a = -0.059 + 0.02483*b`;
hence every value returned by `random_poisson` for such `lam`, and for
`0 <= lam < 10`, is `>= 0` (for runs of fewer than `2^63` loop iterations, so
that the `long` counter of the multiplication method cannot wrap). -/
theorem random_poisson_nonneg (lam : ℝ) :
    (10 ≤ lam → ptrs_fits_long lam → ∀ U us : ℝ, us = 0.5 - |U| → 0.07 ≤ us →
      0 ≤ @ptrs_k ℝ realDoubleOps lam
        (-0.059 + 0.02483 * (0.931 + 2.53 * Real.sqrt lam)) (0.931 + 2.53 * Real.sqrt lam)
        U us) ∧
    (∀ l : ℝ, 10 ≤ l → l ≤ 2 ^ 62 → ptrs_fits_long l) ∧
    (0 ≤ lam → (10 ≤ lam → ptrs_fits_long lam) →
      ∀ (fuel : Nat) (s : aug_state R ℝ) (k : Int) (s' : aug_state R ℝ),
      fuel < 2 ^ 63 →
      @random_poisson R ℝ realDoubleOps S fuel s lam = some (k, s') → 0 ≤ k) := by
  refine ⟨?_, ptrs_fits_long_of_le, ?_⟩
  · intro hlam hfit U us hus h7
    exact (ptrs_k_fast lam U us hlam hfit hus h7).2
  · intro _ hfit fuel s k s' hf h
    unfold random_poisson at h
    split at h
    · rename_i hge
      simp only [DoubleOps.ge, DoubleOps.le, decide_eq_true_eq] at hge
      have ten : (10.0 : ℝ) = 10 := by norm_num
      rw [ten] at hge
      unfold random_poisson_ptrs at h
      exact real_ptrs_loop_nonneg S lam _ _ _ hge (hfit hge) fuel s k s' h
    · split at h
      · simp only [Option.some.injEq, Prod.mk.injEq] at h
        rw [← h.1]
      · unfold random_poisson_mult at h
        exact real_mult_loop_nonneg S _ fuel 0 _ s k s' (le_refl 0) (by
          have : (fuel : Int) < 2 ^ 63 := by exact_mod_cast hf
          omega) h

/-- Witness for C19 on the reals at `lam = 16`, `U = -0.43`, `us = 0.07`. -/
theorem random_poisson_nonneg_witness :
    ((10 : ℝ) ≤ 16 ∧ ptrs_fits_long 16 ∧ (0.07 : ℝ) = 0.5 - |(-0.43 : ℝ)| ∧
      (0.07 : ℝ) ≤ 0.07) ∧
    0 ≤ @ptrs_k ℝ realDoubleOps 16
        (-0.059 + 0.02483 * (0.931 + 2.53 * Real.sqrt 16)) (0.931 + 2.53 * Real.sqrt 16)
        (-0.43) 0.07 :=
  ⟨⟨by norm_num, ptrs_fits_long_of_le 16 (by norm_num) (by norm_num),
      by rw [abs_neg, abs_of_pos (by norm_num)]; norm_num, le_refl _⟩,
   (random_poisson_nonneg (real_const_source (1 / 2)) 16).1 (by norm_num)
      (ptrs_fits_long_of_le 16 (by norm_num) (by norm_num)) (-0.43) 0.07
      (by rw [abs_neg, abs_of_pos (by norm_num)]; norm_num) (le_refl _)⟩

/-- C19 (counterexample). For `lam = 10^19` the cast overflows: with the draws
`0.5` and `0.0`, `U = 0`, `us = 0.5 >= 0.07`, the candidate is
`floor(10^19 + 0.43) = 10^19 >= 2^63`, so `k = (long)10^19` is `LONG_MIN`
(x86-64), and `V = 0 <= vr` returns it through the fast-accept path, before the
`k < 0` check. -/
theorem random_poisson_returns_long_min :
    DoubleOps.ge (⟨10 ^ 19, 1⟩ : Frac) 10.0 = true ∧
    (random_poisson demo_half_zero_source 1 state_zero (⟨10 ^ 19, 1⟩ : Frac)).map Prod.fst
      = some (-2 ^ 63) := by
  constructor <;> decide

end PoissonProofs

/-! ## Range of the inversion search -/

section InversionRange
variable {R F : Type} [DoubleOps F] (S : Source R F)

end InversionRange

section InversionRangeReal
variable {R : Type} (S : Source R ℝ)

end InversionRangeReal

section InversionRangeDemo

end InversionRangeDemo

/-! ## Output range of BTPE -/

section BtpeRange
variable {R : Type} (S : Source R ℝ)

/-- The arithmetic behind the BTPE constants: with `t = n*p > 30` and
`0 < p <= 1/2`, the quantity `w = 2.195*sqrt(n*p*q) - 4.6*q` whose floor is
`p1 - 0.5` satisfies `3 <= w <= n*p + p` and `n*p + p + w + 1 <= n`. -/
theorem btpe_width_bounds (N p : ℝ) (hp0 : 0 < p) (hp : p ≤ 1 / 2) (hnp : 30 < N * p) :
    3 ≤ 2.195 * Real.sqrt (N * p * (1 - p)) - 4.6 * (1 - p) ∧
    2.195 * Real.sqrt (N * p * (1 - p)) - 4.6 * (1 - p) ≤ N * p + p ∧
    N * p + p + (2.195 * Real.sqrt (N * p * (1 - p)) - 4.6 * (1 - p)) + 1 ≤ N := by
  have hq : 1 / 2 ≤ 1 - p := by linarith
  have hq1 : 1 - p < 1 := by linarith
  have hN : 60 < N := by nlinarith
  have hv : 15 ≤ N * p * (1 - p) := by nlinarith
  have hv1 : N * p * (1 - p) ≤ N * p := by nlinarith
  have hv2 : N * p * (1 - p) ≤ N * (1 - p) / 2 := by nlinarith
  have hs0 : 0 ≤ Real.sqrt (N * p * (1 - p)) := Real.sqrt_nonneg _
  have hss : Real.sqrt (N * p * (1 - p)) * Real.sqrt (N * p * (1 - p)) = N * p * (1 - p) :=
    Real.mul_self_sqrt (by linarith)
  generalize Real.sqrt (N * p * (1 - p)) = s at hs0 hss ⊢
  have hs38 : 3.8 ≤ s := by
    by_contra hc
    push_neg at hc
    nlinarith
  have hst : 2.195 * s ≤ N * p := by
    by_contra hc
    push_neg at hc
    nlinarith
  have hsq : 2.195 * s ≤ N * (1 - p) := by
    by_contra hc
    push_neg at hc
    nlinarith
  refine ⟨by linarith, by linarith, by nlinarith⟩

/-- A lower bound for `lam = a*(1 + a/2)` with `a = A / B`: when `A >= 3` and
`0 < B <= N`, `lam * N >= 3`. -/
theorem lam_lower (A B N : ℝ) (hB : 0 < B) (hBn : B ≤ N) (hA : 3 ≤ A) :
    3 ≤ A / B * (1 + A / B / 2) * N := by
  have ha : 0 < A / B := div_pos (by linarith) hB
  have hab : A / B * B = A := div_mul_cancel₀ _ (ne_of_gt hB)
  generalize A / B = a at ha hab ⊢
  have hN : 0 ≤ N := by linarith
  have h1 : a * B ≤ a * N := mul_le_mul_of_nonneg_left hBn (le_of_lt ha)
  have h2 : 0 ≤ a * a * N := mul_nonneg (mul_nonneg (le_of_lt ha) (le_of_lt ha)) hN
  nlinarith

/-- Over the reals `min(p, 1 - p)` is `p` when `p <= 1/2`. -/
theorem dmin_real_half (p : ℝ) (hp : p ≤ 1 / 2) : @dmin ℝ realDoubleOps p (1.0 - p) = p := by
  have one : (1.0 : ℝ) = 1 := by norm_num
  simp only [dmin, DoubleOps.lt, one]
  split
  · rfl
  · rename_i h
    simp only [decide_eq_true_eq, not_lt] at h
    linarith

/-- The constants BTPE stores for `0 < p <= 1/2` and `n*p > 30`, over the reals:
`r = p`, `q = 1 - p`, `m = floor(n*p + p) >= 30`, `p1 = j + 1/2` for an integer
`j >= 3`, `xl = m - j >= 0`, `xr = m + j + 1 <= n`, and `c`, `laml`, `lamr`, `p4`
are positive with `p2 = p1*(1 + 2c)`. -/
theorem btpe_setup_real (n : Int) (hn : n < 2 ^ 63) (p : ℝ) (hp0 : 0 < p) (hp : p ≤ 1 / 2)
    (hnp : 30 < (n : ℝ) * p) :
    ∃ j : Int, 3 ≤ j ∧ j ≤ (@btpe_setup ℝ realDoubleOps n p).m ∧
      (@btpe_setup ℝ realDoubleOps n p).m + j + 1 ≤ n ∧
      (@btpe_setup ℝ realDoubleOps n p).p1 = (j : ℝ) + 1 / 2 ∧
      (@btpe_setup ℝ realDoubleOps n p).xm = ((@btpe_setup ℝ realDoubleOps n p).m : ℝ) + 1 / 2 ∧
      (@btpe_setup ℝ realDoubleOps n p).xl = (((@btpe_setup ℝ realDoubleOps n p).m - j : Int) : ℝ) ∧
      (@btpe_setup ℝ realDoubleOps n p).xr
        = (((@btpe_setup ℝ realDoubleOps n p).m + j + 1 : Int) : ℝ) ∧
      0 < (@btpe_setup ℝ realDoubleOps n p).c ∧
      (@btpe_setup ℝ realDoubleOps n p).c ≤ 3 / 2 ∧
      0 < (@btpe_setup ℝ realDoubleOps n p).laml ∧
      3 ≤ (@btpe_setup ℝ realDoubleOps n p).laml * (n : ℝ) ∧
      0 < (@btpe_setup ℝ realDoubleOps n p).lamr ∧
      3 ≤ (@btpe_setup ℝ realDoubleOps n p).lamr * (n : ℝ) ∧
      (@btpe_setup ℝ realDoubleOps n p).p2
        = (@btpe_setup ℝ realDoubleOps n p).p1 * (1 + 2 * (@btpe_setup ℝ realDoubleOps n p).c) ∧
      0 < (@btpe_setup ℝ realDoubleOps n p).p4 := by
  have one : (1.0 : ℝ) = 1 := by norm_num
  have two : (2.0 : ℝ) = 2 := by norm_num
  have half : (0.5 : ℝ) = 1 / 2 := by norm_num
  obtain ⟨hw3, hwm, hwn⟩ := btpe_width_bounds (n : ℝ) p hp0 hp hnp
  have hr := dmin_real_half p hp
  have hnr : (n : ℝ) < 2 ^ 63 := by exact_mod_cast hn
  have hfm0 : 0 ≤ ⌊(n : ℝ) * p + p⌋ := Int.floor_nonneg.mpr (by linarith)
  have hfm1 : ⌊(n : ℝ) * p + p⌋ < 2 ^ 63 := by
    rw [Int.floor_lt]
    push_cast
    nlinarith
  have hml := real_toLong_floor ((n : ℝ) * p + p) (by omega) hfm1
  simp only [btpe_setup, hr, DoubleOps.ofLong]
  rw [hml]
  simp only [DoubleOps.floor, DoubleOps.sqrt, one, two, half]
  have hm1 : ((⌊(n : ℝ) * p + p⌋ : Int) : ℝ) ≤ (n : ℝ) * p + p := Int.floor_le _
  have hm2 : (n : ℝ) * p + p < ((⌊(n : ℝ) * p + p⌋ : Int) : ℝ) + 1 := Int.lt_floor_add_one _
  have hj1 : ((⌊2.195 * √((n : ℝ) * p * (1 - p)) - 4.6 * (1 - p)⌋ : Int) : ℝ)
      ≤ 2.195 * √((n : ℝ) * p * (1 - p)) - 4.6 * (1 - p) := Int.floor_le _
  have hj3 : 3 ≤ ⌊2.195 * √((n : ℝ) * p * (1 - p)) - 4.6 * (1 - p)⌋ :=
    Int.le_floor.mpr (by push_cast; exact hw3)
  have hjm : ⌊2.195 * √((n : ℝ) * p * (1 - p)) - 4.6 * (1 - p)⌋ ≤ ⌊(n : ℝ) * p + p⌋ :=
    Int.floor_mono hwm
  have hmn : ⌊(n : ℝ) * p + p⌋ + ⌊2.195 * √((n : ℝ) * p * (1 - p)) - 4.6 * (1 - p)⌋ + 1 ≤ n := by
    have h : ((⌊(n : ℝ) * p + p⌋ + ⌊2.195 * √((n : ℝ) * p * (1 - p)) - 4.6 * (1 - p)⌋ + 1 : Int) : ℝ)
        ≤ (n : ℝ) := by
      push_cast
      linarith
    exact_mod_cast h
  have hj3r : (3 : ℝ) ≤ ((⌊2.195 * √((n : ℝ) * p * (1 - p)) - 4.6 * (1 - p)⌋ : Int) : ℝ) := by
    exact_mod_cast hj3
  have hjmr : ((⌊2.195 * √((n : ℝ) * p * (1 - p)) - 4.6 * (1 - p)⌋ : Int) : ℝ)
      ≤ ((⌊(n : ℝ) * p + p⌋ : Int) : ℝ) := by
    exact_mod_cast hjm
  clear hw3 hwm hwn hj1
  generalize ⌊2.195 * √((n : ℝ) * p * (1 - p)) - 4.6 * (1 - p)⌋ = J at *
  generalize ⌊(n : ℝ) * p + p⌋ = M at *
  have hc : (0 : ℝ) < 0.134 + 20.5 / (15.3 + (M : ℝ)) :=
    add_pos (by norm_num) (div_pos (by norm_num) (by linarith))
  have hA : 0 < (n : ℝ) * p + p - ((M : ℝ) + 1 / 2 - ((J : ℝ) + 1 / 2)) := by linarith
  have hB : 0 < (n : ℝ) * p + p - ((M : ℝ) + 1 / 2 - ((J : ℝ) + 1 / 2)) * p := by nlinarith
  have hA' : 0 < (M : ℝ) + 1 / 2 + ((J : ℝ) + 1 / 2) - ((n : ℝ) * p + p) := by linarith
  have hB' : 0 < ((M : ℝ) + 1 / 2 + ((J : ℝ) + 1 / 2)) * (1 - p) :=
    mul_pos (by linarith) (by linarith)
  have hl := div_pos hA hB
  have hr' := div_pos hA' hB'
  have hlaml := mul_pos hl (show 0 < 1 + ((n : ℝ) * p + p - ((M : ℝ) + 1 / 2 - ((J : ℝ) + 1 / 2)))
      / ((n : ℝ) * p + p - ((M : ℝ) + 1 / 2 - ((J : ℝ) + 1 / 2)) * p) / 2 by linarith)
  have hlamr := mul_pos hr' (show 0 < 1 + ((M : ℝ) + 1 / 2 + ((J : ℝ) + 1 / 2) - ((n : ℝ) * p + p))
      / (((M : ℝ) + 1 / 2 + ((J : ℝ) + 1 / 2)) * (1 - p)) / 2 by linarith)
  have hmnr : (M : ℝ) + (J : ℝ) + 1 ≤ (n : ℝ) := by exact_mod_cast hmn
  have hBn' : ((M : ℝ) + 1 / 2 + ((J : ℝ) + 1 / 2)) * (1 - p) ≤ (n : ℝ) := by nlinarith
  have hlamn := lam_lower ((M : ℝ) + 1 / 2 + ((J : ℝ) + 1 / 2) - ((n : ℝ) * p + p))
    (((M : ℝ) + 1 / 2 + ((J : ℝ) + 1 / 2)) * (1 - p)) (n : ℝ) hB' hBn' (by linarith)
  have hBn : (n : ℝ) * p + p - ((M : ℝ) + 1 / 2 - ((J : ℝ) + 1 / 2)) * p ≤ (n : ℝ) := by
    nlinarith
  have hlaml3 := lam_lower ((n : ℝ) * p + p - ((M : ℝ) + 1 / 2 - ((J : ℝ) + 1 / 2)))
    ((n : ℝ) * p + p - ((M : ℝ) + 1 / 2 - ((J : ℝ) + 1 / 2)) * p) (n : ℝ) hB hBn (by linarith)
  have hc2 : (0.134 : ℝ) + 20.5 / (15.3 + (M : ℝ)) ≤ 3 / 2 := by
    have hM0 : (0 : ℝ) ≤ (M : ℝ) := by exact_mod_cast hfm0
    have : (20.5 : ℝ) / (15.3 + (M : ℝ)) ≤ 20.5 / 15.3 :=
      div_le_div_of_nonneg_left (by norm_num) (by norm_num) (by linarith)
    have e : (20.5 : ℝ) / 15.3 ≤ 1.35 := by norm_num
    linarith
  refine ⟨J, hj3, hjm, hmn, rfl, trivial, by push_cast; ring, by push_cast; ring, hc, hc2,
    hlaml, hlaml3, hlamr, hlamn, trivial, ?_⟩
  have h1 := div_pos hc hlaml
  have h2 := div_pos hc hlamr
  have h3 : 0 < ((J : ℝ) + 1 / 2) * (1 + 2 * (0.134 + 20.5 / (15.3 + (M : ℝ)))) :=
    mul_pos (by linarith) (by linarith)
  linarith


/-- Floor of a real between two integers lies between them. -/
theorem floor_between (z : ℝ) (L H : Int) (h1 : (L : ℝ) ≤ z) (h2 : z ≤ (H : ℝ)) :
    L ≤ ⌊z⌋ ∧ ⌊z⌋ ≤ H := by
  refine ⟨Int.le_floor.mpr h1, ?_⟩
  have := Int.floor_mono h2
  rwa [Int.floor_intCast] at this

/-- A pair whose first component is `if c then some y0 else none` equals
`(some y, s1)` only with `y0 = y`. -/
theorem pair_if_some {α β : Type} (c : Bool) (y0 y : α) (sf s1 : β)
    (h : ((if c = true then some y0 else none), sf) = (some y, s1)) : y0 = y := by
  cases c
  · simp at h
  · simp only [if_true, Prod.mk.injEq, Option.some.injEq] at h
    exact h.1

/-- A conditional that yields `(none, sf)` on its condition equals `(some y, s1)`
only through its other branch. -/
theorem if_none_pair {α β : Type} (c : Prop) [Decidable c] (X : Option α × β) (y : α)
    (sf s1 : β) (h : (if c then (none, sf) else X) = (some y, s1)) :
    ¬ c ∧ X = (some y, s1) := by
  by_cases hc : c
  · rw [if_pos hc] at h
    simp at h
  · rw [if_neg hc] at h
    exact ⟨hc, h⟩

/-- Over the reals a value between two integers `0 <= L` and `H < 2^63` casts to
a `long` between them. -/
theorem real_toLong_floor_between (z : ℝ) (L H : Int) (hL : 0 ≤ L) (hH : H < 2 ^ 63)
    (h1 : (L : ℝ) ≤ z) (h2 : z ≤ (H : ℝ)) :
    L ≤ @DoubleOps.toLong ℝ realDoubleOps (@DoubleOps.floor ℝ realDoubleOps z) ∧
    @DoubleOps.toLong ℝ realDoubleOps (@DoubleOps.floor ℝ realDoubleOps z) ≤ H := by
  have hb := floor_between z L H h1 h2
  rw [real_toLong_floor z (by omega) (by omega)]
  exact hb

/-- Over the reals a value `z <= L` with `0 <= L` casts to a `long` that is at
most `L` (it is `floor z`, or `LONG_MIN`). -/
theorem real_toLong_floor_le_int (z : ℝ) (L : Int) (hL : 0 ≤ L) (hz : z ≤ (L : ℝ)) :
    @DoubleOps.toLong ℝ realDoubleOps (@DoubleOps.floor ℝ realDoubleOps z) ≤ L := by
  have hfl : ⌊z⌋ ≤ L := by
    have := Int.floor_mono hz
    rwa [Int.floor_intCast] at this
  by_cases h0 : -2 ^ 63 ≤ ⌊z⌋
  · exact le_trans (real_toLong_floor_le z h0) hfl
  · have ht : real_trunc ((⌊z⌋ : Int) : ℝ) = ⌊z⌋ := by
      unfold real_trunc
      split
      · exact Int.floor_intCast _
      · exact Int.ceil_intCast _
    simp only [DoubleOps.toLong, DoubleOps.floor, real_toLong, ht]
    rw [if_neg (fun h => h0 h.1)]
    omega

/-- Over the reals a value `H <= z < 2^63` with `0 <= H` casts to a `long` that is
at least `H`. -/
theorem real_toLong_floor_ge_int (z : ℝ) (H : Int) (hH : 0 ≤ H) (hz : (H : ℝ) ≤ z)
    (hfit : z < 2 ^ 63) :
    H ≤ @DoubleOps.toLong ℝ realDoubleOps (@DoubleOps.floor ℝ realDoubleOps z) := by
  have hfl : H ≤ ⌊z⌋ := Int.le_floor.mpr hz
  have hfl1 : ⌊z⌋ < 2 ^ 63 := by
    rw [Int.floor_lt]
    exact_mod_cast hfit
  rw [real_toLong_floor z (by omega) hfl1]
  exact hfl

/-- One pass of BTPE over the reals, with draws in `(0, 1)` whose right-tail
candidate fits a `long`, on constants with `0 <= xl = xm - p1`,
`xr = xm + p1 <= n` integers, `p1`, `c`, `laml`, `lamr`, `p4` positive and
`p2 = p1*(1 + 2c)`: a candidate that reaches Step60 lies in `[0, n]`. -/
theorem btpe_attempt_range
    (hS : ∀ r, 0 < (S.random_double r).1 ∧ (S.random_double r).1 < 1)
    (b : binomial_t ℝ) (n : Int) (hn : n < 2 ^ 63) (L H : Int) (hL : 0 ≤ L) (hH : H ≤ n)
    (hxl : b.xl = (L : ℝ)) (hxr : b.xr = (H : ℝ))
    (hml : b.xm - b.p1 = b.xl) (hmr : b.xm + b.p1 = b.xr)
    (hp1 : 0 < b.p1) (hc : 0 < b.c) (hlaml : 0 < b.laml) (hlamr : 0 < b.lamr)
    (hp2 : b.p2 = b.p1 * (1 + 2 * b.c)) (hp4 : 0 < b.p4)
    (hfit : ∀ r, b.xr - Real.log (S.random_double r).1 / b.lamr < 2 ^ 63)
    (s : aug_state R ℝ) (y : Int) (s1 : aug_state R ℝ)
    (h : @btpe_attempt R ℝ realDoubleOps S b n s = (some y, s1)) : 0 ≤ y ∧ y ≤ n := by
  have one : (1.0 : ℝ) = 1 := by norm_num
  have hU0 : 0 < (random_double S s).1 := (hS s.rng).1
  have hV0 : 0 < (random_double S (random_double S s).2).1 := (hS (random_double S s).2.rng).1
  have hV1 : (random_double S (random_double S s).2).1 < 1 := (hS (random_double S s).2.rng).2
  have hVfit : b.xr - Real.log (random_double S (random_double S s).2).1 / b.lamr < 2 ^ 63 :=
    hfit (random_double S s).2.rng
  simp only [btpe_attempt] at h
  generalize (random_double S (random_double S s).2).2 = sf at h
  generalize (random_double S (random_double S s).2).1 = V at h hV0 hV1 hVfit
  generalize (random_double S s).1 = U at h hU0
  simp only [DoubleOps.gt, DoubleOps.lt, DoubleOps.log, Bool.not_eq_true',
    decide_eq_false_iff_not, not_lt] at h
  have hu0 : 0 ≤ U * b.p4 := mul_nonneg (le_of_lt hU0) (le_of_lt hp4)
  have hLH : L ≤ H := by
    have : (L : ℝ) ≤ (H : ℝ) := by rw [← hxl, ← hxr, ← hml, ← hmr]; linarith
    exact_mod_cast this
  have hlog : Real.log V ≤ 0 := Real.log_nonpos (le_of_lt hV0) (le_of_lt hV1)
  by_cases hu1 : U * b.p4 ≤ b.p1
  · -- triangle
    rw [if_pos hu1] at h
    simp only [Prod.mk.injEq, Option.some.injEq] at h
    rw [← h.1]
    have hb := real_toLong_floor_between (b.xm - b.p1 * V + U * b.p4) L H hL (by omega)
      (by rw [← hxl, ← hml]; nlinarith) (by rw [← hxr, ← hmr]; nlinarith)
    exact ⟨by omega, by omega⟩
  rw [if_neg hu1] at h
  by_cases hu2 : U * b.p4 ≤ b.p2
  · -- parallelogram
    rw [if_pos hu2] at h
    have hd : 0 ≤ (U * b.p4 - b.p1) / b.c := div_nonneg (by linarith) (le_of_lt hc)
    have hd2 : (U * b.p4 - b.p1) / b.c ≤ 2 * b.p1 := by
      rw [div_le_iff₀ hc]
      nlinarith
    have hb := real_toLong_floor_between (b.xl + (U * b.p4 - b.p1) / b.c) L H hL (by omega)
      (by rw [← hxl]; linarith) (by rw [← hxr, ← hmr, ← hml]; linarith)
    have hy := pair_if_some _ _ _ _ _ (if_none_pair _ _ _ _ _ h).2
    rw [← hy]
    exact ⟨by omega, by omega⟩
  rw [if_neg hu2] at h
  by_cases hu3 : U * b.p4 ≤ b.p3
  · -- left tail
    rw [if_pos hu3] at h
    have hd : Real.log V / b.laml ≤ 0 := div_nonpos_of_nonpos_of_nonneg hlog (le_of_lt hlaml)
    have hb := real_toLong_floor_le_int (b.xl + Real.log V / b.laml) L hL
      (by rw [← hxl]; linarith)
    obtain ⟨hy0, h2⟩ := if_none_pair _ _ _ _ _ h
    have hy := pair_if_some _ _ _ _ _ h2
    rw [← hy]
    exact ⟨by omega, by omega⟩
  · -- right tail
    rw [if_neg hu3] at h
    have hd : Real.log V / b.lamr ≤ 0 := div_nonpos_of_nonpos_of_nonneg hlog (le_of_lt hlamr)
    have hb := real_toLong_floor_ge_int (b.xr - Real.log V / b.lamr) H (by omega)
      (by rw [← hxr]; linarith) hVfit
    obtain ⟨hyn, h2⟩ := if_none_pair _ _ _ _ _ h
    have hy := pair_if_some _ _ _ _ _ h2
    rw [← hy]
    exact ⟨by omega, by omega⟩

/-- The retry loop of BTPE over the reals only returns candidates in `[0, n]`. -/
theorem btpe_loop_range
    (hS : ∀ r, 0 < (S.random_double r).1 ∧ (S.random_double r).1 < 1)
    (b : binomial_t ℝ) (n : Int) (hn : n < 2 ^ 63) (L H : Int) (hL : 0 ≤ L) (hH : H ≤ n)
    (hxl : b.xl = (L : ℝ)) (hxr : b.xr = (H : ℝ))
    (hml : b.xm - b.p1 = b.xl) (hmr : b.xm + b.p1 = b.xr)
    (hp1 : 0 < b.p1) (hc : 0 < b.c) (hlaml : 0 < b.laml) (hlamr : 0 < b.lamr)
    (hp2 : b.p2 = b.p1 * (1 + 2 * b.c)) (hp4 : 0 < b.p4)
    (hfit : ∀ r, b.xr - Real.log (S.random_double r).1 / b.lamr < 2 ^ 63) :
    ∀ (fuel : Nat) (s : aug_state R ℝ) (y : Int) (s1 : aug_state R ℝ),
      @btpe_loop R ℝ realDoubleOps S b n fuel s = some (y, s1) → 0 ≤ y ∧ y ≤ n := by
  intro fuel
  induction fuel with
  | zero => intro s y s1 h; simp [btpe_loop] at h
  | succ k ih =>
    intro s y s1 h
    simp only [btpe_loop] at h
    split at h
    · rename_i y1 s2 heq
      simp only [Option.some.injEq, Prod.mk.injEq] at h
      rw [← h.1]
      exact btpe_attempt_range S hS b n hn L H hL hH hxl hxr hml hmr hp1 hc hlaml hlamr hp2 hp4
        hfit s y1 s2 heq
    · exact ih _ y s1 h

/-- Triangle region (`u <= p1`): the candidate `(long)floor(xm - p1*v + u)` lies in
`[xl, xr]`. -/
theorem btpe_triangle_candidate (b : binomial_t ℝ) (L H : Int) (hL : 0 ≤ L) (hH : H < 2 ^ 63)
    (hxl : b.xl = (L : ℝ)) (hxr : b.xr = (H : ℝ))
    (hml : b.xm - b.p1 = b.xl) (hmr : b.xm + b.p1 = b.xr) (hp1 : 0 < b.p1)
    (u V : ℝ) (hu0 : 0 ≤ u) (hu1 : u ≤ b.p1) (hV0 : 0 ≤ V) (hV1 : V < 1) :
    L ≤ @DoubleOps.toLong ℝ realDoubleOps
        (@DoubleOps.floor ℝ realDoubleOps (b.xm - b.p1 * V + u)) ∧
    @DoubleOps.toLong ℝ realDoubleOps
        (@DoubleOps.floor ℝ realDoubleOps (b.xm - b.p1 * V + u)) ≤ H :=
  real_toLong_floor_between (b.xm - b.p1 * V + u) L H hL hH
    (by rw [← hxl, ← hml]; nlinarith) (by rw [← hxr, ← hmr]; nlinarith)

/-- Parallelogram region (`p1 < u <= p2`): the candidate
`(long)floor(xl + (u - p1)/c)` lies in `[xl, xr]`. -/
theorem btpe_parallelogram_candidate (b : binomial_t ℝ) (L H : Int) (hL : 0 ≤ L)
    (hH : H < 2 ^ 63) (hxl : b.xl = (L : ℝ)) (hxr : b.xr = (H : ℝ))
    (hml : b.xm - b.p1 = b.xl) (hmr : b.xm + b.p1 = b.xr) (hc : 0 < b.c)
    (hp2 : b.p2 = b.p1 * (1 + 2 * b.c))
    (u : ℝ) (hu1 : b.p1 < u) (hu2 : u ≤ b.p2) :
    L ≤ @DoubleOps.toLong ℝ realDoubleOps
        (@DoubleOps.floor ℝ realDoubleOps (b.xl + (u - b.p1) / b.c)) ∧
    @DoubleOps.toLong ℝ realDoubleOps
        (@DoubleOps.floor ℝ realDoubleOps (b.xl + (u - b.p1) / b.c)) ≤ H := by
  have hd : 0 ≤ (u - b.p1) / b.c := div_nonneg (by linarith) (le_of_lt hc)
  have hd2 : (u - b.p1) / b.c ≤ 2 * b.p1 := by
    rw [div_le_iff₀ hc]
    nlinarith
  exact real_toLong_floor_between (b.xl + (u - b.p1) / b.c) L H hL hH
    (by rw [← hxl]; linarith) (by rw [← hxr, ← hmr, ← hml]; linarith)

/-- A first draw in the triangle region ends the retry loop at once. -/
theorem btpe_loop_triangle (b : binomial_t ℝ) (n : Int) (s : aug_state R ℝ) (k : Nat)
    (h : (S.random_double s.rng).1 * b.p4 ≤ b.p1) :
    ∃ y s1, @btpe_loop R ℝ realDoubleOps S b n (k + 1) s = some (y, s1) := by
  have hgt : (!@DoubleOps.gt ℝ realDoubleOps ((random_double S s).1 * b.p4) b.p1) = true := by
    simp only [DoubleOps.gt, DoubleOps.lt, Bool.not_eq_true', decide_eq_false_iff_not, not_lt]
    exact h
  have hatt : ∃ y s1, @btpe_attempt R ℝ realDoubleOps S b n s = (some y, s1) := by
    unfold btpe_attempt
    simp only []
    rw [if_pos hgt]
    exact ⟨_, _, rfl⟩
  obtain ⟨y, s1, hy⟩ := hatt
  refine ⟨y, s1, ?_⟩
  simp only [btpe_loop, hy]

/-- C18 (as amended). Under real-number arithmetic, with `long` a 64-bit type and
every `random_double` in `(0, 1)` (so that every logarithm taken is defined)
and not so small that the right-tail candidate `xr - log(v)/lamr` leaves the
range of `long`: for every `long` `n` and every `p` with `0 < p <= 0.5` and
`n*p > 30`, on a state whose binomial cache is stale for `(n, p)` or holds the
constants BTPE stores for `(n, p)`, every `y` that `random_binomial_btpe(n, p)`
returns satisfies `0 <= y <= n`; the stored `xl` and `xr` are integers with
`0 <= xl` and `xr <= n`, and the candidates of the triangle region (`u <= p1`)
and of the parallelogram region (`p1 < u <= p2`) lie in `[xl, xr]`; and the call
does return, with any positive fuel, when its first draw falls in the triangle
region. -/
theorem random_binomial_btpe_range
    (hS : ∀ r, 0 < (S.random_double r).1 ∧ (S.random_double r).1 < 1)
    (s : aug_state R ℝ) (n : Int) (hn : n < 2 ^ 63) (p : ℝ) (hp0 : 0 < p) (hp : p ≤ 1 / 2)
    (hnp : 30 < (n : ℝ) * p)
    (hcache : @binomial_stale ℝ realDoubleOps s.binomial n p = false →
      @btpe_setup ℝ realDoubleOps n p = s.binomial)
    (hfit : ∀ r, (@btpe_setup ℝ realDoubleOps n p).xr
      - Real.log (S.random_double r).1 / (@btpe_setup ℝ realDoubleOps n p).lamr < 2 ^ 63) :
    (∀ (fuel : Nat) (y : Int) (s' : aug_state R ℝ),
      @random_binomial_btpe R ℝ realDoubleOps S fuel s n p = some (y, s') → 0 ≤ y ∧ y ≤ n) ∧
    (∃ xl xr : Int, 0 ≤ xl ∧ xr ≤ n ∧
      (@btpe_setup ℝ realDoubleOps n p).xl = (xl : ℝ) ∧
      (@btpe_setup ℝ realDoubleOps n p).xr = (xr : ℝ) ∧
      ∀ U V : ℝ, 0 ≤ U → U < 1 → 0 ≤ V → V < 1 →
        (@DoubleOps.gt ℝ realDoubleOps (U * (@btpe_setup ℝ realDoubleOps n p).p4)
            (@btpe_setup ℝ realDoubleOps n p).p1 = false →
          xl ≤ @DoubleOps.toLong ℝ realDoubleOps (@DoubleOps.floor ℝ realDoubleOps
              ((@btpe_setup ℝ realDoubleOps n p).xm - (@btpe_setup ℝ realDoubleOps n p).p1 * V
                + U * (@btpe_setup ℝ realDoubleOps n p).p4)) ∧
          @DoubleOps.toLong ℝ realDoubleOps (@DoubleOps.floor ℝ realDoubleOps
              ((@btpe_setup ℝ realDoubleOps n p).xm - (@btpe_setup ℝ realDoubleOps n p).p1 * V
                + U * (@btpe_setup ℝ realDoubleOps n p).p4)) ≤ xr) ∧
        (@DoubleOps.gt ℝ realDoubleOps (U * (@btpe_setup ℝ realDoubleOps n p).p4)
            (@btpe_setup ℝ realDoubleOps n p).p1 = true →
          @DoubleOps.gt ℝ realDoubleOps (U * (@btpe_setup ℝ realDoubleOps n p).p4)
            (@btpe_setup ℝ realDoubleOps n p).p2 = false →
          xl ≤ @DoubleOps.toLong ℝ realDoubleOps (@DoubleOps.floor ℝ realDoubleOps
              ((@btpe_setup ℝ realDoubleOps n p).xl
                + (U * (@btpe_setup ℝ realDoubleOps n p).p4
                    - (@btpe_setup ℝ realDoubleOps n p).p1)
                  / (@btpe_setup ℝ realDoubleOps n p).c)) ∧
          @DoubleOps.toLong ℝ realDoubleOps (@DoubleOps.floor ℝ realDoubleOps
              ((@btpe_setup ℝ realDoubleOps n p).xl
                + (U * (@btpe_setup ℝ realDoubleOps n p).p4
                    - (@btpe_setup ℝ realDoubleOps n p).p1)
                  / (@btpe_setup ℝ realDoubleOps n p).c)) ≤ xr)) ∧
    (∀ fuel : Nat, 0 < fuel →
      (S.random_double s.rng).1 * (@btpe_setup ℝ realDoubleOps n p).p4
        ≤ (@btpe_setup ℝ realDoubleOps n p).p1 →
      ∃ y s', @random_binomial_btpe R ℝ realDoubleOps S fuel s n p = some (y, s')) := by
  obtain ⟨j, hj3, hjm, hmn, hp1e, hxme, hxle, hxre, hc, _, hlaml, _, hlamr, _, hp2, hp4⟩ :=
    btpe_setup_real n hn p hp0 hp hnp
  have hj3r : (3 : ℝ) ≤ (j : ℝ) := by exact_mod_cast hj3
  have hp1 : 0 < (@btpe_setup ℝ realDoubleOps n p).p1 := by rw [hp1e]; linarith
  have hml : (@btpe_setup ℝ realDoubleOps n p).xm - (@btpe_setup ℝ realDoubleOps n p).p1
      = (@btpe_setup ℝ realDoubleOps n p).xl := by
    rw [hxme, hp1e, hxle]; push_cast; ring
  have hmr : (@btpe_setup ℝ realDoubleOps n p).xm + (@btpe_setup ℝ realDoubleOps n p).p1
      = (@btpe_setup ℝ realDoubleOps n p).xr := by
    rw [hxme, hp1e, hxre]; push_cast; ring
  have hs0 : (if @binomial_stale ℝ realDoubleOps s.binomial n p = true then
        { s with binomial := @btpe_setup ℝ realDoubleOps n p } else s).binomial
      = @btpe_setup ℝ realDoubleOps n p := by
    by_cases hst : @binomial_stale ℝ realDoubleOps s.binomial n p = true
    · rw [if_pos hst]
    · rw [if_neg hst]
      exact (hcache (by simpa using hst)).symm
  have hhalf : @DoubleOps.gt ℝ realDoubleOps p 0.5 = false := by
    simp only [DoubleOps.gt, DoubleOps.lt, decide_eq_false_iff_not, not_lt]
    norm_num
    linarith
  refine ⟨?_, ⟨_, _, by omega, hmn, hxle, hxre, ?_⟩, ?_⟩
  · intro fuel y s' h
    unfold random_binomial_btpe at h
    simp only [hs0, hhalf] at h
    split at h
    · simp at h
    · rename_i y0 s1 hl
      simp only [Bool.false_eq_true, if_false, Option.some.injEq, Prod.mk.injEq] at h
      rw [← h.1]
      exact btpe_loop_range S hS _ n hn _ _ (by omega) hmn hxle hxre hml hmr hp1 hc hlaml hlamr
        hp2 hp4 hfit fuel _ y0 s1 hl
  · intro U V hU0 hU1 hV0 hV1
    have hu0 : 0 ≤ U * (@btpe_setup ℝ realDoubleOps n p).p4 := mul_nonneg hU0 (le_of_lt hp4)
    constructor
    · intro h1
      simp only [DoubleOps.gt, DoubleOps.lt, decide_eq_false_iff_not, not_lt] at h1
      exact btpe_triangle_candidate _ _ _ (by omega) (by omega) hxle hxre hml hmr hp1 _ V hu0 h1
        hV0 hV1
    · intro h1 h2
      simp only [DoubleOps.gt, DoubleOps.lt, decide_eq_false_iff_not, not_lt,
        decide_eq_true_eq] at h1 h2
      exact btpe_parallelogram_candidate _ _ _ (by omega) (by omega) hxle hxre hml hmr hc hp2
        _ h1 h2
  · intro fuel hf hfirst
    obtain ⟨k, rfl⟩ : ∃ k, fuel = k + 1 := ⟨fuel - 1, by omega⟩
    have hrng : (if @binomial_stale ℝ realDoubleOps s.binomial n p = true then
          { s with binomial := @btpe_setup ℝ realDoubleOps n p } else s).rng = s.rng := by
      split <;> rfl
    obtain ⟨y, s1, hl⟩ := btpe_loop_triangle S
      (if @binomial_stale ℝ realDoubleOps s.binomial n p = true then
          { s with binomial := @btpe_setup ℝ realDoubleOps n p } else s).binomial n
      (if @binomial_stale ℝ realDoubleOps s.binomial n p = true then
          { s with binomial := @btpe_setup ℝ realDoubleOps n p } else s) k
      (by rw [hs0, hrng]; exact hfirst)
    unfold random_binomial_btpe
    simp only []
    rw [hl]
    simp only [hhalf, Bool.false_eq_true, if_false]
    exact ⟨_, _, rfl⟩

/-- Arithmetic of the witness below: with constants in the ranges that
`btpe_setup_real` gives for `n = 100`, a draw `1/1000` falls in the triangle
region and its right-tail candidate fits a `long`. -/
theorem btpe_witness_arith (p1 p2 p4 c laml lamr xr : ℝ) (hp1 : 3 ≤ p1)
    (hp2 : p2 = p1 * (1 + 2 * c)) (hp4 : p4 = p2 + c / laml + c / lamr)
    (hc2 : c ≤ 3 / 2) (hlaml : 0 < laml) (hlaml3 : 3 ≤ laml * 100)
    (hlamr : 0 < lamr) (hlamr3 : 3 ≤ lamr * 100) (hxr : xr ≤ 100) :
    1 / 1000 * p4 ≤ p1 ∧ xr - Real.log (1 / 1000) / lamr < 2 ^ 63 := by
  have hcl : c / laml ≤ 50 := by
    rw [div_le_iff₀ hlaml]
    nlinarith
  have hcr : c / lamr ≤ 50 := by
    rw [div_le_iff₀ hlamr]
    nlinarith
  have hlog : -Real.log (1 / 1000) ≤ 999 := by
    rw [one_div, Real.log_inv, neg_neg]
    have := Real.log_le_sub_one_of_pos (show (0 : ℝ) < 1000 by norm_num)
    linarith
  constructor
  · rw [hp4, hp2]
    nlinarith
  · have h1 : -Real.log (1 / 1000) / lamr ≤ 33300 := by
      rw [div_le_iff₀ hlamr]
      nlinarith
    have h2 : xr - Real.log (1 / 1000) / lamr = xr + -Real.log (1 / 1000) / lamr := by ring
    rw [h2]
    have e63 : (2 : ℝ) ^ 63 = 9223372036854775808 := by norm_num
    rw [e63]
    linarith

/-- Witness for C18 on the reals: the zeroed state, every `random_double` equal to
`1/1000`, `n = 100`, `p = 1/2`, fuel 1. -/
theorem random_binomial_btpe_range_witness :
    ((∀ r, 0 < ((real_const_source (1 / 1000)).random_double r).1 ∧
        ((real_const_source (1 / 1000)).random_double r).1 < 1) ∧
      (100 : Int) < 2 ^ 63 ∧
      (0 : ℝ) < 1 / 2 ∧ (1 / 2 : ℝ) ≤ 1 / 2 ∧ (30 : ℝ) < ((100 : Int) : ℝ) * (1 / 2) ∧
      @binomial_stale ℝ realDoubleOps real_state_zero.binomial 100 (1 / 2) = true ∧
      (∀ r, (@btpe_setup ℝ realDoubleOps 100 (1 / 2)).xr
        - Real.log ((real_const_source (1 / 1000)).random_double r).1
          / (@btpe_setup ℝ realDoubleOps 100 (1 / 2)).lamr < 2 ^ 63)) ∧
    ∃ y s', @random_binomial_btpe Nat ℝ realDoubleOps (real_const_source (1 / 1000)) 1
        real_state_zero 100 (1 / 2) = some (y, s') ∧ 0 ≤ y ∧ y ≤ 100 := by
  have hS : ∀ r, 0 < ((real_const_source (1 / 1000)).random_double r).1 ∧
      ((real_const_source (1 / 1000)).random_double r).1 < 1 :=
    fun _ => ⟨by simp only [real_const_source, stream_source]; norm_num, by
      simp only [real_const_source, stream_source]; norm_num⟩
  have hnp : (30 : ℝ) < ((100 : Int) : ℝ) * (1 / 2) := by norm_num
  have hst : @binomial_stale ℝ realDoubleOps real_state_zero.binomial 100 (1 / 2) = true := by
    simp [binomial_stale, real_state_zero, real_binomial_zero]
  obtain ⟨j, hj3, _, hmn, hp1e, _, _, hxre, hc, hc2, hlaml, hlaml3, hlamr, hlamr3, hp2, _⟩ :=
    btpe_setup_real 100 (by decide) (1 / 2) (by norm_num) (le_refl _) hnp
  have hj3r : (3 : ℝ) ≤ (j : ℝ) := by exact_mod_cast hj3
  have hxr100 : (@btpe_setup ℝ realDoubleOps 100 (1 / 2)).xr ≤ 100 := by
    rw [hxre]
    exact_mod_cast hmn
  push_cast at hlaml3 hlamr3
  have A := btpe_witness_arith _ _ (@btpe_setup ℝ realDoubleOps 100 (1 / 2)).p4 _ _ _ _
    (by rw [hp1e]; linarith) hp2 rfl hc2 hlaml hlaml3 hlamr hlamr3 hxr100
  have hfit : ∀ r : Nat, (@btpe_setup ℝ realDoubleOps 100 (1 / 2)).xr
      - Real.log ((real_const_source (1 / 1000)).random_double r).1
        / (@btpe_setup ℝ realDoubleOps 100 (1 / 2)).lamr < 2 ^ 63 := fun _ => A.2
  have T := random_binomial_btpe_range (real_const_source (1 / 1000)) hS real_state_zero 100
    (by decide) (1 / 2) (by norm_num) (le_refl _) hnp
    (fun h => by rw [hst] at h; exact absurd h (by decide)) hfit
  obtain ⟨y, s', h⟩ := T.2.2 1 (by decide) A.1
  exact ⟨⟨hS, by decide, by norm_num, le_refl _, hnp, hst, hfit⟩, y, s', h, T.1 1 y s' h⟩

/-- C18 (counterexample). The claim fails on a cache that is valid for `(n, p)`
but holds another pair's BTPE constants.  `random_binomial_btpe(1000, 0.5)`
stores the constants of `(1000, 0.5)` (`xm = 500.5`, `p1 = 32.5`, ...);
`random_binomial_inversion(100, 0.5)` then overwrites only `nsave`, `psave`, `q`,
`r`, `c`, `m`; after that the cache is not stale for `(100, 0.5)`, and
`random_binomial_btpe(100, 0.5)` runs on `xm = 500.5`: with draws `0, 0` it
returns `floor(500.5) = 500`, with draws `1/4, 1/4` it returns 503, both above
`n = 100`. -/
theorem random_binomial_btpe_mixed_cache :
    (random_binomial_btpe demo_zero_source 1 state_zero 1000 0.5).map
        (fun x => (x.1, x.2.binomial)) = some (500, btpe_setup 1000 0.5) ∧
    demo_mixed_cached.binomial = inversion_setup (btpe_setup 1000 0.5) 100 0.5 ∧
    binomial_stale demo_mixed_cached.binomial 100 (0.5 : Frac) = false ∧
    (random_binomial_btpe demo_zero_source 1 demo_mixed_cached 100 0.5).map Prod.fst
      = some 500 ∧
    (random_binomial_btpe demo_quarter_source 1 demo_mixed_cached 100 0.5).map Prod.fst
      = some 503 := by
  refine ⟨by decide, rfl, by decide, by decide, by decide⟩

end BtpeRange

end CoreRng
